import Mathlib

/-!
# Sample-format conversion filter (`libffmpeg/afilter/af_format.c`)

A shallow embedding of the audio format conversion filter: the byte-order swap
`endian`, the sign flip `si2us`, the width rescale `change_bps` with its 24-bit
packing helpers, the validators `check_bps` and `check_format`, the negotiator
`af_init_format` and the per-block pipeline `play`.

Memory is a map from byte addresses to bytes; a C pointer is an address, and a
typed access `((uint16_t*)p)[i]` reads or writes the bytes at `p + 2*i` in the
byte order of the build.  C `int` values are integers; buffer sizes are assumed
to fit their C type, so no wrap-around is modelled for `len * bps`.
-/

namespace Splayer

/-! ## Bytes and memory -/

/-- One byte of memory (`uint8_t`). -/
abbrev Byte := Fin 256

/-- Conversion of an unsigned value to `uint8_t`: the value modulo 256. -/
def Byte.ofNat (n : Nat) : Byte := ⟨n % 256, Nat.mod_lt n (by decide)⟩

/-- Byte-addressed memory. -/
abbrev Mem := Nat → Byte

/-- The store `((uint8_t*)0)[a] = b`. -/
def writeByte (m : Mem) (a : Nat) (b : Byte) : Mem :=
  fun x => if x = a then b else m x

/-- The `k` bytes found at addresses `a, a+1, ..., a+k-1`. -/
def readBytes (m : Mem) (a : Nat) : Nat → List Byte
  | 0 => []
  | k + 1 => m a :: readBytes m (a + 1) k

/-- Stores the bytes `bs` at addresses `a, a+1, ...`. -/
def writeBytes (m : Mem) (a : Nat) : List Byte → Mem
  | [] => m
  | b :: bs => writeBytes (writeByte m a b) (a + 1) bs

/-- Places a block of bytes in an otherwise zero memory. -/
def memOf (a : Nat) (bs : List Byte) : Mem := writeBytes (fun _ => 0) a bs

/-! ## Build configuration

`config.h`, `af.h` and `afilter/format.h` are not part of the sources at hand.
Everything the code takes from them is a field of `Build`. -/

/-- The compile-time constants the filter takes from headers that are not among
the sources: the byte order of the target, the availability of the `bswap`
instruction, the bit-mask constants of the packed format code, and the library
function `af_fmt2bits`. -/
structure Build where
  WORDS_BIGENDIAN : Bool
  HAVE_BSWAP : Bool
  AF_FORMAT_BE : Int
  AF_FORMAT_LE : Int
  AF_FORMAT_NE : Int
  AF_FORMAT_END_MASK : Int
  AF_FORMAT_SI : Int
  AF_FORMAT_US : Int
  AF_FORMAT_SIGN_MASK : Int
  AF_FORMAT_I : Int
  AF_FORMAT_F : Int
  AF_FORMAT_POINT_MASK : Int
  AF_FORMAT_MU_LAW : Int
  AF_FORMAT_A_LAW : Int
  AF_FORMAT_MPEG2 : Int
  AF_FORMAT_AC3 : Int
  AF_FORMAT_IMA_ADPCM : Int
  AF_FORMAT_SPECIAL_MASK : Int
  af_fmt2bits : Int → Int

/-! ## Typed loads and stores -/

/-- Value of a byte sequence read as an unsigned integer, least significant
byte first. -/
def decodeLE : List Byte → Nat
  | [] => 0
  | b :: bs => b.val + 256 * decodeLE bs

/-- The `k` low-order bytes of `v`, least significant byte first. -/
def encodeLE : Nat → Nat → List Byte
  | 0, _ => []
  | k + 1, v => Byte.ofNat v :: encodeLE k (v / 256)

/-- Value of a byte sequence in the byte order of the build. -/
def decodeNE (K : Build) (bs : List Byte) : Nat :=
  if K.WORDS_BIGENDIAN then decodeLE bs.reverse else decodeLE bs

/-- The `k` low-order bytes of `v` in the byte order of the build. -/
def encodeNE (K : Build) (k v : Nat) : List Byte :=
  if K.WORDS_BIGENDIAN then (encodeLE k v).reverse else encodeLE k v

/-- The load `*(uint16_t*)a`. -/
def load16 (K : Build) (m : Mem) (a : Nat) : Nat := decodeNE K (readBytes m a 2)

/-- The store `*(uint16_t*)a = v`; the value is converted to `uint16_t`. -/
def store16 (K : Build) (m : Mem) (a v : Nat) : Mem := writeBytes m a (encodeNE K 2 v)

/-- The load `*(uint32_t*)a`. -/
def load32 (K : Build) (m : Mem) (a : Nat) : Nat := decodeNE K (readBytes m a 4)

/-- The store `*(uint32_t*)a = v`; the value is converted to `uint32_t`. -/
def store32 (K : Build) (m : Mem) (a v : Nat) : Mem := writeBytes m a (encodeNE K 4 v)

/-- The loop `for(i=0;i<n;i++) body(i)` acting on memory. -/
def forLoop : Nat → (Nat → Mem → Mem) → Mem → Mem
  | 0, _, m => m
  | n + 1, body, m => body n (forLoop n body m)

/-! ## `bswap.h` -/

/-- The instruction `rorw $8` applied to a register: the low 16 bits are rotated
by 8, the bits above them are kept. -/
def rorw8 (x : Nat) : Nat :=
  (x / 65536) * 65536 + ((x % 65536) / 256 + (x % 256) * 256)

/-- The instruction `rorl $16` on a 32-bit register: the two halves are
exchanged. -/
def rorl16 (x : Nat) : Nat :=
  (x % 4294967296) / 65536 + (x % 65536) * 65536

/-- The instruction `bswap` on a 32-bit register: the four bytes are reversed. -/
def bswapInsn (x : Nat) : Nat :=
  (x / 16777216) % 256 + ((x / 65536) % 256) * 256 + ((x / 256) % 256) * 65536
    + (x % 256) * 16777216

/-- `bswap_16` of `bswap.h`: its argument and result are `uint16_t`. -/
def bswap_16 (x : Nat) : Nat := rorw8 (x % 65536) % 65536

/-- `bswap_32` of `bswap.h`: its argument and result are `uint32_t`. -/
def bswap_32 (K : Build) (x : Nat) : Nat :=
  if K.HAVE_BSWAP then bswapInsn (x % 4294967296)
  else rorw8 (rorl16 (rorw8 (x % 4294967296)))

/-! ## `endian` -/

/-- One iteration of the `case(3)` loop of `endian`. -/
def endian3_body (inp out : Nat) (i : Nat) (m : Mem) : Mem :=
  let s := m (inp + 3 * i)
  let m1 := writeByte m (out + 3 * i) (m (inp + (3 * i + 2)))
  let m2 := if inp ≠ out then writeByte m1 (out + (3 * i + 1)) (m1 (inp + (3 * i + 1))) else m1
  writeByte m2 (out + (3 * i + 2)) s

/-- `endian(in, out, len, bps)`: switch the byte order of `len` samples. -/
def endian (K : Build) (m : Mem) (inp out : Nat) (len bps : Int) : Mem :=
  if bps = 2 then
    forLoop len.toNat (fun i m => store16 K m (out + 2 * i) (bswap_16 (load16 K m (inp + 2 * i)))) m
  else if bps = 3 then
    forLoop len.toNat (endian3_body inp out) m
  else if bps = 4 then
    forLoop len.toNat (fun i m => store32 K m (out + 4 * i) (bswap_32 K (load32 K m (inp + 4 * i)))) m
  else m

/-! ## `si2us` -/

/-- The update `p[i] ^= 0x80` on one byte. -/
def flipByte (b : Byte) : Byte := Byte.ofNat (b.val ^^^ 0x80)

/-- The loop `do { p[i] ^= 0x80; } while (i += bps);` of `si2us`.  The loop has
no bound in the source, so the model counts iterations down from `fuel` and
yields `none` when they run out. -/
def si2us_loop (bps p : Int) : Nat → Int → Mem → Option Mem
  | 0, _, _ => none
  | fuel + 1, i, m =>
    let a := (p + i).toNat
    let m1 := writeByte m a (flipByte (m a))
    let i1 := i + bps
    if i1 ≠ 0 then si2us_loop bps p fuel i1 m1 else some m1

/-- `si2us(data, len, bps)`: from signed to unsigned and the other way. -/
def si2us (K : Build) (fuel : Nat) (m : Mem) (data : Nat) (len bps : Int) : Option Mem :=
  let i : Int := -(len * bps)
  let p0 : Int := (data : Int) + len * bps
  let p : Int := if K.AF_FORMAT_NE = K.AF_FORMAT_LE then p0 + (bps - 1) else p0
  if len ≤ 0 then some m else si2us_loop bps p fuel i m

/-- Offset of the byte that holds the sign bit inside a `b`-byte sample, as
`si2us` places its pointer. -/
def signOffset (K : Build) (b : Nat) : Nat :=
  if K.AF_FORMAT_NE = K.AF_FORMAT_LE then b - 1 else 0

/-- Memory `m` with every `b`-th byte from address `base` on XOR-ed with `0x80`,
`n` bytes in all: the effect of the sign flip stated address by address. -/
def flipSigns (m : Mem) (base b n : Nat) : Mem :=
  fun x => if base ≤ x ∧ x < base + n * b ∧ (x - base) % b = 0 then flipByte (m x) else m x

/-! ## `load24bit`, `store24bit`, `change_bps` -/

/-- The load `((uint8_t*)0)[a]`. -/
def load8 (m : Mem) (a : Nat) : Nat := (m a).val

/-- The store `((uint8_t*)0)[a] = v`; the value is converted to `uint8_t`. -/
def store8 (m : Mem) (a v : Nat) : Mem := writeByte m a (Byte.ofNat v)

/-- `load24bit(data, pos)`: the 3-byte sample at index `pos`, expanded to the
upper three bytes of a `uint32_t`. -/
def load24bit (K : Build) (m : Mem) (data pos : Nat) : Nat :=
  if K.WORDS_BIGENDIAN then
    (load8 m (data + 3 * pos) <<< 24) ||| (load8 m (data + (3 * pos + 1)) <<< 16)
      ||| (load8 m (data + (3 * pos + 2)) <<< 8)
  else
    (load8 m (data + 3 * pos) <<< 8) ||| (load8 m (data + (3 * pos + 1)) <<< 16)
      ||| (load8 m (data + (3 * pos + 2)) <<< 24)

/-- `store24bit(data, pos, expanded_value)`: stores the upper three bytes of
the `uint32_t` argument as the 3-byte sample at index `pos`. -/
def store24bit (K : Build) (m : Mem) (data pos expanded_value : Nat) : Mem :=
  let v := expanded_value % 4294967296
  if K.WORDS_BIGENDIAN then
    let m1 := store8 m (data + 3 * pos) (v >>> 24)
    let m2 := store8 m1 (data + (3 * pos + 1)) (v >>> 16)
    store8 m2 (data + (3 * pos + 2)) (v >>> 8)
  else
    let m1 := store8 m (data + 3 * pos) (v >>> 8)
    let m2 := store8 m1 (data + (3 * pos + 1)) (v >>> 16)
    store8 m2 (data + (3 * pos + 2)) (v >>> 24)

/-- `change_bps(in, out, len, inbps, outbps)`: change the number of bytes per
sample. -/
def change_bps (K : Build) (m : Mem) (inp out : Nat) (len inbps outbps : Int) : Mem :=
  let n := len.toNat
  if inbps = 1 then
    if outbps = 2 then
      forLoop n (fun i m => store16 K m (out + 2 * i) (load8 m (inp + i) <<< 8)) m
    else if outbps = 3 then
      forLoop n (fun i m => store24bit K m out i (load8 m (inp + i) <<< 24)) m
    else if outbps = 4 then
      forLoop n (fun i m => store32 K m (out + 4 * i) (load8 m (inp + i) <<< 24)) m
    else m
  else if inbps = 2 then
    if outbps = 1 then
      forLoop n (fun i m => store8 m (out + i) (load16 K m (inp + 2 * i) >>> 8)) m
    else if outbps = 3 then
      forLoop n (fun i m => store24bit K m out i (load16 K m (inp + 2 * i) <<< 16)) m
    else if outbps = 4 then
      forLoop n (fun i m => store32 K m (out + 4 * i) (load16 K m (inp + 2 * i) <<< 16)) m
    else m
  else if inbps = 3 then
    if outbps = 1 then
      forLoop n (fun i m => store8 m (out + i) (load24bit K m inp i >>> 24)) m
    else if outbps = 2 then
      forLoop n (fun i m => store16 K m (out + 2 * i) (load24bit K m inp i >>> 16)) m
    else if outbps = 4 then
      forLoop n (fun i m => store32 K m (out + 4 * i) (load24bit K m inp i)) m
    else m
  else if inbps = 4 then
    if outbps = 1 then
      forLoop n (fun i m => store8 m (out + i) (load32 K m (inp + 4 * i) >>> 24)) m
    else if outbps = 2 then
      forLoop n (fun i m => store16 K m (out + 2 * i) (load32 K m (inp + 4 * i) >>> 16)) m
    else if outbps = 3 then
      forLoop n (fun i m => store24bit K m out i (load32 K m (inp + 4 * i))) m
    else m
  else m

/-! ## Validation and negotiation -/

/-- Modelled from the spec: the return codes `AF_OK`, `AF_ERROR` and `AF_DETACH`
of `af.h`, which is not among the sources.  Spec §6 gives the outcomes of
`Configure` as `Ready`, `Error` and `Redundant`, three distinct results; the
source only ever compares the codes with each other. -/
inductive AfStatus
  | AF_OK
  | AF_ERROR
  | AF_DETACH
  deriving DecidableEq

open AfStatus

/-- `check_bps(bps)`: sanity check for bytes per sample (the log call is left
out). -/
def check_bps (bps : Int) : AfStatus :=
  if bps ≠ 4 ∧ bps ≠ 3 ∧ bps ≠ 2 ∧ bps ≠ 1 then AF_ERROR else AF_OK

/-- `check_format(format)`: check for unsupported formats (the log call is left
out). -/
def check_format (K : Build) (format : Int) : AfStatus :=
  let s := Int.land format K.AF_FORMAT_SPECIAL_MASK
  if s = K.AF_FORMAT_IMA_ADPCM then AF_ERROR
  else if s = K.AF_FORMAT_MPEG2 then AF_ERROR
  else if s = K.AF_FORMAT_AC3 then AF_ERROR
  else AF_OK

/-- The fields of `af_data_t` (declared in `af.h`) that the filter uses: the
address of the sample buffer, its length in bytes, the sample rate, the channel
count, the packed format code and the bytes per sample. -/
structure af_data_t where
  audio : Nat
  len : Int
  rate : Int
  nch : Int
  format : Int
  bps : Int

/-- The fields of `af_priv_t` (declared in `af.h`) that the filter uses: the
local data `af->data`, the requested output format and the size multiplier
`mul`.  `mul` is a `double` in the source; the quotient of two byte widths is
kept here as an exact fraction.  The function pointer `af->play` only ever
refers to `play` and is left out. -/
structure af_priv_t where
  data : af_data_t
  format : Int
  mul : ℚ

/-- `af_init_format(af, data)`: the status returned and the stage as the call
leaves it. -/
def af_init_format (K : Build) (af : af_priv_t) (data : af_data_t) : AfStatus × af_priv_t :=
  let d0 : af_data_t := { af.data with rate := data.rate, nch := data.nch, format := af.format }
  let d1 : af_data_t := { d0 with bps := Int.tdiv (K.af_fmt2bits d0.format) 8 }
  let af1 : af_priv_t := { af with data := d1 }
  if d1.format = data.format ∧ d1.bps = data.bps then (AF_DETACH, af1)
  else if AF_OK ≠ check_bps data.bps ∨ AF_OK ≠ check_format K data.format
      ∨ AF_OK ≠ check_bps d1.bps ∨ AF_OK ≠ check_format K d1.format then (AF_ERROR, af1)
  else
    let d2 : af_data_t := { d1 with rate := data.rate, nch := data.nch }
    (AF_OK, { af1 with data := d2, mul := (d2.bps : ℚ) / (data.bps : ℚ) })

/-! ## `play` -/

/-- The transforms `play` calls and whose effect on memory is left open here:
the companding primitives of `af_format_ulaw.h` and `af_format_alaw.h`, which
are not among the sources, and the two floating-point conversions `float2int`
and `int2float`, whose `float` arrays lie in memory in an encoding that is not
modelled (their arithmetic is modelled further down, on arrays of values).
Each acts on memory; `play` only decides which of them run, in which order and
with which arguments. -/
structure Codec where
  from_ulaw : Mem → Nat → Nat → Int → Int → Int → Mem
  to_ulaw : Mem → Nat → Nat → Int → Int → Int → Mem
  from_alaw : Mem → Nat → Nat → Int → Int → Int → Mem
  to_alaw : Mem → Nat → Nat → Int → Int → Int → Mem
  float2int : Mem → Nat → Nat → Int → Int → Mem
  int2float : Mem → Nat → Nat → Int → Int → Mem

/-- One call made by `play`, with its arguments in source order. -/
inductive Step
  | endian (inp out : Nat) (len bps : Int)
  | from_ulaw (inp out : Nat) (len bps format : Int)
  | to_ulaw (inp out : Nat) (len bps format : Int)
  | from_alaw (inp out : Nat) (len bps format : Int)
  | to_alaw (inp out : Nat) (len bps format : Int)
  | si2us (data : Nat) (len bps : Int)
  | float2int (inp out : Nat) (len bps : Int)
  | int2float (inp out : Nat) (len bps : Int)
  | change_bps (inp out : Nat) (len inbps outbps : Int)
  | fast_memcpy (dst src : Nat) (n : Int)

/-- `fast_memcpy(dst, src, n)`: copies `n` bytes. -/
def fast_memcpy (m : Mem) (dst src : Nat) (n : Int) : Mem :=
  writeBytes m dst (readBytes m src n.toNat)

/-- Executes one call; `none` when the sign-flip loop exhausts `fuel`. -/
def runStep (K : Build) (P : Codec) (fuel : Nat) (m : Mem) : Step → Option Mem
  | .endian inp out len bps => some (endian K m inp out len bps)
  | .from_ulaw inp out len bps format => some (P.from_ulaw m inp out len bps format)
  | .to_ulaw inp out len bps format => some (P.to_ulaw m inp out len bps format)
  | .from_alaw inp out len bps format => some (P.from_alaw m inp out len bps format)
  | .to_alaw inp out len bps format => some (P.to_alaw m inp out len bps format)
  | .si2us data len bps => si2us K fuel m data len bps
  | .float2int inp out len bps => some (P.float2int m inp out len bps)
  | .int2float inp out len bps => some (P.int2float m inp out len bps)
  | .change_bps inp out len inbps outbps => some (change_bps K m inp out len inbps outbps)
  | .fast_memcpy dst src n => some (fast_memcpy m dst src n)

/-- Executes calls in order. -/
def runSteps (K : Build) (P : Codec) (fuel : Nat) (m : Mem) : List Step → Option Mem
  | [] => some m
  | s :: rest => (runStep K P fuel m s).bind (fun m1 => runSteps K P fuel m1 rest)

/-- The calls of `play` between the buffer resize and the final assignments, in
the order the source makes them: `c` is the current block, `l` the local data of
the stage, `len` the number of samples. -/
def play_steps (K : Build) (c l : af_data_t) (len : Int) : List Step :=
  -- Change to cpu native endian format
  (if Int.land c.format K.AF_FORMAT_END_MASK ≠ K.AF_FORMAT_NE then
    [Step.endian c.audio c.audio len c.bps] else [])
  -- Conversion table
  ++ (if Int.land c.format K.AF_FORMAT_SPECIAL_MASK = K.AF_FORMAT_MU_LAW then
      [Step.from_ulaw c.audio l.audio len l.bps (Int.land l.format K.AF_FORMAT_POINT_MASK)]
      ++ (if K.AF_FORMAT_A_LAW = Int.land l.format K.AF_FORMAT_SPECIAL_MASK then
          [Step.to_ulaw l.audio l.audio len 1 K.AF_FORMAT_SI] else [])
      ++ (if Int.land l.format K.AF_FORMAT_SIGN_MASK = K.AF_FORMAT_US then
          [Step.si2us l.audio len l.bps] else [])
    else if Int.land c.format K.AF_FORMAT_SPECIAL_MASK = K.AF_FORMAT_A_LAW then
      [Step.from_alaw c.audio l.audio len l.bps (Int.land l.format K.AF_FORMAT_POINT_MASK)]
      ++ (if K.AF_FORMAT_A_LAW = Int.land l.format K.AF_FORMAT_SPECIAL_MASK then
          [Step.to_alaw l.audio l.audio len 1 K.AF_FORMAT_SI] else [])
      ++ (if Int.land l.format K.AF_FORMAT_SIGN_MASK = K.AF_FORMAT_US then
          [Step.si2us l.audio len l.bps] else [])
    else if Int.land c.format K.AF_FORMAT_POINT_MASK = K.AF_FORMAT_F then
      (if Int.land l.format K.AF_FORMAT_SPECIAL_MASK = K.AF_FORMAT_MU_LAW then
        [Step.to_ulaw c.audio l.audio len c.bps (Int.land c.format K.AF_FORMAT_POINT_MASK)]
      else if Int.land l.format K.AF_FORMAT_SPECIAL_MASK = K.AF_FORMAT_A_LAW then
        [Step.to_alaw c.audio l.audio len c.bps (Int.land c.format K.AF_FORMAT_POINT_MASK)]
      else
        [Step.float2int c.audio l.audio len l.bps]
        ++ (if Int.land l.format K.AF_FORMAT_SIGN_MASK = K.AF_FORMAT_US then
            [Step.si2us l.audio len l.bps] else []))
    else
      -- Input must be int; change signed/unsigned
      (if Int.land c.format K.AF_FORMAT_SIGN_MASK ≠ Int.land l.format K.AF_FORMAT_SIGN_MASK then
        [Step.si2us c.audio len c.bps] else [])
      -- Convert to special formats
      ++ (let t := Int.land l.format (Int.lor K.AF_FORMAT_SPECIAL_MASK K.AF_FORMAT_POINT_MASK)
        if t = K.AF_FORMAT_MU_LAW then
          [Step.to_ulaw c.audio l.audio len c.bps (Int.land c.format K.AF_FORMAT_POINT_MASK)]
        else if t = K.AF_FORMAT_A_LAW then
          [Step.to_alaw c.audio l.audio len c.bps (Int.land c.format K.AF_FORMAT_POINT_MASK)]
        else if t = K.AF_FORMAT_F then
          [Step.int2float c.audio l.audio len c.bps]
        else if c.bps ≠ l.bps then
          -- Change the number of bits
          [Step.change_bps c.audio l.audio len c.bps l.bps]
        else
          [Step.fast_memcpy l.audio c.audio (len * c.bps)]))
  -- Switch from cpu native endian to the correct endianness
  ++ (if Int.land l.format K.AF_FORMAT_END_MASK ≠ K.AF_FORMAT_NE then
    [Step.endian l.audio l.audio len l.bps] else [])

/-- Modelled from the spec: the macro `RESIZE_LOCAL_BUFFER(af, data)` of `af.h`,
which is not among the sources.  Spec §6: "the core requests an output buffer
sized `sampleCount × config.outputBytesPerSample`; failure to obtain one aborts
the call".  The outcome of the request is an input of the model: `none` when no
buffer could be obtained, `some a` when the local buffer of the stage is at
address `a` afterwards. -/
def RESIZE_LOCAL_BUFFER (outcome : Option Nat) (af : af_priv_t) : Option af_priv_t :=
  outcome.map (fun a => { af with data := { af.data with audio := a } })

/-- The value an `int` holds when the mathematical result of a computation is
`x`: the result reduced to 32 bits in two's complement, as the compiled
multiplication leaves it. -/
def toInt32 (x : Int) : Int := (x + 2147483648) % 4294967296 - 2147483648

/-- How a call of `play` ends: the division at its head faults (`trap`), or it
returns `NULL`, or it returns the block.  The two returns carry the block
`*data` and the memory as the call leaves them. -/
inductive PlayResult
  | trap
  | null (data : af_data_t) (m : Mem)
  | ret (data : af_data_t) (m : Mem)

/-- `play(af, data)`.  The fields of a block are `int`s.  The division
`c->len/c->bps` comes first and faults when the divisor is zero or the quotient
does not fit an `int`; the product stored in `c->len` is an `int` product.  The
outer `Option` is `none` only when the sign-flip loop exhausts `fuel`. -/
def play (K : Build) (P : Codec) (fuel : Nat) (resize : Option Nat) (af : af_priv_t)
    (data : af_data_t) (m : Mem) : Option PlayResult :=
  let c := data
  if c.bps = 0 ∨ (c.len = -2147483648 ∧ c.bps = -1) then some PlayResult.trap
  else
    let len := Int.tdiv c.len c.bps
    match RESIZE_LOCAL_BUFFER resize af with
    | none => some (PlayResult.null c m)
    | some af1 =>
      let l := af1.data
      match runSteps K P fuel m (play_steps K c l len) with
      | none => none
      | some m1 =>
        let n := toInt32 (len * l.bps)
        some (PlayResult.ret { c with audio := l.audio, len := n, bps := l.bps, format := l.format }
          m1)

/-! ## Specification vocabulary -/

/-- The body shared by all per-sample loops: read a `j`-byte sample at `ra i`,
transform it with `f`, write the result at `wa i`. -/
def sampleBody (f : List Byte → List Byte) (j : Nat) (ra wa : Nat → Nat) (i : Nat) (m : Mem) :
    Mem :=
  writeBytes m (wa i) (f (readBytes m (ra i) j))

/-- The value map of a width change from `wi` to `wo` bytes: a left shift by
`8*(wo-wi)` bits when widening, a right shift by `8*(wi-wo)` bits when
narrowing. -/
def rescale (wi wo v : Nat) : Nat :=
  if wi ≤ wo then v * 256 ^ (wo - wi) else v / 256 ^ (wi - wo)

/-- The width change on one sample, in bytes: decode in the byte order of the
build, shift, encode in the new width. -/
def rescaleBytes (K : Build) (wi wo : Nat) (bs : List Byte) : List Byte :=
  encodeNE K wo (rescale wi wo (decodeNE K bs))

/-- Whether a call is one of the width or point-type conversions `change_bps`,
`float2int`, `int2float`. -/
def Step.isRescale : Step → Bool
  | .change_bps _ _ _ _ _ => true
  | .float2int _ _ _ _ => true
  | .int2float _ _ _ _ => true
  | _ => false

/-- A sample with the byte at index `k` XOR-ed with `0x80`. -/
def flipAt : Nat → List Byte → List Byte
  | _, [] => []
  | 0, b :: bs => flipByte b :: bs
  | k + 1, b :: bs => b :: flipAt k bs

/-! ## Concrete inputs -/

/-- One concrete build, used to instantiate statements: a little-endian target
without the `bswap` instruction, with the format constants laid out as disjoint
bit fields (bit 0 byte order, bit 1 sign, bit 2 point type, bits 3 to 5 width,
bits 6 to 8 special encoding). -/
def exampleBuild : Build where
  WORDS_BIGENDIAN := false
  HAVE_BSWAP := false
  AF_FORMAT_BE := 0
  AF_FORMAT_LE := 1
  AF_FORMAT_NE := 1
  AF_FORMAT_END_MASK := 1
  AF_FORMAT_SI := 0
  AF_FORMAT_US := 2
  AF_FORMAT_SIGN_MASK := 2
  AF_FORMAT_I := 0
  AF_FORMAT_F := 4
  AF_FORMAT_POINT_MASK := 4
  AF_FORMAT_MU_LAW := 64
  AF_FORMAT_A_LAW := 128
  AF_FORMAT_MPEG2 := 192
  AF_FORMAT_AC3 := 256
  AF_FORMAT_IMA_ADPCM := 320
  AF_FORMAT_SPECIAL_MASK := 448
  af_fmt2bits := fun f => Int.land f 56 + 8

/-- The same build on a big-endian target. -/
def exampleBuildBE : Build :=
  { exampleBuild with WORDS_BIGENDIAN := true, HAVE_BSWAP := true, AF_FORMAT_NE := 0 }

/-- Codec primitives that leave memory alone, used to instantiate statements
that do not depend on them. -/
def idleCodec : Codec where
  from_ulaw := fun m _ _ _ _ _ => m
  to_ulaw := fun m _ _ _ _ _ => m
  from_alaw := fun m _ _ _ _ _ => m
  to_alaw := fun m _ _ _ _ _ => m
  float2int := fun m _ _ _ _ => m
  int2float := fun m _ _ _ _ => m

/-- A stage configured for signed 16-bit little-endian output (format code 9 in
`exampleBuild`: 16 bits, signed, integer, little-endian). -/
def exampleStage : af_priv_t :=
  { data := { audio := 0, len := 0, rate := 44100, nch := 2, format := 9, bps := 2 },
    format := 9, mul := 2 }

/-- A block of four unsigned 8-bit samples at address 10 (format code 3 in
`exampleBuild`: 8 bits, unsigned, integer, little-endian). -/
def exampleBlock : af_data_t :=
  { audio := 10, len := 4, rate := 44100, nch := 2, format := 3, bps := 1 }

/-- Memory holding the samples `00 80 FF 40` of `exampleBlock`. -/
def exampleMem : Mem := memOf 10 [0x00, 0x80, 0xFF, 0x40]

/-- The value of a 16-bit word read as a signed sample (two's complement). -/
def int16_of (v : Nat) : Int :=
  if v % 65536 < 32768 then (v % 65536 : Nat) else (v % 65536 : Nat) - 65536

/-- A block of four mu-law samples at address 10 (format code 65 in
`exampleBuild`: mu-law, little-endian). -/
def mulawBlock : af_data_t :=
  { audio := 10, len := 4, rate := 8000, nch := 1, format := 65, bps := 1 }

/-- A stage asked for A-law output (format code 129 in `exampleBuild`: A-law,
little-endian), as `af_init_format` leaves it for `mulawBlock`, with its local
buffer at address 100. -/
def alawStage : af_priv_t :=
  { data := { audio := 100, len := 0, rate := 8000, nch := 1, format := 129, bps := 1 },
    format := 129, mul := 1 }


/-! ## `float2int` and `int2float`

Floating-point values are modelled by the rational numbers they denote; a
result is rounded to the format that holds it.  Infinities and NaN are outside
the model, and so is the largest exponent of a format (no product formed below
from a `float` in a `double` comes near it). -/

/-- The value of a byte read as an `int8_t` (two's complement). -/
def int8_of (v : Nat) : Int :=
  if v % 256 < 128 then (v % 256 : Nat) else (v % 256 : Nat) - 256

/-- The value of a 32-bit word read as an `int32_t` (two's complement). -/
def int32_of (v : Nat) : Int :=
  if v % 4294967296 < 2147483648 then (v % 4294967296 : Nat)
  else (v % 4294967296 : Nat) - 4294967296

/-- The low 32 bits of an integer in two's complement: what converting it to
`uint32_t` gives.  A narrower store keeps the low bits of that. -/
def uint32_of (z : Int) : Nat := (z % 4294967296).toNat

/-- Rounding to the nearest integer, a tie going to the even neighbour: the
default rounding mode, in which `lrintf` and the arithmetic operate. -/
def rint (q : ℚ) : Int :=
  if q - ⌊q⌋ < 1 / 2 then ⌊q⌋
  else if 1 / 2 < q - ⌊q⌋ then ⌊q⌋ + 1
  else if ⌊q⌋ % 2 = 0 then ⌊q⌋ else ⌊q⌋ + 1

/-- The integer part of a value, the fraction discarded: the conversion
`(int)(x)` of a floating value. -/
def truncate (q : ℚ) : Int := if 0 ≤ q then ⌊q⌋ else ⌈q⌉

/-- Rounding of a number to the binary floating-point format with `p`
significant bits and least normal exponent `emin`: to the nearest representable
value, a tie going to the even significand; below `2 ^ emin` the spacing of the
subnormal numbers applies. -/
def roundBinary (p : Nat) (emin : Int) (q : ℚ) : ℚ :=
  if q = 0 then 0
  else
    let e := max (Int.log 2 |q|) emin
    let ulp : ℚ := 2 ^ (e - ((p : Int) - 1))
    rint (q / ulp) * ulp

/-- Rounding to `float` (IEEE binary32). -/
def toFloat (q : ℚ) : ℚ := roundBinary 24 (-126) q

/-- Rounding to `double` (IEEE binary64). -/
def toDouble (q : ℚ) : ℚ := roundBinary 53 (-1022) q

/-- An array of `float`, by element index. -/
abbrev FloatArr := Nat → ℚ

/-- What the build says about `lrintf`: whether `config.h` defines
`HAVE_LRINTF`, and the number of bits of the `long` the library function
returns. -/
structure MathBuild where
  HAVE_LRINTF : Bool
  LONG_BITS : Nat

/-- `lrintf(x)` applied to a `double` argument `x`.  With `HAVE_LRINTF` it is
the library function declared `long int lrintf(float)`: the argument is
converted to `float` and rounded to the nearest integer, and there is a result
when that integer fits a `long`.  Without, it is the macro `((int)(x))`: the
argument is truncated, and there is a result when the integer fits an `int`. -/
def lrintf (L : MathBuild) (x : ℚ) : Option Int :=
  if L.HAVE_LRINTF then
    let r := rint (toFloat x)
    if -(2 : Int) ^ (L.LONG_BITS - 1) ≤ r ∧ r < (2 : Int) ^ (L.LONG_BITS - 1) then some r else none
  else
    let r := truncate x
    if -2147483648 ≤ r ∧ r ≤ 2147483647 then some r else none

/-- The loop `for(i=0;i<n;i++) body(i)` acting on memory, with a body that has
no result on some inputs. -/
def forLoopTry : Nat → (Nat → Mem → Option Mem) → Mem → Option Mem
  | 0, _, m => some m
  | n + 1, body, m => (forLoopTry n body m).bind (body n)

/-- The loop `for(i=0;i<n;i++) body(i)` acting on an array of `float`. -/
def forLoopArr : Nat → (Nat → FloatArr → FloatArr) → FloatArr → FloatArr
  | 0, _, o => o
  | n + 1, body, o => body n (forLoopArr n body o)

/-- `float2int(in, out, len, bps)`: the `float` array `in` is a separate
argument of the model, the integer samples go to memory at `out`.  Each product
is formed in `double`.  There is no result when some `lrintf` has none. -/
def float2int (K : Build) (L : MathBuild) (inp : FloatArr) (m : Mem) (out : Nat) (len bps : Int) :
    Option Mem :=
  if bps = 1 then
    forLoopTry len.toNat (fun i m =>
      (lrintf L (toDouble (127 * inp i))).map (fun z => store8 m (out + i) (uint32_of z))) m
  else if bps = 2 then
    forLoopTry len.toNat (fun i m =>
      (lrintf L (toDouble (32767 * inp i))).map (fun z => store16 K m (out + 2 * i) (uint32_of z))) m
  else if bps = 3 then
    forLoopTry len.toNat (fun i m =>
      (lrintf L (toDouble (2147483647 * inp i))).map (fun z => store24bit K m out i (uint32_of z))) m
  else if bps = 4 then
    forLoopTry len.toNat (fun i m =>
      (lrintf L (toDouble (2147483647 * inp i))).map (fun z => store32 K m (out + 4 * i) (uint32_of z))) m
  else some m

/-- `int2float(in, out, len, bps)`: the integer samples are read from memory at
`in`, the `float` array `out` is a separate argument of the model and the
result.  Each scale factor is a `double` quotient, each product is formed in
`double` and rounded to `float` by the assignment. -/
def int2float (K : Build) (m : Mem) (inp : Nat) (out : FloatArr) (len bps : Int) : FloatArr :=
  if bps = 1 then
    forLoopArr len.toNat (fun i o =>
      Function.update o i (toFloat (toDouble (toDouble (1 / 128) * int8_of (load8 m (inp + i)))))) out
  else if bps = 2 then
    forLoopArr len.toNat (fun i o =>
      Function.update o i
        (toFloat (toDouble (toDouble (1 / 32768) * int16_of (load16 K m (inp + 2 * i)))))) out
  else if bps = 3 then
    forLoopArr len.toNat (fun i o =>
      Function.update o i
        (toFloat (toDouble (toDouble (1 / 2147483648) * int32_of (load24bit K m inp i))))) out
  else if bps = 4 then
    forLoopArr len.toNat (fun i o =>
      Function.update o i
        (toFloat (toDouble (toDouble (1 / 2147483648) * int32_of (load32 K m (inp + 4 * i)))))) out
  else out

/-- A build with the library `lrintf` and a 32-bit `long`. -/
def lrintfBuild : MathBuild := { HAVE_LRINTF := true, LONG_BITS := 32 }

/-- A build without `HAVE_LRINTF`, where `lrintf` is the truncating macro. -/
def castBuild : MathBuild := { HAVE_LRINTF := false, LONG_BITS := 32 }
/-! # Theorems -/

/-! ## Memory lemmas -/

theorem Byte.val_ofNat (n : Nat) : (Byte.ofNat n).val = n % 256 := rfl

theorem Byte.ofNat_val (b : Byte) : Byte.ofNat b.val = b := by
  apply Fin.ext
  simp [Byte.ofNat, Nat.mod_eq_of_lt b.isLt]

theorem Byte.ofNat_eq_of_mod {n : Nat} {b : Byte} (h : n % 256 = b.val) : Byte.ofNat n = b :=
  Fin.ext h

theorem writeBytes_outside (bs : List Byte) (m : Mem) (a x : Nat)
    (h : x < a ∨ a + bs.length ≤ x) : writeBytes m a bs x = m x := by
  induction bs generalizing m a with
  | nil => rfl
  | cons b bs ih =>
    simp only [writeBytes, List.length_cons] at h ⊢
    rw [ih _ _ (by omega)]
    have : x ≠ a := by omega
    simp [writeByte, this]

theorem readBytes_length (m : Mem) (a k : Nat) : (readBytes m a k).length = k := by
  induction k generalizing a with
  | zero => rfl
  | succ k ih => simp [readBytes, ih]

theorem readBytes_congr {m m2 : Mem} (k a : Nat)
    (h : ∀ x, a ≤ x → x < a + k → m x = m2 x) : readBytes m a k = readBytes m2 a k := by
  induction k generalizing a with
  | zero => rfl
  | succ k ih =>
    simp only [readBytes]
    rw [h a (by omega) (by omega), ih (a + 1) (fun x h1 h2 => h x (by omega) (by omega))]

theorem eq_of_readBytes_eq {m m2 : Mem} (k a : Nat) (h : readBytes m a k = readBytes m2 a k)
    (x : Nat) (h1 : a ≤ x) (h2 : x < a + k) : m x = m2 x := by
  induction k generalizing a with
  | zero => omega
  | succ k ih =>
    simp only [readBytes, List.cons.injEq] at h
    by_cases hx : x = a
    · subst hx; exact h.1
    · exact ih (a + 1) h.2 (by omega) (by omega)

theorem readBytes_writeBytes_self (bs : List Byte) (m : Mem) (a : Nat) :
    readBytes (writeBytes m a bs) a bs.length = bs := by
  induction bs generalizing m a with
  | nil => rfl
  | cons b bs ih =>
    simp only [writeBytes, List.length_cons, readBytes, ih, List.cons.injEq, and_true]
    rw [writeBytes_outside _ _ _ _ (by omega)]
    simp [writeByte]

theorem readBytes_writeBytes_disjoint (bs : List Byte) (m : Mem) (a a2 k : Nat)
    (h : a2 + k ≤ a ∨ a + bs.length ≤ a2) :
    readBytes (writeBytes m a bs) a2 k = readBytes m a2 k :=
  readBytes_congr k a2 (fun x h1 h2 => writeBytes_outside bs m a x (by omega))

/-! ## Loops that transform one sample per iteration -/

theorem sampleLoop_outside (f : List Byte → List Byte) (j k : Nat) (ra wa : Nat → Nat)
    (hf : ∀ bs, bs.length = j → (f bs).length = k) (m : Mem) (n x : Nat)
    (hx : ∀ i, i < n → x < wa i ∨ wa i + k ≤ x) :
    forLoop n (sampleBody f j ra wa) m x = m x := by
  induction n with
  | zero => rfl
  | succ n ih =>
    simp only [forLoop, sampleBody]
    rw [writeBytes_outside _ _ _ _ (by
      rw [hf _ (readBytes_length _ _ _)]; exact hx n (by omega))]
    exact ih (fun i hi => hx i (by omega))

theorem sampleLoop_sample (f : List Byte → List Byte) (j k : Nat) (ra wa : Nat → Nat)
    (hf : ∀ bs, bs.length = j → (f bs).length = k)
    (hW : ∀ i i2, i < i2 → wa i + k ≤ wa i2 ∨ wa i2 + k ≤ wa i)
    (m : Mem) (n : Nat)
    (hR : ∀ i i2, i < i2 → i2 < n → wa i + k ≤ ra i2 ∨ ra i2 + j ≤ wa i)
    (i : Nat) (hi : i < n) :
    readBytes (forLoop n (sampleBody f j ra wa) m) (wa i) k = f (readBytes m (ra i) j) := by
  induction n with
  | zero => omega
  | succ n ih =>
    simp only [forLoop]
    by_cases hin : i = n
    · subst hin
      simp only [sampleBody]
      have hread : readBytes (forLoop i (sampleBody f j ra wa) m) (ra i) j = readBytes m (ra i) j :=
        readBytes_congr j (ra i) (fun x h1 h2 =>
          sampleLoop_outside f j k ra wa hf m i x (fun i2 hi2 => by
            have := hR i2 i hi2 (by omega)
            omega))
      rw [hread]
      have := readBytes_writeBytes_self (f (readBytes m (ra i) j))
        (forLoop i (sampleBody f j ra wa) m) (wa i)
      rw [hf _ (readBytes_length _ _ _)] at this
      exact this
    · have hlt : i < n := by omega
      rw [← ih (fun i i2 h1 h2 => hR i i2 h1 (by omega)) hlt]
      simp only [sampleBody]
      apply readBytes_writeBytes_disjoint
      rw [hf _ (readBytes_length _ _ _)]
      have := hW i n hlt
      omega

/-- Running an in-place per-sample loop twice restores memory when the sample
transformation is an involution. -/
theorem sampleLoop_inplace_twice (f : List Byte → List Byte) (k : Nat) (wa : Nat → Nat)
    (hf : ∀ bs, bs.length = k → (f bs).length = k)
    (hW : ∀ i i2, i < i2 → wa i + k ≤ wa i2 ∨ wa i2 + k ≤ wa i)
    (hinv : ∀ bs, bs.length = k → f (f bs) = bs) (m : Mem) (n : Nat) :
    forLoop n (sampleBody f k wa wa) (forLoop n (sampleBody f k wa wa) m) = m := by
  funext x
  by_cases hx : ∃ i, i < n ∧ wa i ≤ x ∧ x < wa i + k
  · obtain ⟨i, hi, h1, h2⟩ := hx
    apply eq_of_readBytes_eq k (wa i) _ x h1 h2
    rw [sampleLoop_sample f k k wa wa hf hW _ n (fun i i2 h _ => hW i i2 h) i hi,
      sampleLoop_sample f k k wa wa hf hW _ n (fun i i2 h _ => hW i i2 h) i hi,
      hinv _ (readBytes_length _ _ _)]
  · have hout : ∀ i, i < n → x < wa i ∨ wa i + k ≤ x := by
      intro i hi
      by_contra hc
      exact hx ⟨i, hi, by omega, by omega⟩
    rw [sampleLoop_outside f k k wa wa hf _ n x hout, sampleLoop_outside f k k wa wa hf _ n x hout]


/-! ## Byte-level arithmetic -/

theorem encodeLE_length (k v : Nat) : (encodeLE k v).length = k := by
  induction k generalizing v with
  | zero => rfl
  | succ k ih => simp [encodeLE, ih]

theorem encodeNE_length (K : Build) (k v : Nat) : (encodeNE K k v).length = k := by
  unfold encodeNE
  split <;> simp [encodeLE_length]

theorem encodeLE_decodeLE (bs : List Byte) : encodeLE bs.length (decodeLE bs) = bs := by
  induction bs with
  | nil => rfl
  | cons b bs ih =>
    have hb := b.isLt
    simp only [List.length_cons, decodeLE, encodeLE, List.cons.injEq]
    constructor
    · apply Byte.ofNat_eq_of_mod
      omega
    · have : (b.val + 256 * decodeLE bs) / 256 = decodeLE bs := by omega
      rw [this, ih]

theorem list_length_two {α : Type} (bs : List α) (h : bs.length = 2) :
    ∃ a b, bs = [a, b] := by
  match bs, h with
  | [a, b], _ => exact ⟨a, b, rfl⟩

theorem list_length_three {α : Type} (bs : List α) (h : bs.length = 3) :
    ∃ a b c, bs = [a, b, c] := by
  match bs, h with
  | [a, b, c], _ => exact ⟨a, b, c, rfl⟩

theorem list_length_four {α : Type} (bs : List α) (h : bs.length = 4) :
    ∃ a b c d, bs = [a, b, c, d] := by
  match bs, h with
  | [a, b, c, d], _ => exact ⟨a, b, c, d, rfl⟩

theorem rorw8_bytes (a b h : Nat) (ha : a < 256) (hb : b < 256) :
    rorw8 (a + 256 * b + 65536 * h) = b + 256 * a + 65536 * h := by
  unfold rorw8
  have h1 : (a + 256 * b + 65536 * h) / 65536 = h := by omega
  have h2 : (a + 256 * b + 65536 * h) % 65536 = a + 256 * b := by omega
  have h3 : (a + 256 * b + 65536 * h) % 256 = a := by omega
  have h4 : (a + 256 * b) / 256 = b := by omega
  rw [h1, h2, h3, h4]
  omega

theorem rorl16_halves (lo hi : Nat) (hlo : lo < 65536) (hhi : hi < 65536) :
    rorl16 (lo + 65536 * hi) = hi + 65536 * lo := by
  unfold rorl16
  have h1 : (lo + 65536 * hi) % 4294967296 = lo + 65536 * hi := by omega
  have h2 : (lo + 65536 * hi) / 65536 = hi := by omega
  have h3 : (lo + 65536 * hi) % 65536 = lo := by omega
  rw [h1, h2, h3]
  omega

theorem bswapInsn_bytes (a b c d : Nat) (ha : a < 256) (hb : b < 256) (hc : c < 256)
    (hd : d < 256) :
    bswapInsn (a + 256 * b + 65536 * c + 16777216 * d)
      = d + 256 * c + 65536 * b + 16777216 * a := by
  unfold bswapInsn
  have h1 : (a + 256 * b + 65536 * c + 16777216 * d) / 16777216 = d := by omega
  have h2 : (a + 256 * b + 65536 * c + 16777216 * d) / 65536 = c + 256 * d := by omega
  have h3 : (a + 256 * b + 65536 * c + 16777216 * d) / 256 = b + 256 * c + 65536 * d := by omega
  have h4 : (a + 256 * b + 65536 * c + 16777216 * d) % 256 = a := by omega
  rw [h1, h2, h3, h4]
  omega

theorem decodeLE_two (a b : Byte) : decodeLE [a, b] = a.val + 256 * b.val := by
  simp [decodeLE]

theorem decodeLE_three (a b c : Byte) :
    decodeLE [a, b, c] = a.val + 256 * b.val + 65536 * c.val := by
  simp only [decodeLE]
  omega

theorem decodeLE_four (a b c d : Byte) :
    decodeLE [a, b, c, d] = a.val + 256 * b.val + 65536 * c.val + 16777216 * d.val := by
  simp only [decodeLE]
  omega

theorem bswap_16_decodeLE (a b : Byte) : bswap_16 (decodeLE [a, b]) = decodeLE [b, a] := by
  have ha := a.isLt
  have hb := b.isLt
  rw [decodeLE_two, decodeLE_two]
  unfold bswap_16
  have h1 : (a.val + 256 * b.val) % 65536 = a.val + 256 * b.val + 65536 * 0 := by omega
  rw [h1, rorw8_bytes _ _ _ ha hb]
  omega

theorem bswap_32_decodeLE (K : Build) (a b c d : Byte) :
    bswap_32 K (decodeLE [a, b, c, d]) = decodeLE [d, c, b, a] := by
  have ha := a.isLt
  have hb := b.isLt
  have hc := c.isLt
  have hd := d.isLt
  rw [decodeLE_four, decodeLE_four]
  unfold bswap_32
  have h0 : (a.val + 256 * b.val + 65536 * c.val + 16777216 * d.val) % 4294967296
      = a.val + 256 * b.val + 65536 * c.val + 16777216 * d.val := by omega
  rw [h0]
  split
  · exact bswapInsn_bytes _ _ _ _ ha hb hc hd
  · have e1 : a.val + 256 * b.val + 65536 * c.val + 16777216 * d.val
        = a.val + 256 * b.val + 65536 * (c.val + 256 * d.val) := by omega
    rw [e1, rorw8_bytes _ _ _ ha hb]
    have e2 : b.val + 256 * a.val + 65536 * (c.val + 256 * d.val)
        = (b.val + 256 * a.val) + 65536 * (c.val + 256 * d.val) := by omega
    rw [e2, rorl16_halves _ _ (by omega) (by omega)]
    rw [rorw8_bytes _ _ _ hc hd]
    omega


/-- The 16-bit swap of `endian` reverses the two bytes of a sample. -/
theorem swap16_bytes (K : Build) (bs : List Byte) (h : bs.length = 2) :
    encodeNE K 2 (bswap_16 (decodeNE K bs)) = bs.reverse := by
  obtain ⟨a, b, rfl⟩ := list_length_two bs h
  cases hK : K.WORDS_BIGENDIAN
  · simp only [encodeNE, decodeNE, hK, Bool.false_eq_true, if_false]
    rw [bswap_16_decodeLE]
    exact encodeLE_decodeLE [b, a]
  · simp only [encodeNE, decodeNE, hK, if_true]
    show (encodeLE 2 (bswap_16 (decodeLE [b, a]))).reverse = [b, a]
    rw [bswap_16_decodeLE]
    have e : encodeLE 2 (decodeLE [a, b]) = [a, b] := encodeLE_decodeLE [a, b]
    rw [e]
    rfl

/-- The 32-bit swap of `endian` reverses the four bytes of a sample. -/
theorem swap32_bytes (K : Build) (bs : List Byte) (h : bs.length = 4) :
    encodeNE K 4 (bswap_32 K (decodeNE K bs)) = bs.reverse := by
  obtain ⟨a, b, c, d, rfl⟩ := list_length_four bs h
  cases hK : K.WORDS_BIGENDIAN
  · simp only [encodeNE, decodeNE, hK, Bool.false_eq_true, if_false]
    rw [bswap_32_decodeLE]
    exact encodeLE_decodeLE [d, c, b, a]
  · simp only [encodeNE, decodeNE, hK, if_true]
    show (encodeLE 4 (bswap_32 K (decodeLE [d, c, b, a]))).reverse = [d, c, b, a]
    rw [bswap_32_decodeLE]
    have e : encodeLE 4 (decodeLE [a, b, c, d]) = [a, b, c, d] := encodeLE_decodeLE [a, b, c, d]
    rw [e]
    rfl

/-- With `in == out` an iteration of the 3-byte loop of `endian` rewrites the
sample with its bytes reversed. -/
theorem endian3_body_inplace (p i : Nat) (m : Mem) :
    endian3_body p p i m = sampleBody List.reverse 3 (fun i => p + 3 * i) (fun i => p + 3 * i) i m := by
  funext x
  simp only [endian3_body, sampleBody, readBytes, writeBytes, writeByte, ne_eq, not_true_eq_false,
    if_false, List.reverse_cons, List.reverse_nil, List.nil_append, List.cons_append]
  have e1 : p + 3 * i + 1 = p + (3 * i + 1) := by omega
  have e2 : p + (3 * i + 1) + 1 = p + (3 * i + 2) := by omega
  have n1 : p + (3 * i + 2) ≠ p + 3 * i := by omega
  have n2 : p + (3 * i + 1) ≠ p + 3 * i := by omega
  have n3 : p + (3 * i + 2) ≠ p + (3 * i + 1) := by omega
  rw [e1, e2]
  by_cases h2 : x = p + (3 * i + 2)
  · subst h2
    simp
  · by_cases h1 : x = p + (3 * i + 1)
    · subst h1
      simp [h2]
    · by_cases h0 : x = p + 3 * i
      · subst h0
        simp [h1, h2]
      · simp [h0, h1, h2]


/-- C1: `endian` applied in place twice restores memory, byte for byte, for every
width (in particular 2, 3 and 4), every sample count and every buffer. -/
theorem endian_involution (K : Build) (m : Mem) (p : Nat) (len bps : Int) :
    endian K (endian K m p p len bps) p p len bps = m := by
  unfold endian
  by_cases h2 : bps = 2
  · simp only [h2, if_true]
    exact sampleLoop_inplace_twice (fun bs => encodeNE K 2 (bswap_16 (decodeNE K bs))) 2
      (fun i => p + 2 * i) (fun bs _ => encodeNE_length K 2 _) (fun i i2 h => by beta_reduce; omega)
      (fun bs hbs => by
        show encodeNE K 2 (bswap_16 (decodeNE K (encodeNE K 2 (bswap_16 (decodeNE K bs))))) = bs
        rw [swap16_bytes K bs hbs, swap16_bytes K _ (by simpa using hbs), List.reverse_reverse])
      m len.toNat
  · by_cases h3 : bps = 3
    · simp only [h3, if_true]
      have hb : endian3_body p p
          = sampleBody List.reverse 3 (fun i => p + 3 * i) (fun i => p + 3 * i) := by
        funext i m
        exact endian3_body_inplace p i m
      rw [hb]
      simp only [show ¬ ((3 : Int) = 2) by decide, if_false]
      exact sampleLoop_inplace_twice List.reverse 3 (fun i => p + 3 * i)
        (fun bs hbs => by simpa using hbs) (fun i i2 h => by beta_reduce; omega)
        (fun bs _ => List.reverse_reverse bs) m len.toNat
    · by_cases h4 : bps = 4
      · simp only [h4, if_true]
        simp only [show ¬ ((4 : Int) = 2) by decide, show ¬ ((4 : Int) = 3) by decide, if_false]
        exact sampleLoop_inplace_twice (fun bs => encodeNE K 4 (bswap_32 K (decodeNE K bs))) 4
          (fun i => p + 4 * i) (fun bs _ => encodeNE_length K 4 _) (fun i i2 h => by beta_reduce; omega)
          (fun bs hbs => by
            show encodeNE K 4 (bswap_32 K (decodeNE K (encodeNE K 4 (bswap_32 K (decodeNE K bs)))))
              = bs
            rw [swap32_bytes K bs hbs, swap32_bytes K _ (by simpa using hbs),
              List.reverse_reverse])
          m len.toNat
      · simp [h2, h3, h4]


/-! ## Sign flip -/

theorem flipByte_flipByte (b : Byte) : flipByte (flipByte b) = b := by
  apply Byte.ofNat_eq_of_mod
  have h1 : b.val ^^^ 128 < 2 ^ 8 := Nat.xor_lt_two_pow (by have := b.isLt; omega) (by decide)
  have h2 : (flipByte b).val = b.val ^^^ 128 := by
    show (b.val ^^^ 128) % 256 = b.val ^^^ 128
    exact Nat.mod_eq_of_lt h1
  rw [h2, Nat.xor_assoc, Nat.xor_self, Nat.xor_zero]
  exact Nat.mod_eq_of_lt b.isLt

/-- The bytes touched by a run of `k + 1` iterations of the sign-flip loop that
starts at address `base`: every `b`-th byte from `base` on. -/
theorem si2us_loop_spec (b : Nat) (hb : b = 1 ∨ b = 2 ∨ b = 3 ∨ b = 4) (k : Nat) :
    ∀ (fuel : Nat) (m : Mem) (base : Nat), k + 1 ≤ fuel →
      si2us_loop (b : Int) ((base + (k + 1) * b : Nat) : Int) fuel (-(((k + 1) * b : Nat) : Int)) m
        = some (flipSigns m base b (k + 1)) := by
  unfold flipSigns
  induction k with
  | zero =>
    intro fuel m base hfuel
    obtain ⟨f, rfl⟩ : ∃ f, fuel = f + 1 := ⟨fuel - 1, by omega⟩
    simp only [si2us_loop]
    have ha : (((base + (0 + 1) * b : Nat) : Int) + -(((0 + 1) * b : Nat) : Int)).toNat = base := by
      omega
    have hi : -((((0 + 1) * b : Nat)) : Int) + (b : Int) = 0 := by omega
    rw [ha]
    simp only [hi, ne_eq, not_true_eq_false, if_false, Option.some.injEq]
    funext x
    simp only [writeByte]
    rcases hb with rfl | rfl | rfl | rfl <;>
    · by_cases hx : x = base
      · subst hx; simp
      · rw [if_neg hx, if_neg (by omega)]
  | succ k ih =>
    intro fuel m base hfuel
    obtain ⟨f, rfl⟩ : ∃ f, fuel = f + 1 := ⟨fuel - 1, by omega⟩
    simp only [si2us_loop]
    have ha : (((base + (k + 1 + 1) * b : Nat) : Int) + -(((k + 1 + 1) * b : Nat) : Int)).toNat
        = base := by omega
    have hi : -((((k + 1 + 1) * b : Nat)) : Int) + (b : Int) = -(((k + 1) * b : Nat) : Int) := by
      push_cast; ring
    have hne : -(((k + 1) * b : Nat) : Int) ≠ 0 := by
      rcases hb with rfl | rfl | rfl | rfl <;> omega
    have hp : ((base + (k + 1 + 1) * b : Nat) : Int) = ((base + b + (k + 1) * b : Nat) : Int) := by
      push_cast; ring
    rw [ha, hi, if_pos hne, hp, ih f _ (base + b) (by omega)]
    simp only [Option.some.injEq]
    funext x
    simp only [writeByte]
    rcases hb with rfl | rfl | rfl | rfl <;>
    · by_cases hx : x = base
      · subst hx
        rw [if_neg (by omega), if_pos (by omega)]
        simp
      · simp only [if_neg hx]
        split_ifs with h1 h2 h2 <;> first | rfl | omega


/-- On a block of `n + 1` samples of width 1 to 4, `si2us` returns once it has
`n + 1` iterations at its disposal, and its effect is `flipSigns`. -/
theorem si2us_spec (K : Build) (b : Nat) (hb : b = 1 ∨ b = 2 ∨ b = 3 ∨ b = 4) (n fuel : Nat)
    (m : Mem) (data : Nat) (hfuel : n + 1 ≤ fuel) :
    si2us K fuel m data ((n + 1 : Nat) : Int) (b : Int)
      = some (flipSigns m (data + signOffset K b) b (n + 1)) := by
  unfold si2us
  have hlen : ¬ (((n + 1 : Nat) : Int) ≤ 0) := by omega
  simp only [hlen, if_false]
  have hi : -(((n + 1 : Nat) : Int) * (b : Int)) = -(((n + 1) * b : Nat) : Int) := by push_cast; ring
  have hp : (if K.AF_FORMAT_NE = K.AF_FORMAT_LE
        then (data : Int) + ((n + 1 : Nat) : Int) * (b : Int) + ((b : Int) - 1)
        else (data : Int) + ((n + 1 : Nat) : Int) * (b : Int))
      = ((data + signOffset K b + (n + 1) * b : Nat) : Int) := by
    unfold signOffset
    split
    · have : ((b - 1 : Nat) : Int) = (b : Int) - 1 := by
        rcases hb with rfl | rfl | rfl | rfl <;> rfl
      push_cast
      rw [this]
      ring
    · push_cast
      ring
  rw [hi, hp]
  exact si2us_loop_spec b hb n fuel m (data + signOffset K b) hfuel

theorem flipSigns_flipSigns (m : Mem) (base b n : Nat) :
    flipSigns (flipSigns m base b n) base b n = m := by
  funext x
  unfold flipSigns
  split_ifs
  · exact flipByte_flipByte (m x)
  · rfl

/-- For `len <= 0` the sign flip returns at once and leaves memory alone. -/
theorem si2us_nonpos (K : Build) (fuel : Nat) (m : Mem) (data : Nat) (len bps : Int)
    (h : len ≤ 0) : si2us K fuel m data len bps = some m := by
  simp [si2us, h]

/-- `si2us` on a non-empty block, with `len` and `bps` as C integers. -/
theorem si2us_pos (K : Build) (fuel : Nat) (m : Mem) (data : Nat) (len bps : Int)
    (hbps : bps = 1 ∨ bps = 2 ∨ bps = 3 ∨ bps = 4) (hlen : 0 < len) (hfuel : len.toNat ≤ fuel) :
    si2us K fuel m data len bps
      = some (flipSigns m (data + signOffset K bps.toNat) bps.toNat len.toNat) := by
  obtain ⟨n, hn⟩ : ∃ n : Nat, len = ((n + 1 : Nat) : Int) := ⟨len.toNat - 1, by omega⟩
  obtain ⟨b, hb⟩ : ∃ b : Nat, bps = (b : Int) := ⟨bps.toNat, by omega⟩
  subst hn hb
  have hb2 : b = 1 ∨ b = 2 ∨ b = 3 ∨ b = 4 := by omega
  simp only [Int.toNat_ofNat] at hfuel ⊢
  exact si2us_spec K b hb2 n fuel m data hfuel

/-- C2: `si2us` is an involution.  For every width in {1,2,3,4}, every `len`
(positive or not) and every memory, two successive calls, each allowed at least
`len` loop iterations, both return and leave memory exactly as it was. -/
theorem si2us_involution (K : Build) (m : Mem) (data : Nat) (len bps : Int) (fuel1 fuel2 : Nat)
    (hbps : bps = 1 ∨ bps = 2 ∨ bps = 3 ∨ bps = 4)
    (h1 : len.toNat ≤ fuel1) (h2 : len.toNat ≤ fuel2) :
    (si2us K fuel1 m data len bps).bind (fun m1 => si2us K fuel2 m1 data len bps) = some m := by
  by_cases hlen : len ≤ 0
  · simp [si2us_nonpos K _ _ data len bps hlen]
  · rw [si2us_pos K fuel1 m data len bps hbps (by omega) h1]
    simp only [Option.some_bind]
    rw [si2us_pos K fuel2 _ data len bps hbps (by omega) h2, flipSigns_flipSigns]


/-! ## Width rescale -/

theorem lor_bytes_le (a b c : Nat) (ha : a < 256) (hb : b < 256) :
    (a <<< 8) ||| (b <<< 16) ||| (c <<< 24) = (a + 256 * b + 65536 * c) * 256 := by
  have h1 : 2 ^ 16 * b + a * 256 = 2 ^ 16 * b ||| a * 256 :=
    Nat.mul_add_lt_is_or (by omega) b
  have h2 : 2 ^ 24 * c + (a * 256 + b * 65536) = 2 ^ 24 * c ||| (a * 256 + b * 65536) :=
    Nat.mul_add_lt_is_or (by omega) c
  simp only [Nat.shiftLeft_eq]
  norm_num at h1 h2 ⊢
  rw [Nat.lor_comm (a * 256), show b * 65536 = 65536 * b by ring, ← h1,
    Nat.lor_comm, show c * 16777216 = 16777216 * c by ring,
    show 65536 * b + a * 256 = a * 256 + b * 65536 by ring, ← h2]
  ring

theorem lor_bytes_be (a b c : Nat) (hb : b < 256) (hc : c < 256) :
    (a <<< 24) ||| (b <<< 16) ||| (c <<< 8) = (c + 256 * b + 65536 * a) * 256 := by
  have h := lor_bytes_le c b a hc hb
  rw [← h, Nat.lor_comm (c <<< 8) (b <<< 16), Nat.lor_comm (a <<< 24) (b <<< 16),
    Nat.lor_assoc, Nat.lor_assoc, Nat.lor_comm (a <<< 24) (c <<< 8)]

theorem decodeLE_lt (bs : List Byte) : decodeLE bs < 256 ^ bs.length := by
  induction bs with
  | nil => simp [decodeLE]
  | cons b bs ih =>
    have hb := b.isLt
    simp only [decodeLE, List.length_cons, pow_succ]
    omega

theorem decodeNE_lt (K : Build) (bs : List Byte) : decodeNE K bs < 256 ^ bs.length := by
  unfold decodeNE
  split
  · simpa using decodeLE_lt bs.reverse
  · exact decodeLE_lt bs

theorem encodeNE_decodeNE (K : Build) (bs : List Byte) :
    encodeNE K bs.length (decodeNE K bs) = bs := by
  unfold encodeNE decodeNE
  split
  · have := encodeLE_decodeLE bs.reverse
    rw [List.length_reverse] at this
    rw [this, List.reverse_reverse]
  · exact encodeLE_decodeLE bs

theorem decodeLE_encodeLE (k v : Nat) : decodeLE (encodeLE k v) = v % 256 ^ k := by
  induction k generalizing v with
  | zero => simp [encodeLE, decodeLE, Nat.mod_one]
  | succ k ih =>
    simp only [encodeLE, decodeLE, ih, Byte.val_ofNat]
    rw [pow_succ, Nat.mul_comm (256 ^ k) 256, Nat.mod_mul]

theorem decodeNE_encodeNE (K : Build) (k v : Nat) :
    decodeNE K (encodeNE K k v) = v % 256 ^ k := by
  unfold encodeNE decodeNE
  split
  · rw [List.reverse_reverse, decodeLE_encodeLE]
  · exact decodeLE_encodeLE k v

theorem load8_eq (K : Build) (m : Mem) (a : Nat) :
    load8 m a = decodeNE K (readBytes m a 1) := by
  unfold decodeNE load8
  split <;> simp [readBytes, decodeLE]

theorem store8_eq (K : Build) (m : Mem) (a v : Nat) :
    store8 m a v = writeBytes m a (encodeNE K 1 v) := by
  unfold encodeNE store8
  split <;> simp [writeBytes, encodeLE]

theorem load24bit_eq (K : Build) (m : Mem) (data pos : Nat) :
    load24bit K m data pos = decodeNE K (readBytes m (data + 3 * pos) 3) * 256 := by
  have e1 : data + 3 * pos + 1 = data + (3 * pos + 1) := by omega
  have e2 : data + (3 * pos + 1) + 1 = data + (3 * pos + 2) := by omega
  have h0 := (m (data + 3 * pos)).isLt
  have h1 := (m (data + (3 * pos + 1))).isLt
  have h2 := (m (data + (3 * pos + 2))).isLt
  unfold load24bit decodeNE load8
  simp only [readBytes, e1, e2]
  split
  · rw [lor_bytes_be _ _ _ h1 h2]
    simp only [List.reverse_cons, List.reverse_nil, List.nil_append, List.cons_append,
      decodeLE_three]
  · rw [lor_bytes_le _ _ _ h0 h1, decodeLE_three]

theorem store24bit_eq (K : Build) (m : Mem) (data pos v : Nat) :
    store24bit K m data pos v
      = writeBytes m (data + 3 * pos) (encodeNE K 3 (v % 4294967296 / 256)) := by
  have e1 : data + 3 * pos + 1 = data + (3 * pos + 1) := by omega
  have e2 : data + (3 * pos + 1) + 1 = data + (3 * pos + 2) := by omega
  unfold store24bit encodeNE store8
  simp only [Nat.shiftRight_eq_div_pow]
  have d1 : v % 4294967296 / 2 ^ 16 = v % 4294967296 / 256 / 256 := by omega
  have d2 : v % 4294967296 / 2 ^ 24 = v % 4294967296 / 256 / 256 / 256 := by omega
  have d3 : v % 4294967296 / 2 ^ 8 = v % 4294967296 / 256 := by omega
  split
  · simp only [encodeLE, List.reverse_cons, List.reverse_nil, List.nil_append, List.cons_append,
      writeBytes, e1, e2, d1, d2, d3]
  · simp only [encodeLE, writeBytes, e1, e2, d1, d2, d3]


theorem forLoop_congr (body body2 : Nat → Mem → Mem) (h : ∀ i m, body i m = body2 i m)
    (n : Nat) (m : Mem) : forLoop n body m = forLoop n body2 m := by
  induction n with
  | zero => rfl
  | succ n ih => simp only [forLoop, ih, h]

/-- In every one of the twelve directed pairs of widths, `change_bps` is the
per-sample loop that rewrites each sample through `rescaleBytes`. -/
theorem change_bps_eq (K : Build) (m : Mem) (inp out : Nat) (len : Int) (wi wo : Nat)
    (hwi : 1 ≤ wi) (hwi4 : wi ≤ 4) (hwo : 1 ≤ wo) (hwo4 : wo ≤ 4) (hne : wi ≠ wo) :
    change_bps K m inp out len (wi : Int) (wo : Int)
      = forLoop len.toNat (sampleBody (rescaleBytes K wi wo) wi (fun i => inp + wi * i)
          (fun i => out + wo * i)) m := by
  interval_cases wi <;> interval_cases wo <;> first
    | exact absurd rfl hne
    | (simp only [change_bps, Nat.cast_ofNat, Nat.cast_one]
       norm_num
       apply forLoop_congr
       intro i m2
       simp only [sampleBody, rescaleBytes, store16, store32, load16, load32, store8_eq K,
         load8_eq K, load24bit_eq, store24bit_eq, Nat.one_mul]
       refine congrArg _ (congrArg _ ?_)
       have hv : ∀ a k, decodeNE K (readBytes m2 a k) < 256 ^ k := fun a k => by
         simpa [readBytes_length] using decodeNE_lt K (readBytes m2 a k)
       have h1 := hv (inp + i) 1
       have h2 := hv (inp + 2 * i) 2
       have h3 := hv (inp + 3 * i) 3
       have h4 := hv (inp + 4 * i) 4
       simp only [rescale, Nat.shiftLeft_eq, Nat.shiftRight_eq_div_pow]
       norm_num at h1 h2 h3 h4 ⊢
       try omega)


theorem readBytes_append (m : Mem) (a j k : Nat) :
    readBytes m a (j + k) = readBytes m a j ++ readBytes m (a + j) k := by
  induction j generalizing a with
  | zero => simp [readBytes]
  | succ j ih =>
    have e : j + 1 + k = (j + k) + 1 := by omega
    rw [e]
    simp only [readBytes, List.cons_append, ih]
    have e2 : a + 1 + j = a + (j + 1) := by omega
    rw [e2]

/-- Two blocks of `n` samples of width `w` are equal once they agree sample by
sample. -/
theorem readBytes_block_eq (m m2 : Mem) (a a2 w n : Nat)
    (h : ∀ i, i < n → readBytes m (a + w * i) w = readBytes m2 (a2 + w * i) w) :
    readBytes m a (n * w) = readBytes m2 a2 (n * w) := by
  induction n with
  | zero => simp [readBytes]
  | succ n ih =>
    rw [Nat.succ_mul, readBytes_append, readBytes_append,
      ih (fun i hi => h i (by omega))]
    have := h n (by omega)
    rw [Nat.mul_comm w n] at this
    rw [this]

theorem rescaleBytes_length (K : Build) (wi wo : Nat) (bs : List Byte) :
    (rescaleBytes K wi wo bs).length = wo :=
  encodeNE_length K wo _

/-- Widening a sample and narrowing it back gives the sample. -/
theorem rescaleBytes_widen_narrow (K : Build) (w1 w2 : Nat) (h : w1 ≤ w2) (bs : List Byte)
    (hbs : bs.length = w1) :
    rescaleBytes K w2 w1 (rescaleBytes K w1 w2 bs) = bs := by
  unfold rescaleBytes
  rw [decodeNE_encodeNE]
  have hv := decodeNE_lt K bs
  rw [hbs] at hv
  have hpos : 0 < 256 ^ (w2 - w1) := Nat.pow_pos (by decide)
  have e1 : rescale w1 w2 (decodeNE K bs) = decodeNE K bs * 256 ^ (w2 - w1) := by
    simp [rescale, h]
  have hlt : decodeNE K bs * 256 ^ (w2 - w1) < 256 ^ w2 := by
    calc decodeNE K bs * 256 ^ (w2 - w1) < 256 ^ w1 * 256 ^ (w2 - w1) :=
          Nat.mul_lt_mul_of_pos_right hv hpos
      _ = 256 ^ w2 := by rw [← pow_add]; congr 1; omega
  rw [e1, Nat.mod_eq_of_lt hlt]
  have e2 : rescale w2 w1 (decodeNE K bs * 256 ^ (w2 - w1)) = decodeNE K bs := by
    unfold rescale
    split
    · have : w2 = w1 := by omega
      subst this
      simp
    · exact Nat.mul_div_cancel _ hpos
  rw [e2]
  have := encodeNE_decodeNE K bs
  rw [hbs] at this
  exact this


/-- C3: widen-then-narrow is exact.  For widths `w1 < w2` in {1,2,3,4} and a
block of `len` samples of width `w1` at `inp`, widening into a buffer at `mid`
and narrowing that into a buffer at `out` (the intermediate buffer overlapping
neither of the other two) leaves at `out` the original block, byte for byte. -/
theorem change_bps_widen_narrow (K : Build) (m : Mem) (inp mid out : Nat) (len : Int)
    (w1 w2 : Nat) (hw1 : 1 ≤ w1) (hlt : w1 < w2) (hw2 : w2 ≤ 4)
    (hmi : mid + len.toNat * w2 ≤ inp ∨ inp + len.toNat * w1 ≤ mid)
    (hmo : mid + len.toNat * w2 ≤ out ∨ out + len.toNat * w1 ≤ mid) :
    readBytes (change_bps K (change_bps K m inp mid len w1 w2) mid out len w2 w1) out
        (len.toNat * w1)
      = readBytes m inp (len.toNat * w1) := by
  rw [change_bps_eq K m inp mid len w1 w2 hw1 (by omega) (by omega) hw2 (by omega),
    change_bps_eq K _ mid out len w2 w1 (by omega) hw2 hw1 (by omega) (by omega)]
  generalize len.toNat = n at hmi hmo ⊢
  apply readBytes_block_eq
  intro i hi
  have hmul : ∀ w a b : Nat, a < b → w * a + w ≤ w * b := fun w a b h => by
    have := Nat.mul_le_mul_left w (Nat.succ_le_of_lt h)
    rw [Nat.mul_succ] at this
    exact this
  have hmul2 : ∀ w a : Nat, a < n → w * a + w ≤ n * w := fun w a h => by
    have := hmul w a n h
    rw [Nat.mul_comm w n] at this
    exact this
  have s2 := sampleLoop_sample (rescaleBytes K w2 w1) w2 w1 (fun i => mid + w2 * i)
    (fun i => out + w1 * i) (fun bs _ => rescaleBytes_length K w2 w1 bs)
    (fun a b h => by have := hmul w1 a b h; beta_reduce; omega)
    (forLoop n (sampleBody (rescaleBytes K w1 w2) w1 (fun i => inp + w1 * i)
      (fun i => mid + w2 * i)) m) n
    (fun a b h hb => by
      have h1 := hmul2 w1 a (by omega)
      have h2 := hmul2 w2 b hb
      beta_reduce
      omega) i hi
  have s1 := sampleLoop_sample (rescaleBytes K w1 w2) w1 w2 (fun i => inp + w1 * i)
    (fun i => mid + w2 * i) (fun bs _ => rescaleBytes_length K w1 w2 bs)
    (fun a b h => by have := hmul w2 a b h; beta_reduce; omega) m n
    (fun a b h hb => by
      have h1 := hmul2 w2 a (by omega)
      have h2 := hmul2 w1 b hb
      beta_reduce
      omega) i hi
  beta_reduce at s1 s2
  rw [s2, s1, rescaleBytes_widen_narrow K w1 w2 (by omega) _ (readBytes_length _ _ _)]


/-! ## The pipeline `play` -/

/-- Every sign flip `play` makes is on `len` samples and uses the width of the
input block or of the output block. -/
theorem play_steps_si2us (K : Build) (c l : af_data_t) (len : Int) (d : Nat) (n b : Int)
    (h : Step.si2us d n b ∈ play_steps K c l len) : n = len ∧ (b = c.bps ∨ b = l.bps) := by
  unfold play_steps at h
  simp only [List.mem_append] at h
  rcases h with (h | h) | h
  · split_ifs at h <;> simp at h
  · split_ifs at h <;> simp at h <;> simp [h]
  · split_ifs at h <;> simp at h

/-- A list of calls runs to completion when each sign flip in it has a width in
{1,2,3,4} and no more samples than `fuel`. -/
theorem runSteps_some (K : Build) (P : Codec) (fuel : Nat) (steps : List Step)
    (h : ∀ d n b, Step.si2us d n b ∈ steps →
      (b = 1 ∨ b = 2 ∨ b = 3 ∨ b = 4) ∧ n.toNat ≤ fuel) (m : Mem) :
    ∃ m1, runSteps K P fuel m steps = some m1 := by
  induction steps generalizing m with
  | nil => exact ⟨m, rfl⟩
  | cons s rest ih =>
    have hrest : ∀ d n b, Step.si2us d n b ∈ rest →
        (b = 1 ∨ b = 2 ∨ b = 3 ∨ b = 4) ∧ n.toNat ≤ fuel :=
      fun d n b hm => h d n b (List.mem_cons_of_mem _ hm)
    have hstep : ∃ m0, runStep K P fuel m s = some m0 := by
      cases s with
      | si2us d n b =>
        obtain ⟨hb, hn⟩ := h d n b (List.mem_cons_self _ _)
        by_cases hpos : n ≤ 0
        · exact ⟨_, si2us_nonpos K fuel m d n b hpos⟩
        · exact ⟨_, si2us_pos K fuel m d n b hb (by omega) hn⟩
      | _ => exact ⟨_, rfl⟩
    obtain ⟨m0, hm0⟩ := hstep
    obtain ⟨m1, hm1⟩ := ih hrest m0
    exact ⟨m1, by simp [runSteps, hm0, hm1]⟩

/-- A value in the range of an `int` is stored as it is. -/
theorem toInt32_of_fits (x : Int) (h1 : -2147483648 ≤ x) (h2 : x < 2147483648) :
    toInt32 x = x := by
  unfold toInt32
  omega

/-- On a block whose width is in {1,2,3,4} the division at the head of `play`
does not fault, and when the resize succeeds `play` runs to its last line: it
returns the block with the new buffer, the `int` product of the sample count and
the output width as length, and the output width and format. -/
theorem play_ret (K : Build) (P : Codec) (fuel a : Nat) (af : af_priv_t)
    (data : af_data_t) (m : Mem) (N : Int)
    (hbi : data.bps = 1 ∨ data.bps = 2 ∨ data.bps = 3 ∨ data.bps = 4)
    (hbo : af.data.bps = 1 ∨ af.data.bps = 2 ∨ af.data.bps = 3 ∨ af.data.bps = 4)
    (hlen : data.len = N * data.bps) (hfuel : N.toNat ≤ fuel) :
    ∃ m1, play K P fuel (some a) af data m
      = some (PlayResult.ret ⟨a, toInt32 (N * af.data.bps), data.rate, data.nch,
          af.data.format, af.data.bps⟩ m1) := by
  have hne : data.bps ≠ 0 := by omega
  have htrap : ¬ (data.bps = 0 ∨ (data.len = -2147483648 ∧ data.bps = -1)) := by omega
  have hN : Int.tdiv data.len data.bps = N := by rw [hlen]; exact Int.mul_tdiv_cancel N hne
  obtain ⟨m1, hm1⟩ := runSteps_some K P fuel
    (play_steps K data { af.data with audio := a } N)
    (fun d n b hmem => by
      obtain ⟨hn, hb⟩ := play_steps_si2us K data _ N d n b hmem
      subst hn
      refine ⟨?_, hfuel⟩
      rcases hb with hb | hb
      · rw [hb]; exact hbi
      · rw [hb]; exact hbo) m
  refine ⟨m1, ?_⟩
  simp only [play, if_neg htrap, RESIZE_LOCAL_BUFFER, Option.map_some', hN, hm1]

/-- The length `play` stores is an `int` product: a block of 2^30 one-byte
samples converted to four bytes per sample comes back with length 0. -/
theorem play_len_wraps :
    ∃ m1, play exampleBuild idleCodec 1073741824 (some 0)
        { exampleStage with data := { exampleStage.data with format := 25, bps := 4 } }
        { exampleBlock with audio := 4294967296, len := 1073741824 } exampleMem
      = some (PlayResult.ret ⟨0, 0, 44100, 2, 25, 4⟩ m1) :=
  play_ret exampleBuild idleCodec 1073741824 0
    { exampleStage with data := { exampleStage.data with format := 25, bps := 4 } }
    { exampleBlock with audio := 4294967296, len := 1073741824 } exampleMem 1073741824
    (by decide) (by decide) (by decide) (by decide)

/-- C5: `play` preserves the sample count.  For input and output widths in
{1,2,3,4} and an input block of `N` samples (`N * bps` bytes) whose output
length `N` times the output width is in the range of the `int` field that holds
it, when the buffer resize succeeds and the sign-flip loop is allowed `N`
iterations, `play` returns the block with byte length `N` times the output
width, with the bps and format configured for the output, and with the rate and
channel count of the input. -/
theorem play_preserves_sample_count (K : Build) (P : Codec) (fuel a : Nat) (af : af_priv_t)
    (data : af_data_t) (m : Mem) (N : Int)
    (hbi : data.bps = 1 ∨ data.bps = 2 ∨ data.bps = 3 ∨ data.bps = 4)
    (hbo : af.data.bps = 1 ∨ af.data.bps = 2 ∨ af.data.bps = 3 ∨ af.data.bps = 4)
    (hlen : data.len = N * data.bps) (hfuel : N.toNat ≤ fuel)
    (hlo : -2147483648 ≤ N * af.data.bps) (hhi : N * af.data.bps < 2147483648) :
    ∃ d m1, play K P fuel (some a) af data m = some (PlayResult.ret d m1)
      ∧ d.len = N * af.data.bps ∧ d.bps = af.data.bps ∧ d.format = af.data.format
      ∧ d.rate = data.rate ∧ d.nch = data.nch := by
  obtain ⟨m1, hm1⟩ := play_ret K P fuel a af data m N hbi hbo hlen hfuel
  exact ⟨_, m1, hm1, toInt32_of_fits _ hlo hhi, rfl, rfl, rfl, rfl⟩

theorem flipSigns_zero (m : Mem) (base b : Nat) : flipSigns m base b 0 = m := by
  funext x
  unfold flipSigns
  rw [if_neg (by omega)]

/-- `si2us` on a block of `n` samples, `n` possibly zero. -/
theorem si2us_nat (K : Build) (fuel : Nat) (m : Mem) (data n b : Nat)
    (hb : b = 1 ∨ b = 2 ∨ b = 3 ∨ b = 4) (hfuel : n ≤ fuel) :
    si2us K fuel m data (n : Int) (b : Int)
      = some (flipSigns m (data + signOffset K b) b n) := by
  cases n with
  | zero => rw [flipSigns_zero]; exact si2us_nonpos K fuel m data _ _ (by simp)
  | succ k => exact si2us_spec K b hb k fuel m data hfuel

/-- On a little-endian build, widening one byte to two puts it in the upper
byte of the 16-bit word. -/
theorem rescaleBytes_1_2_le (K : Build) (hLE : K.WORDS_BIGENDIAN = false) (b : Byte) :
    rescaleBytes K 1 2 [b] = [0, b] := by
  have hb := b.isLt
  simp only [rescaleBytes, encodeNE, decodeNE, hLE, Bool.false_eq_true, if_false, decodeLE,
    rescale, encodeLE]
  norm_num
  constructor
  · apply Byte.ofNat_eq_of_mod
    simp
  · apply Byte.ofNat_eq_of_mod
    omega

/-- C4: unsigned 8-bit to signed 16-bit little-endian on a little-endian build.
The input block holds `n` one-byte samples; its format is neither mu-law nor
A-law nor float; the output format is plain integer in native byte order with
the other signedness and two bytes per sample; the output length `2 * n` is in
the range of the `int` field that holds it; the buffer resize succeeds with a
buffer that does not overlap the input.  Then `play` returns a block of `n`
16-bit words at the new buffer, and word `i` holds `(u_i xor 0x80) << 8`: low
byte zero, high byte the input byte with its top bit flipped. -/
theorem play_u8_to_s16le (K : Build) (P : Codec) (fuel la : Nat) (af : af_priv_t)
    (data : af_data_t) (m : Mem) (n : Nat)
    (hLE : K.WORDS_BIGENDIAN = false)
    (hcb : data.bps = 1) (hlb : af.data.bps = 2) (hlen : data.len = n)
    (hcs1 : Int.land data.format K.AF_FORMAT_SPECIAL_MASK ≠ K.AF_FORMAT_MU_LAW)
    (hcs2 : Int.land data.format K.AF_FORMAT_SPECIAL_MASK ≠ K.AF_FORMAT_A_LAW)
    (hcp : Int.land data.format K.AF_FORMAT_POINT_MASK ≠ K.AF_FORMAT_F)
    (hsign : Int.land data.format K.AF_FORMAT_SIGN_MASK
      ≠ Int.land af.data.format K.AF_FORMAT_SIGN_MASK)
    (hl1 : Int.land af.data.format (Int.lor K.AF_FORMAT_SPECIAL_MASK K.AF_FORMAT_POINT_MASK)
      ≠ K.AF_FORMAT_MU_LAW)
    (hl2 : Int.land af.data.format (Int.lor K.AF_FORMAT_SPECIAL_MASK K.AF_FORMAT_POINT_MASK)
      ≠ K.AF_FORMAT_A_LAW)
    (hl3 : Int.land af.data.format (Int.lor K.AF_FORMAT_SPECIAL_MASK K.AF_FORMAT_POINT_MASK)
      ≠ K.AF_FORMAT_F)
    (hlend : Int.land af.data.format K.AF_FORMAT_END_MASK = K.AF_FORMAT_NE)
    (hdisj : la + 2 * n ≤ data.audio ∨ data.audio + n ≤ la)
    (hfuel : n ≤ fuel) (hfit : 2 * n < 2147483648) :
    ∃ d m1, play K P fuel (some la) af data m = some (PlayResult.ret d m1)
      ∧ d.audio = la ∧ d.len = 2 * n ∧ d.bps = 2 ∧ d.format = af.data.format
      ∧ ∀ i, i < n →
          readBytes m1 (la + 2 * i) 2 = [0, flipByte (m (data.audio + i))]
          ∧ load16 K m1 (la + 2 * i) = ((m (data.audio + i)).val ^^^ 0x80) <<< 8 := by
  -- the memory after the sign flip and after the width change
  let M1 : Mem := flipSigns m data.audio 1 n
  let M2 : Mem := change_bps K M1 data.audio la n 1 2
  have hlenN : Int.tdiv data.len data.bps = (n : Int) := by rw [hlen, hcb]; simp
  have hso : signOffset K 1 = 0 := by simp [signOffset]
  have hflip : si2us K fuel m data.audio (n : Int) 1 = some M1 := by
    have := si2us_nat K fuel m data.audio n 1 (Or.inl rfl) hfuel
    rw [hso] at this
    exact this
  have hend1 : ∀ p, endian K m p p (n : Int) 1 = m := fun p => by simp [endian]
  have hrun : runSteps K P fuel m (play_steps K data { af.data with audio := la } n)
      = some M2 := by
    have h12 : ¬ ((1 : Int) = 2) := by decide
    simp only [play_steps, hcs1, hcs2, hcp, hsign, hl1, hl2, hl3, hlend, hcb, hlb, h12, ne_eq,
      not_true_eq_false, not_false_eq_true, if_true, if_false, List.append_nil]
    split_ifs <;>
      simp [runSteps, runStep, hend1, hflip, M2]
  refine ⟨⟨la, 2 * n, data.rate, data.nch, af.data.format, 2⟩, M2, ?_, rfl, rfl, rfl, rfl, ?_⟩
  · have htrap : ¬ (data.bps = 0 ∨ (data.len = -2147483648 ∧ data.bps = -1)) := by omega
    have hw : toInt32 ((n : Int) * 2) = 2 * (n : Int) := by unfold toInt32; omega
    simp only [play, if_neg htrap, RESIZE_LOCAL_BUFFER, Option.map_some', hlenN]
    rw [hrun]
    simp only [hlb, hw]
  · intro i hi
    have hM2 : M2 = forLoop n (sampleBody (rescaleBytes K 1 2) 1 (fun i => data.audio + 1 * i)
        (fun i => la + 2 * i)) M1 := by
      have := change_bps_eq K M1 data.audio la (n : Int) 1 2 (by omega) (by omega) (by omega)
        (by omega) (by omega)
      simpa using this
    have hs := sampleLoop_sample (rescaleBytes K 1 2) 1 2 (fun i => data.audio + 1 * i)
      (fun i => la + 2 * i) (fun bs _ => rescaleBytes_length K 1 2 bs)
      (fun a b h => by beta_reduce; omega) M1 n
      (fun a b h hb => by beta_reduce; omega) i hi
    beta_reduce at hs
    rw [← hM2] at hs
    have hM1 : readBytes M1 (data.audio + 1 * i) 1 = [flipByte (m (data.audio + i))] := by
      simp only [readBytes, M1, flipSigns, Nat.one_mul, List.cons.injEq, and_true]
      rw [if_pos (by omega)]
    rw [hM1, rescaleBytes_1_2_le K hLE] at hs
    refine ⟨hs, ?_⟩
    unfold load16
    rw [hs]
    simp only [decodeNE, hLE, Bool.false_eq_true, if_false, decodeLE, flipByte, Byte.val_ofNat,
      Nat.shiftLeft_eq]
    have : (m (data.audio + i)).val ^^^ 128 < 2 ^ 8 :=
      Nat.xor_lt_two_pow (by have := (m (data.audio + i)).isLt; omega) (by decide)
    norm_num
    omega


/-! ## Validation and negotiation -/

/-- The acceptance condition of `check_bps`. -/
theorem check_bps_ok_iff (bps : Int) :
    check_bps bps = AF_OK ↔ (bps = 1 ∨ bps = 2 ∨ bps = 3 ∨ bps = 4) := by
  unfold check_bps
  split_ifs with h
  · constructor
    · intro hc; cases hc
    · intro hc; omega
  · constructor
    · intro _; omega
    · intro _; rfl

/-- C8: width validation is exact.  `check_bps` returns `AF_OK` exactly on 1, 2,
3 and 4 and `AF_ERROR` on every other integer, among them 0, -1 and 5. -/
theorem check_bps_exact (bps : Int) :
    (check_bps bps = AF_OK ↔ (bps = 1 ∨ bps = 2 ∨ bps = 3 ∨ bps = 4))
      ∧ (check_bps bps = AF_ERROR ↔ ¬ (bps = 1 ∨ bps = 2 ∨ bps = 3 ∨ bps = 4))
      ∧ check_bps 0 = AF_ERROR ∧ check_bps (-1) = AF_ERROR ∧ check_bps 5 = AF_ERROR := by
  refine ⟨check_bps_ok_iff bps, ?_, by decide, by decide, by decide⟩
  · unfold check_bps
    split_ifs with h
    · constructor
      · intro _; omega
      · intro _; rfl
    · constructor
      · intro hc; cases hc
      · intro hc; omega

/-- `check_format` never answers `AF_DETACH`. -/
theorem check_format_cases (K : Build) (f : Int) :
    check_format K f = AF_OK ∨ check_format K f = AF_ERROR := by
  unfold check_format
  simp only
  split_ifs <;> simp

/-- The rejection condition of `check_format`. -/
theorem check_format_error_iff (K : Build) (f : Int) :
    check_format K f = AF_ERROR ↔
      (Int.land f K.AF_FORMAT_SPECIAL_MASK = K.AF_FORMAT_IMA_ADPCM
        ∨ Int.land f K.AF_FORMAT_SPECIAL_MASK = K.AF_FORMAT_MPEG2
        ∨ Int.land f K.AF_FORMAT_SPECIAL_MASK = K.AF_FORMAT_AC3) := by
  unfold check_format
  simp only
  split_ifs with h1 h2 h3
  · simp [h1]
  · simp [h2]
  · simp [h3]
  · simp [h1, h2, h3]

/-- C9: encoding validation is exact and looks at the special-encoding field
only.  `check_format` returns `AF_ERROR` exactly when the field is IMA ADPCM,
MPEG2 or AC3 and `AF_OK` otherwise; two codes with the same field get the same
answer; and when the constants for "none" (0), mu-law and A-law differ from
those three, every code whose field is none, mu-law or A-law is accepted,
whatever its other bits. -/
theorem check_format_exact (K : Build) (f : Int) :
    (check_format K f = AF_ERROR ↔
      (Int.land f K.AF_FORMAT_SPECIAL_MASK = K.AF_FORMAT_IMA_ADPCM
        ∨ Int.land f K.AF_FORMAT_SPECIAL_MASK = K.AF_FORMAT_MPEG2
        ∨ Int.land f K.AF_FORMAT_SPECIAL_MASK = K.AF_FORMAT_AC3))
    ∧ (check_format K f = AF_OK ↔
      ¬ (Int.land f K.AF_FORMAT_SPECIAL_MASK = K.AF_FORMAT_IMA_ADPCM
        ∨ Int.land f K.AF_FORMAT_SPECIAL_MASK = K.AF_FORMAT_MPEG2
        ∨ Int.land f K.AF_FORMAT_SPECIAL_MASK = K.AF_FORMAT_AC3))
    ∧ (∀ g : Int, Int.land g K.AF_FORMAT_SPECIAL_MASK = Int.land f K.AF_FORMAT_SPECIAL_MASK →
      check_format K g = check_format K f)
    ∧ (∀ e : Int, (e = 0 ∨ e = K.AF_FORMAT_MU_LAW ∨ e = K.AF_FORMAT_A_LAW) →
      e ≠ K.AF_FORMAT_IMA_ADPCM → e ≠ K.AF_FORMAT_MPEG2 → e ≠ K.AF_FORMAT_AC3 →
      Int.land f K.AF_FORMAT_SPECIAL_MASK = e → check_format K f = AF_OK) := by
  have herr := check_format_error_iff K f
  have hok : check_format K f = AF_OK ↔
      ¬ (Int.land f K.AF_FORMAT_SPECIAL_MASK = K.AF_FORMAT_IMA_ADPCM
        ∨ Int.land f K.AF_FORMAT_SPECIAL_MASK = K.AF_FORMAT_MPEG2
        ∨ Int.land f K.AF_FORMAT_SPECIAL_MASK = K.AF_FORMAT_AC3) := by
    rw [← herr]
    rcases check_format_cases K f with h | h <;> simp [h]
  refine ⟨herr, hok, ?_, ?_⟩
  · intro g hg
    unfold check_format
    simp only [hg]
  · intro e _ h1 h2 h3 he
    rw [hok, he]
    simp [h1, h2, h3]

/-- C6: redundancy detection.  When the stage asks for the very format of the
input block and the input width is the width of that format
(`af_fmt2bits(format)/8`), `af_init_format` returns `AF_DETACH`. -/
theorem af_init_format_redundant (K : Build) (af : af_priv_t) (data : af_data_t)
    (hfmt : af.format = data.format)
    (hbps : data.bps = Int.tdiv (K.af_fmt2bits data.format) 8) :
    (af_init_format K af data).1 = AF_DETACH := by
  simp [af_init_format, hfmt, hbps]

/-- The three possible answers of `af_init_format`, by the tests it makes in
order: redundancy first, then the four validations. -/
theorem af_init_format_status (K : Build) (af : af_priv_t) (data : af_data_t) :
    (af_init_format K af data).1 =
      if af.format = data.format ∧ Int.tdiv (K.af_fmt2bits af.format) 8 = data.bps then AF_DETACH
      else if AF_OK ≠ check_bps data.bps ∨ AF_OK ≠ check_format K data.format
          ∨ AF_OK ≠ check_bps (Int.tdiv (K.af_fmt2bits af.format) 8)
          ∨ AF_OK ≠ check_format K af.format then AF_ERROR
      else AF_OK := by
  unfold af_init_format
  simp only
  split_ifs <;> rfl


/-- C7, as stated, fails: with the reserved encoding AC3 (code 256 in
`exampleBuild`) requested for the output and present on the input, and the
input width equal to the width of that format, `af_init_format` answers
`AF_DETACH`, not `AF_ERROR`; likewise for a 5-byte format (code 32, 40 bits) on
both sides. -/
theorem af_init_format_bad_descriptor_detach :
    (Int.land 256 exampleBuild.AF_FORMAT_SPECIAL_MASK = exampleBuild.AF_FORMAT_AC3
      ∧ (af_init_format exampleBuild { exampleStage with format := 256 }
          { exampleBlock with format := 256, bps := 1 }).1 = AF_DETACH
      ∧ (af_init_format exampleBuild { exampleStage with format := 256 }
          { exampleBlock with format := 256, bps := 1 }).1 ≠ AF_ERROR)
    ∧ (Int.tdiv (exampleBuild.af_fmt2bits 32) 8 = 5
      ∧ (af_init_format exampleBuild { exampleStage with format := 32 }
          { exampleBlock with format := 32, bps := 5 }).1 = AF_DETACH) := by
  refine ⟨⟨by decide, by decide, by decide⟩, by decide, by decide⟩

/-- C7 (amended): bad descriptors are never accepted.  If the input width or the
output width is not in {1,2,3,4}, or the special-encoding field of the input or
of the output format is IMA ADPCM, MPEG2 or AC3, then `af_init_format` does not
return `AF_OK`: it returns `AF_DETACH` when the output format equals the input
format and the input width equals the width of that format (the redundancy
test, which is made first), and `AF_ERROR` in every other case. -/
theorem af_init_format_rejects (K : Build) (af : af_priv_t) (data : af_data_t)
    (hbad : ¬ (data.bps = 1 ∨ data.bps = 2 ∨ data.bps = 3 ∨ data.bps = 4)
      ∨ ¬ (Int.tdiv (K.af_fmt2bits af.format) 8 = 1 ∨ Int.tdiv (K.af_fmt2bits af.format) 8 = 2
          ∨ Int.tdiv (K.af_fmt2bits af.format) 8 = 3 ∨ Int.tdiv (K.af_fmt2bits af.format) 8 = 4)
      ∨ (Int.land data.format K.AF_FORMAT_SPECIAL_MASK = K.AF_FORMAT_IMA_ADPCM
          ∨ Int.land data.format K.AF_FORMAT_SPECIAL_MASK = K.AF_FORMAT_MPEG2
          ∨ Int.land data.format K.AF_FORMAT_SPECIAL_MASK = K.AF_FORMAT_AC3)
      ∨ (Int.land af.format K.AF_FORMAT_SPECIAL_MASK = K.AF_FORMAT_IMA_ADPCM
          ∨ Int.land af.format K.AF_FORMAT_SPECIAL_MASK = K.AF_FORMAT_MPEG2
          ∨ Int.land af.format K.AF_FORMAT_SPECIAL_MASK = K.AF_FORMAT_AC3)) :
    (af_init_format K af data).1 ≠ AF_OK
      ∧ ((af.format = data.format ∧ Int.tdiv (K.af_fmt2bits af.format) 8 = data.bps) →
          (af_init_format K af data).1 = AF_DETACH)
      ∧ (¬ (af.format = data.format ∧ Int.tdiv (K.af_fmt2bits af.format) 8 = data.bps) →
          (af_init_format K af data).1 = AF_ERROR) := by
  have hfail : AF_OK ≠ check_bps data.bps ∨ AF_OK ≠ check_format K data.format
      ∨ AF_OK ≠ check_bps (Int.tdiv (K.af_fmt2bits af.format) 8)
      ∨ AF_OK ≠ check_format K af.format := by
    rcases hbad with h | h | h | h
    · left
      intro hc
      exact h ((check_bps_ok_iff data.bps).mp hc.symm)
    · right; right; left
      intro hc
      exact h ((check_bps_ok_iff _).mp hc.symm)
    · right; left
      rw [(check_format_error_iff K data.format).mpr h]
      decide
    · right; right; right
      rw [(check_format_error_iff K af.format).mpr h]
      decide
  rw [af_init_format_status]
  refine ⟨?_, ?_, ?_⟩
  · split_ifs <;> decide
  · intro hred
    rw [if_pos hred]
  · intro hred
    rw [if_neg hred, if_pos hfail]

/-! ## Instances at concrete inputs -/

theorem si2us_involution_witness :
    ((2 : Int) = 1 ∨ (2 : Int) = 2 ∨ (2 : Int) = 3 ∨ (2 : Int) = 4)
      ∧ (si2us exampleBuild 2 exampleMem 10 2 2).bind
          (fun m1 => si2us exampleBuild 3 m1 10 2 2) = some exampleMem :=
  ⟨by decide,
    si2us_involution exampleBuild exampleMem 10 2 2 2 3 (by decide) (by decide) (by decide)⟩

theorem change_bps_widen_narrow_witness :
    readBytes (change_bps exampleBuild (change_bps exampleBuild exampleMem 10 20 4
        ((1 : Nat) : Int) ((3 : Nat) : Int)) 20 40 4 ((3 : Nat) : Int) ((1 : Nat) : Int)) 40
        ((4 : Int).toNat * 1)
      = readBytes exampleMem 10 ((4 : Int).toNat * 1) :=
  change_bps_widen_narrow exampleBuild exampleMem 10 20 40 4 1 3 (by decide) (by decide)
    (by decide) (by decide) (by decide)

theorem play_preserves_sample_count_witness :
    ∃ d m1, play exampleBuild idleCodec 4 (some 100) exampleStage exampleBlock exampleMem
        = some (PlayResult.ret d m1)
      ∧ d.len = 4 * 2 ∧ d.bps = 2 ∧ d.format = 9 ∧ d.rate = 44100 ∧ d.nch = 2 :=
  play_preserves_sample_count exampleBuild idleCodec 4 100 exampleStage exampleBlock exampleMem 4
    (by decide) (by decide) (by decide) (by decide) (by decide) (by decide)

theorem af_init_format_redundant_witness :
    (af_init_format exampleBuild exampleStage
      { exampleBlock with format := 9, bps := 2 }).1 = AF_DETACH :=
  af_init_format_redundant exampleBuild exampleStage { exampleBlock with format := 9, bps := 2 }
    (by decide) (by decide)

theorem af_init_format_rejects_witness :
    (af_init_format exampleBuild exampleStage { exampleBlock with bps := 5 }).1 = AF_ERROR :=
  (af_init_format_rejects exampleBuild exampleStage { exampleBlock with bps := 5 }
    (Or.inl (by decide))).2.2 (by decide)

theorem check_format_exact_witness :
    check_format exampleBuild 73 = AF_OK ∧ check_format exampleBuild 137 = AF_OK
      ∧ check_format exampleBuild 15 = AF_OK :=
  ⟨(check_format_exact exampleBuild 73).2.2.2 64 (by decide) (by decide) (by decide)
      (by decide) (by decide),
    (check_format_exact exampleBuild 137).2.2.2 128 (by decide) (by decide) (by decide)
      (by decide) (by decide),
    (check_format_exact exampleBuild 15).2.2.2 0 (by decide) (by decide) (by decide)
      (by decide) (by decide)⟩

/-- The end-to-end scenario: the block `00 80 FF 40` of unsigned 8-bit samples
comes out as the bytes `00 80 00 00 00 7F 00 C0`, the signed 16-bit
little-endian samples -32768, 0, 32512, -16384. -/
theorem play_u8_to_s16le_witness :
    ∃ d m1, play exampleBuild idleCodec 4 (some 100) exampleStage exampleBlock exampleMem
        = some (PlayResult.ret d m1)
      ∧ d.audio = 100 ∧ d.len = 8
      ∧ readBytes m1 100 8 = [0x00, 0x80, 0x00, 0x00, 0x00, 0x7F, 0x00, 0xC0]
      ∧ [0, 1, 2, 3].map (fun i => int16_of (load16 exampleBuild m1 (100 + 2 * i)))
          = [-32768, 0, 32512, -16384] := by
  obtain ⟨d, m1, hp, ha, hl, _, _, hs⟩ :=
    play_u8_to_s16le exampleBuild idleCodec 4 100 exampleStage exampleBlock exampleMem 4
      (by decide) (by decide) (by decide) (by decide) (by decide) (by decide) (by decide)
      (by decide) (by decide) (by decide) (by decide) (by decide) (by decide) (by decide)
      (by decide)
  refine ⟨d, m1, hp, ha, hl, ?_, ?_⟩
  · have h0 := (hs 0 (by decide)).1
    have h1 := (hs 1 (by decide)).1
    have h2 := (hs 2 (by decide)).1
    have h3 := (hs 3 (by decide)).1
    simp only [readBytes, List.cons.injEq, and_true] at h0 h1 h2 h3 ⊢
    refine ⟨h0.1, ?_, h1.1, ?_, h2.1, ?_, h3.1, ?_⟩
    · rw [h0.2]; decide
    · rw [h1.2]; decide
    · rw [h2.2]; decide
    · rw [h3.2]; decide
  · have h0 := (hs 0 (by decide)).2
    have h1 := (hs 1 (by decide)).2
    have h2 := (hs 2 (by decide)).2
    have h3 := (hs 3 (by decide)).2
    simp only [List.map, h0, h1, h2, h3]
    decide


/-! ## Byte reversal by `endian` -/

theorem forLoop_congr_lt (body body2 : Nat → Mem → Mem) (n : Nat)
    (h : ∀ i, i < n → ∀ m, body i m = body2 i m) (m : Mem) :
    forLoop n body m = forLoop n body2 m := by
  induction n with
  | zero => rfl
  | succ n ih =>
    simp only [forLoop]
    rw [ih (fun i hi => h i (by omega)), h n (by omega)]

/-- With `in != out`, and `out` not one byte above `in`, an iteration of the
3-byte loop of `endian` writes the sample with its bytes reversed. -/
theorem endian3_body_distinct (inp out i : Nat) (m : Mem) (h1 : inp ≠ out)
    (h2 : inp + (3 * i + 1) ≠ out + 3 * i) :
    endian3_body inp out i m
      = sampleBody List.reverse 3 (fun i => inp + 3 * i) (fun i => out + 3 * i) i m := by
  funext x
  simp only [endian3_body, sampleBody, readBytes, writeBytes, writeByte, ne_eq, h1,
    not_false_eq_true, if_true, List.reverse_cons, List.reverse_nil, List.nil_append,
    List.cons_append, h2, if_false]
  have e1 : inp + 3 * i + 1 = inp + (3 * i + 1) := by omega
  have e2 : inp + (3 * i + 1) + 1 = inp + (3 * i + 2) := by omega
  have e3 : out + 3 * i + 1 = out + (3 * i + 1) := by omega
  have e4 : out + (3 * i + 1) + 1 = out + (3 * i + 2) := by omega
  rw [e1, e2, e3, e4]

/-- For widths 2, 3 and 4, in place or into a buffer that does not overlap the
input, `endian` is the per-sample loop that reverses the bytes of each sample. -/
theorem endian_eq (K : Build) (m : Mem) (inp out : Nat) (len : Int) (b : Nat)
    (hb : b = 2 ∨ b = 3 ∨ b = 4)
    (hbuf : inp = out ∨ out + len.toNat * b ≤ inp ∨ inp + len.toNat * b ≤ out) :
    ∃ f : List Byte → List Byte, (∀ bs, bs.length = b → f bs = bs.reverse)
      ∧ endian K m inp out len (b : Int)
        = forLoop len.toNat (sampleBody f b (fun i => inp + b * i) (fun i => out + b * i)) m := by
  rcases hb with rfl | rfl | rfl
  · exact ⟨fun bs => encodeNE K 2 (bswap_16 (decodeNE K bs)), fun bs h => swap16_bytes K bs h,
      by simp [endian]; rfl⟩
  · refine ⟨List.reverse, fun _ _ => rfl, ?_⟩
    have h32 : ¬ ((3 : Int) = 2) := by decide
    simp only [endian, Nat.cast_ofNat, h32, if_false, if_true]
    apply forLoop_congr_lt
    intro i hi m2
    rcases hbuf with h | h
    · subst h
      exact endian3_body_inplace inp i m2
    · exact endian3_body_distinct inp out i m2 (by omega) (by omega)
  · exact ⟨fun bs => encodeNE K 4 (bswap_32 K (decodeNE K bs)), fun bs h => swap32_bytes K bs h,
      by simp [endian]; rfl⟩

/-- Sample `i` of the output of `endian` is sample `i` of the input with its
bytes reversed. -/
theorem endian_sample (K : Build) (m : Mem) (inp out : Nat) (len : Int) (b : Nat)
    (hb : b = 2 ∨ b = 3 ∨ b = 4)
    (hbuf : inp = out ∨ out + len.toNat * b ≤ inp ∨ inp + len.toNat * b ≤ out)
    (i : Nat) (hi : i < len.toNat) :
    readBytes (endian K m inp out len (b : Int)) (out + b * i) b
      = (readBytes m (inp + b * i) b).reverse := by
  obtain ⟨f, hf, he⟩ := endian_eq K m inp out len b hb hbuf
  rw [he]
  generalize len.toNat = n at hbuf hi
  have hs := sampleLoop_sample f b b (fun i => inp + b * i) (fun i => out + b * i)
    (fun bs hbs => by rw [hf bs hbs]; simpa using hbs)
    (fun a c h => by rcases hb with rfl | rfl | rfl <;> (beta_reduce; omega)) m n
    (fun a c h hc => by rcases hb with rfl | rfl | rfl <;> (beta_reduce; omega)) i hi
  beta_reduce at hs
  rw [hs, hf _ (readBytes_length _ _ _)]


theorem endian_outside (K : Build) (m : Mem) (inp out : Nat) (len : Int) (b : Nat)
    (hb : b = 2 ∨ b = 3 ∨ b = 4)
    (hbuf : inp = out ∨ out + len.toNat * b ≤ inp ∨ inp + len.toNat * b ≤ out)
    (x : Nat) (hx : x < out ∨ out + len.toNat * b ≤ x) :
    endian K m inp out len (b : Int) x = m x := by
  obtain ⟨f, hf, he⟩ := endian_eq K m inp out len b hb hbuf
  rw [he]
  generalize len.toNat = n at hx
  apply sampleLoop_outside f b b _ _ (fun bs hbs => by rw [hf bs hbs]; simpa using hbs)
  intro i hi
  have h1 : b * i + b ≤ n * b := by
    have := Nat.mul_le_mul_left b (Nat.succ_le_of_lt hi)
    rw [Nat.mul_succ, Nat.mul_comm b n] at this
    exact this
  omega

/-- A byte of a block read through `readBytes`. -/
theorem readBytes_getD (m : Mem) (a k j : Nat) (hj : j < k) :
    (readBytes m a k).getD j 0 = m (a + j) := by
  induction k generalizing a j with
  | zero => omega
  | succ k ih =>
    cases j with
    | zero => simp [readBytes]
    | succ j =>
      simp only [readBytes, List.getD_cons_succ]
      rw [ih (a + 1) j (by omega)]
      congr 1
      omega

/-- C14: per-sample byte reversal, in place or not.  For widths 2, 3 and 4,
with `out` the same buffer as `in` or a buffer that does not overlap it, after
`endian(in, out, len, bps)` byte `j` of output sample `i` is byte `bps-1-j` of
input sample `i` (so the middle byte of a 3-byte sample stays), every byte
outside the output block is untouched, and the block written to a distinct
buffer is the block an in-place call leaves. -/
theorem endian_reverses_samples (K : Build) (m : Mem) (inp out : Nat) (len : Int) (b : Nat)
    (hb : b = 2 ∨ b = 3 ∨ b = 4)
    (hbuf : inp = out ∨ out + len.toNat * b ≤ inp ∨ inp + len.toNat * b ≤ out) :
    (∀ i j, i < len.toNat → j < b →
        endian K m inp out len (b : Int) (out + (b * i + j)) = m (inp + (b * i + (b - 1 - j))))
      ∧ (∀ x, (x < out ∨ out + len.toNat * b ≤ x) → endian K m inp out len (b : Int) x = m x)
      ∧ readBytes (endian K m inp out len (b : Int)) out (len.toNat * b)
          = readBytes (endian K m inp inp len (b : Int)) inp (len.toNat * b) := by
  refine ⟨?_, fun x hx => endian_outside K m inp out len b hb hbuf x hx, ?_⟩
  · intro i j hi hj
    have hs := endian_sample K m inp out len b hb hbuf i hi
    have hg := congrArg (fun l => l.getD j 0) hs
    beta_reduce at hg
    rw [readBytes_getD _ _ _ _ hj] at hg
    rw [Nat.add_assoc] at hg
    rw [hg]
    have hlen := readBytes_length m (inp + b * i) b
    rw [List.getD_eq_getElem _ _ (by rw [List.length_reverse, hlen]; exact hj),
      List.getElem_reverse]
    have := readBytes_getD m (inp + b * i) b (b - 1 - j) (by omega)
    rw [List.getD_eq_getElem _ _ (by rw [hlen]; omega)] at this
    simp only [hlen]
    rw [this, Nat.add_assoc]
  · apply readBytes_block_eq
    intro i hi
    rw [endian_sample K m inp out len b hb hbuf i hi,
      endian_sample K m inp inp len b hb (Or.inl rfl) i hi]


/-! ## The rescale as a shift -/

theorem rescale_lt (wi wo v : Nat) (hv : v < 256 ^ wi) : rescale wi wo v < 256 ^ wo := by
  unfold rescale
  split
  · next h =>
    have hpos : 0 < 256 ^ (wo - wi) := Nat.pow_pos (by decide)
    calc v * 256 ^ (wo - wi) < 256 ^ wi * 256 ^ (wo - wi) := Nat.mul_lt_mul_of_pos_right hv hpos
      _ = 256 ^ wo := by rw [← pow_add]; congr 1; omega
  · next h =>
    have hpos : 0 < 256 ^ (wi - wo) := Nat.pow_pos (by decide)
    rw [Nat.div_lt_iff_lt_mul hpos, ← pow_add]
    have : wo + (wi - wo) = wi := by omega
    rw [this]
    exact hv

theorem rescale_eq_shift (wi wo v : Nat) :
    rescale wi wo v
      = if wi < wo then v <<< (8 * (wo - wi)) else v >>> (8 * (wi - wo)) := by
  unfold rescale
  have h256 : ∀ d : Nat, 2 ^ (8 * d) = 256 ^ d := fun d => by rw [pow_mul]; norm_num
  by_cases h : wi < wo
  · rw [if_pos (by omega), if_pos h, Nat.shiftLeft_eq, h256]
  · rw [if_neg h, Nat.shiftRight_eq_div_pow, h256]
    split
    · have : wi = wo := by omega
      subst this
      simp
    · rfl

/-- Sample `i` of the output of `change_bps`, for distinct widths and an output
buffer that does not overlap the input. -/
theorem change_bps_sample (K : Build) (m : Mem) (inp out : Nat) (len : Int) (wi wo : Nat)
    (hwi : 1 ≤ wi) (hwi4 : wi ≤ 4) (hwo : 1 ≤ wo) (hwo4 : wo ≤ 4) (hne : wi ≠ wo)
    (hdisj : out + len.toNat * wo ≤ inp ∨ inp + len.toNat * wi ≤ out)
    (i : Nat) (hi : i < len.toNat) :
    readBytes (change_bps K m inp out len (wi : Int) (wo : Int)) (out + wo * i) wo
      = rescaleBytes K wi wo (readBytes m (inp + wi * i) wi) := by
  rw [change_bps_eq K m inp out len wi wo hwi hwi4 hwo hwo4 hne]
  generalize len.toNat = n at hdisj hi
  have hmul : ∀ w a c : Nat, a < c → w * a + w ≤ w * c := fun w a c h => by
    have := Nat.mul_le_mul_left w (Nat.succ_le_of_lt h)
    rw [Nat.mul_succ] at this
    exact this
  have hmul2 : ∀ w a : Nat, a < n → w * a + w ≤ n * w := fun w a h => by
    have := hmul w a n h
    rw [Nat.mul_comm w n] at this
    exact this
  have hs := sampleLoop_sample (rescaleBytes K wi wo) wi wo (fun i => inp + wi * i)
    (fun i => out + wo * i) (fun bs _ => rescaleBytes_length K wi wo bs)
    (fun a c h => by have := hmul wo a c h; beta_reduce; omega) m n
    (fun a c h hc => by
      have h1 := hmul2 wo a (by omega)
      have h2 := hmul2 wi c hc
      beta_reduce
      omega) i hi
  exact hs

theorem change_bps_outside (K : Build) (m : Mem) (inp out : Nat) (len : Int) (wi wo : Nat)
    (hwi : 1 ≤ wi) (hwi4 : wi ≤ 4) (hwo : 1 ≤ wo) (hwo4 : wo ≤ 4) (hne : wi ≠ wo)
    (x : Nat) (hx : x < out ∨ out + len.toNat * wo ≤ x) :
    change_bps K m inp out len (wi : Int) (wo : Int) x = m x := by
  rw [change_bps_eq K m inp out len wi wo hwi hwi4 hwo hwo4 hne]
  generalize len.toNat = n at hx
  apply sampleLoop_outside (rescaleBytes K wi wo) wi wo _ _
    (fun bs _ => rescaleBytes_length K wi wo bs)
  intro i hi
  have h1 : wo * i + wo ≤ n * wo := by
    have := Nat.mul_le_mul_left wo (Nat.succ_le_of_lt hi)
    rw [Nat.mul_succ, Nat.mul_comm wo n] at this
    exact this
  omega

/-- C15: the rescale is a pure shift.  For distinct widths `wi`, `wo` in
{1,2,3,4} (3-byte samples included) and an output buffer that does not overlap
the input, output sample `i` of `change_bps`, read as an unsigned integer in
native byte order, is the value `v` of input sample `i` shifted left by
`8*(wo-wi)` bits when `wo > wi` and shifted right by `8*(wi-wo)` bits when
`wo < wi`; nothing is added before the shift and nothing is lost after it. -/
theorem change_bps_shift (K : Build) (m : Mem) (inp out : Nat) (len : Int) (wi wo : Nat)
    (hwi : 1 ≤ wi) (hwi4 : wi ≤ 4) (hwo : 1 ≤ wo) (hwo4 : wo ≤ 4) (hne : wi ≠ wo)
    (hdisj : out + len.toNat * wo ≤ inp ∨ inp + len.toNat * wi ≤ out)
    (i : Nat) (hi : i < len.toNat) :
    decodeNE K (readBytes (change_bps K m inp out len (wi : Int) (wo : Int)) (out + wo * i) wo)
      = if wi < wo then decodeNE K (readBytes m (inp + wi * i) wi) <<< (8 * (wo - wi))
        else decodeNE K (readBytes m (inp + wi * i) wi) >>> (8 * (wi - wo)) := by
  rw [change_bps_sample K m inp out len wi wo hwi hwi4 hwo hwo4 hne hdisj i hi]
  unfold rescaleBytes
  rw [decodeNE_encodeNE, ← rescale_eq_shift]
  apply Nat.mod_eq_of_lt
  apply rescale_lt
  have := decodeNE_lt K (readBytes m (inp + wi * i) wi)
  rw [readBytes_length] at this
  exact this


/-! ## Narrowing, then widening -/

/-- Narrowing a sample and widening it back clears its low bytes. -/
theorem rescaleBytes_narrow_widen (K : Build) (w1 w2 : Nat) (h : w1 < w2) (bs : List Byte)
    (hbs : bs.length = w2) :
    rescaleBytes K w1 w2 (rescaleBytes K w2 w1 bs)
      = encodeNE K w2 (decodeNE K bs - decodeNE K bs % 2 ^ (8 * (w2 - w1))) := by
  have h256 : 2 ^ (8 * (w2 - w1)) = 256 ^ (w2 - w1) := by rw [pow_mul]; norm_num
  have hv := decodeNE_lt K bs
  rw [hbs] at hv
  have hpos : 0 < 256 ^ (w2 - w1) := Nat.pow_pos (by decide)
  have e1 : rescale w2 w1 (decodeNE K bs) = decodeNE K bs / 256 ^ (w2 - w1) := by
    simp [rescale, Nat.not_le.mpr h]
  have hlt : decodeNE K bs / 256 ^ (w2 - w1) < 256 ^ w1 := by
    rw [Nat.div_lt_iff_lt_mul hpos, ← pow_add]
    have : w1 + (w2 - w1) = w2 := by omega
    rw [this]
    exact hv
  have e2 : ∀ q, rescale w1 w2 q = q * 256 ^ (w2 - w1) := fun q => by
    simp [rescale, Nat.le_of_lt h]
  unfold rescaleBytes
  rw [decodeNE_encodeNE, e1, Nat.mod_eq_of_lt hlt, e2, h256]
  congr 1
  have := Nat.div_add_mod (decodeNE K bs) (256 ^ (w2 - w1))
  rw [Nat.mul_comm] at this
  omega

theorem encodeNE_injective (K : Build) (k a b : Nat) (ha : a < 256 ^ k) (hb : b < 256 ^ k)
    (h : encodeNE K k a = encodeNE K k b) : a = b := by
  have := congrArg (decodeNE K) h
  rw [decodeNE_encodeNE, decodeNE_encodeNE, Nat.mod_eq_of_lt ha, Nat.mod_eq_of_lt hb] at this
  exact this

/-- The round trip narrow-then-widen gives a sample back exactly when its low
bytes are zero. -/
theorem rescaleBytes_narrow_widen_eq_iff (K : Build) (w1 w2 : Nat) (h : w1 < w2)
    (bs : List Byte) (hbs : bs.length = w2) :
    rescaleBytes K w1 w2 (rescaleBytes K w2 w1 bs) = bs
      ↔ decodeNE K bs % 2 ^ (8 * (w2 - w1)) = 0 := by
  rw [rescaleBytes_narrow_widen K w1 w2 h bs hbs]
  have hv := decodeNE_lt K bs
  rw [hbs] at hv
  have henc := encodeNE_decodeNE K bs
  rw [hbs] at henc
  constructor
  · intro he
    rw [← henc] at he
    have hle : decodeNE K bs % 2 ^ (8 * (w2 - w1)) ≤ decodeNE K bs := Nat.mod_le _ _
    rw [decodeNE_encodeNE, Nat.mod_eq_of_lt hv] at he
    have := encodeNE_injective K w2
      (decodeNE K bs - decodeNE K bs % 2 ^ (8 * (w2 - w1))) (decodeNE K bs) (by omega) hv he
    omega
  · intro h0
    rw [h0, Nat.sub_zero, henc]

/-- Sample `i` after narrowing `w2 -> w1` into `mid` and widening `w1 -> w2`
into `out`. -/
theorem change_bps_narrow_widen_sample (K : Build) (m : Mem) (inp mid out : Nat) (len : Int)
    (w1 w2 : Nat) (hw1 : 1 ≤ w1) (hlt : w1 < w2) (hw2 : w2 ≤ 4)
    (hmi : mid + len.toNat * w1 ≤ inp ∨ inp + len.toNat * w2 ≤ mid)
    (hmo : out + len.toNat * w2 ≤ mid ∨ mid + len.toNat * w1 ≤ out)
    (i : Nat) (hi : i < len.toNat) :
    readBytes (change_bps K (change_bps K m inp mid len w2 w1) mid out len w1 w2)
        (out + w2 * i) w2
      = rescaleBytes K w1 w2 (rescaleBytes K w2 w1 (readBytes m (inp + w2 * i) w2)) := by
  rw [change_bps_sample K _ mid out len w1 w2 hw1 (by omega) (by omega) hw2 (by omega) hmo i hi,
    change_bps_sample K m inp mid len w2 w1 (by omega) hw2 hw1 (by omega) (by omega) hmi i hi]

/-- C16: narrow-then-widen is lossy in a fixed way.  For widths `w1 < w2` in
{1,2,3,4}, narrowing a block into `mid` and widening it back into `out` (with
`mid` overlapping neither) leaves in sample `i` the value `v` of the original
sample with its low `8*(w2-w1)` bits cleared; the sample comes back unchanged
exactly when those bits of `v` are zero; and some memory holds a sample `i`
that does not come back. -/
theorem change_bps_narrow_widen (K : Build) (m : Mem) (inp mid out : Nat) (len : Int)
    (w1 w2 : Nat) (hw1 : 1 ≤ w1) (hlt : w1 < w2) (hw2 : w2 ≤ 4)
    (hmi : mid + len.toNat * w1 ≤ inp ∨ inp + len.toNat * w2 ≤ mid)
    (hmo : out + len.toNat * w2 ≤ mid ∨ mid + len.toNat * w1 ≤ out)
    (i : Nat) (hi : i < len.toNat) :
    decodeNE K (readBytes (change_bps K (change_bps K m inp mid len w2 w1) mid out len w1 w2)
          (out + w2 * i) w2)
        = decodeNE K (readBytes m (inp + w2 * i) w2)
          - decodeNE K (readBytes m (inp + w2 * i) w2) % 2 ^ (8 * (w2 - w1))
      ∧ (readBytes (change_bps K (change_bps K m inp mid len w2 w1) mid out len w1 w2)
            (out + w2 * i) w2 = readBytes m (inp + w2 * i) w2
          ↔ decodeNE K (readBytes m (inp + w2 * i) w2) % 2 ^ (8 * (w2 - w1)) = 0)
      ∧ ∃ m0 : Mem,
          readBytes (change_bps K (change_bps K m0 inp mid len w2 w1) mid out len w1 w2)
            (out + w2 * i) w2 ≠ readBytes m0 (inp + w2 * i) w2 := by
  have hlen := readBytes_length m (inp + w2 * i) w2
  refine ⟨?_, ?_, ?_⟩
  · rw [change_bps_narrow_widen_sample K m inp mid out len w1 w2 hw1 hlt hw2 hmi hmo i hi,
      rescaleBytes_narrow_widen K w1 w2 hlt _ hlen, decodeNE_encodeNE]
    apply Nat.mod_eq_of_lt
    have := decodeNE_lt K (readBytes m (inp + w2 * i) w2)
    rw [hlen] at this
    omega
  · rw [change_bps_narrow_widen_sample K m inp mid out len w1 w2 hw1 hlt hw2 hmi hmo i hi]
    exact rescaleBytes_narrow_widen_eq_iff K w1 w2 hlt _ hlen
  · refine ⟨writeBytes m (inp + w2 * i) (encodeNE K w2 1), ?_⟩
    rw [change_bps_narrow_widen_sample K _ inp mid out len w1 w2 hw1 hlt hw2 hmi hmo i hi]
    have hrd : readBytes (writeBytes m (inp + w2 * i) (encodeNE K w2 1)) (inp + w2 * i) w2
        = encodeNE K w2 1 := by
      have := readBytes_writeBytes_self (encodeNE K w2 1) m (inp + w2 * i)
      rw [encodeNE_length] at this
      exact this
    rw [hrd]
    intro he
    have h1 := (rescaleBytes_narrow_widen_eq_iff K w1 w2 hlt _ (encodeNE_length K w2 1)).mp he
    rw [decodeNE_encodeNE] at h1
    have hone : (1 : Nat) < 256 ^ w2 := Nat.one_lt_pow (by omega) (by decide)
    rw [Nat.mod_eq_of_lt hone] at h1
    have htwo : (1 : Nat) < 2 ^ (8 * (w2 - w1)) := Nat.one_lt_pow (by omega) (by decide)
    rw [Nat.mod_eq_of_lt htwo] at h1
    exact absurd h1 (by decide)


/-! ## The sign byte -/

theorem flipByte_val (b : Byte) : (flipByte b).val = b.val ^^^ 0x80 := by
  have h1 : b.val ^^^ 128 < 2 ^ 8 := Nat.xor_lt_two_pow (by have := b.isLt; omega) (by decide)
  show (b.val ^^^ 128) % 256 = b.val ^^^ 128
  exact Nat.mod_eq_of_lt h1

/-- When the native byte order of the format header agrees with the byte order
of the target, the pointer of `si2us` sits on the last byte of a sample on a
little-endian target and on the first byte on a big-endian one. -/
theorem signOffset_eq (K : Build)
    (hK : K.AF_FORMAT_NE = K.AF_FORMAT_LE ↔ K.WORDS_BIGENDIAN = false) (b : Nat) :
    signOffset K b = if K.WORDS_BIGENDIAN then 0 else b - 1 := by
  unfold signOffset
  cases hB : K.WORDS_BIGENDIAN
  · simp [hK.mpr hB]
  · have : ¬ K.AF_FORMAT_NE = K.AF_FORMAT_LE := fun h => by
      have := hK.mp h
      rw [hB] at this
      cases this
    simp [this]

/-- The bytes of sample `i` after `flipSigns`: only the byte at offset `off`
changes. -/
theorem flipSigns_byte (m : Mem) (data b n off : Nat) (hb : b = 1 ∨ b = 2 ∨ b = 3 ∨ b = 4)
    (hoff : off < b) (i j : Nat) (hi : i < n) (hj : j < b) :
    flipSigns m (data + off) b n (data + (b * i + j))
      = if j = off then flipByte (m (data + (b * i + j))) else m (data + (b * i + j)) := by
  unfold flipSigns
  have hmul : b * i + b ≤ n * b := by
    have := Nat.mul_le_mul_left b (Nat.succ_le_of_lt hi)
    rw [Nat.mul_succ, Nat.mul_comm b n] at this
    exact this
  rcases hb with rfl | rfl | rfl | rfl <;>
    (split_ifs with h1 h2 h2 <;> first | rfl | omega)

theorem flipSigns_outside (m : Mem) (data b n off : Nat) (hb : b = 1 ∨ b = 2 ∨ b = 3 ∨ b = 4)
    (hoff : off < b) (x : Nat) (hx : x < data ∨ data + n * b ≤ x) :
    flipSigns m (data + off) b n x = m x := by
  unfold flipSigns
  rcases hb with rfl | rfl | rfl | rfl <;>
    (split_ifs with h1 <;> first | rfl | omega)

/-- C17: the sign flip touches only the sign byte.  On a build whose native
format constant agrees with the byte order of the target, for a width in
{1,2,3,4}: with `len <= 0` the call returns at once and changes nothing; with
`len > 0` and `len` loop iterations allowed it returns, and in each of the
`len` samples exactly the byte at index `bps-1` (little-endian target) or `0`
(big-endian target) is XOR-ed with `0x80`, every other byte of the block and
every byte outside the block being left as it was. -/
theorem si2us_sign_byte_only (K : Build)
    (hK : K.AF_FORMAT_NE = K.AF_FORMAT_LE ↔ K.WORDS_BIGENDIAN = false)
    (m : Mem) (data : Nat) (len : Int) (b : Nat) (fuel : Nat)
    (hb : b = 1 ∨ b = 2 ∨ b = 3 ∨ b = 4) :
    (len ≤ 0 → si2us K fuel m data len (b : Int) = some m)
      ∧ (0 < len → len.toNat ≤ fuel →
        ∃ m1, si2us K fuel m data len (b : Int) = some m1
          ∧ (∀ i j, i < len.toNat → j < b →
              (m1 (data + (b * i + j))).val
                = if j = (if K.WORDS_BIGENDIAN then 0 else b - 1)
                  then (m (data + (b * i + j))).val ^^^ 0x80
                  else (m (data + (b * i + j))).val)
          ∧ (∀ x, (x < data ∨ data + len.toNat * b ≤ x) → m1 x = m x)) := by
  refine ⟨fun h => si2us_nonpos K fuel m data len _ h, fun hpos hfuel => ?_⟩
  have hoff : signOffset K b < b := by
    rw [signOffset_eq K hK]
    split <;> omega
  refine ⟨_, si2us_pos K fuel m data len (b : Int) (by omega) hpos hfuel, ?_, ?_⟩
  · intro i j hi hj
    simp only [Int.toNat_ofNat]
    rw [flipSigns_byte m data b _ _ hb hoff i j hi hj, ← signOffset_eq K hK]
    split_ifs
    · exact flipByte_val _
    · rfl
  · intro x hx
    simp only [Int.toNat_ofNat]
    exact flipSigns_outside m data b _ _ hb hoff x hx


/-! ## Routing of law-encoded input -/

theorem mem_ite_singleton {α : Type} (p : Prop) [Decidable p] (a s : α) :
    s ∈ (if p then [a] else []) ↔ p ∧ s = a := by
  split_ifs with h <;> simp [h]

/-- The calls of `play` on mu-law input. -/
theorem play_steps_mulaw (K : Build) (c l : af_data_t) (len : Int)
    (h : Int.land c.format K.AF_FORMAT_SPECIAL_MASK = K.AF_FORMAT_MU_LAW) :
    play_steps K c l len
      = (if Int.land c.format K.AF_FORMAT_END_MASK ≠ K.AF_FORMAT_NE then
          [Step.endian c.audio c.audio len c.bps] else [])
        ++ Step.from_ulaw c.audio l.audio len l.bps (Int.land l.format K.AF_FORMAT_POINT_MASK)
          :: ((if K.AF_FORMAT_A_LAW = Int.land l.format K.AF_FORMAT_SPECIAL_MASK then
              [Step.to_ulaw l.audio l.audio len 1 K.AF_FORMAT_SI] else [])
            ++ (if Int.land l.format K.AF_FORMAT_SIGN_MASK = K.AF_FORMAT_US then
              [Step.si2us l.audio len l.bps] else [])
            ++ (if Int.land l.format K.AF_FORMAT_END_MASK ≠ K.AF_FORMAT_NE then
              [Step.endian l.audio l.audio len l.bps] else [])) := by
  unfold play_steps
  rw [if_pos h]
  simp only [List.append_assoc, List.cons_append, List.singleton_append, List.nil_append]

/-- The calls of `play` on A-law input. -/
theorem play_steps_alaw (K : Build) (c l : af_data_t) (len : Int)
    (hne : Int.land c.format K.AF_FORMAT_SPECIAL_MASK ≠ K.AF_FORMAT_MU_LAW)
    (h : Int.land c.format K.AF_FORMAT_SPECIAL_MASK = K.AF_FORMAT_A_LAW) :
    play_steps K c l len
      = (if Int.land c.format K.AF_FORMAT_END_MASK ≠ K.AF_FORMAT_NE then
          [Step.endian c.audio c.audio len c.bps] else [])
        ++ Step.from_alaw c.audio l.audio len l.bps (Int.land l.format K.AF_FORMAT_POINT_MASK)
          :: ((if K.AF_FORMAT_A_LAW = Int.land l.format K.AF_FORMAT_SPECIAL_MASK then
              [Step.to_alaw l.audio l.audio len 1 K.AF_FORMAT_SI] else [])
            ++ (if Int.land l.format K.AF_FORMAT_SIGN_MASK = K.AF_FORMAT_US then
              [Step.si2us l.audio len l.bps] else [])
            ++ (if Int.land l.format K.AF_FORMAT_END_MASK ≠ K.AF_FORMAT_NE then
              [Step.endian l.audio l.audio len l.bps] else [])) := by
  unfold play_steps
  rw [if_neg hne, if_pos h]
  simp only [List.append_assoc, List.cons_append, List.singleton_append, List.nil_append]

/-- C12: law input is decoded first and never rescaled.  When the special
encoding of the input is mu-law or A-law (two different constants), the calls of
`play` are: at most the input byte-order swap, then the matching decode
primitive (`from_ulaw` or `from_alaw`) from the input buffer to the local buffer
with the output width and the output point type, then the rest.  No call is
`change_bps`, `float2int` or `int2float`; and a sign flip occurs only in the
rest, after the decode, on the local buffer with the output width, and only when
the output signedness is unsigned. -/
theorem play_law_input_routing (K : Build) (c l : af_data_t) (len : Int)
    (hdist : K.AF_FORMAT_MU_LAW ≠ K.AF_FORMAT_A_LAW)
    (hin : Int.land c.format K.AF_FORMAT_SPECIAL_MASK = K.AF_FORMAT_MU_LAW
      ∨ Int.land c.format K.AF_FORMAT_SPECIAL_MASK = K.AF_FORMAT_A_LAW) :
    ∃ pre rest,
      play_steps K c l len
          = pre ++ (if Int.land c.format K.AF_FORMAT_SPECIAL_MASK = K.AF_FORMAT_MU_LAW
              then Step.from_ulaw c.audio l.audio len l.bps
                (Int.land l.format K.AF_FORMAT_POINT_MASK)
              else Step.from_alaw c.audio l.audio len l.bps
                (Int.land l.format K.AF_FORMAT_POINT_MASK)) :: rest
        ∧ (∀ s, s ∈ pre → s = Step.endian c.audio c.audio len c.bps)
        ∧ (∀ s, s ∈ play_steps K c l len → s.isRescale = false)
        ∧ (∀ d n b, Step.si2us d n b ∈ play_steps K c l len →
            Step.si2us d n b ∈ rest ∧ d = l.audio ∧ n = len ∧ b = l.bps
            ∧ Int.land l.format K.AF_FORMAT_SIGN_MASK = K.AF_FORMAT_US) := by
  rcases hin with h | h
  · rw [play_steps_mulaw K c l len h, if_pos h]
    refine ⟨_, _, rfl, ?_, ?_, ?_⟩
    · intro s hs
      exact ((mem_ite_singleton _ _ _).mp hs).2
    · intro s hs
      simp only [List.mem_append, List.mem_cons, mem_ite_singleton] at hs
      rcases hs with ⟨_, rfl⟩ | rfl | (⟨_, rfl⟩ | ⟨_, rfl⟩) | ⟨_, rfl⟩ <;> rfl
    · intro d n b hs
      simp only [List.mem_append, List.mem_cons, mem_ite_singleton, Step.si2us.injEq,
        reduceCtorEq, and_false, false_or, or_false] at hs
      obtain ⟨hus, rfl, rfl, rfl⟩ := hs
      refine ⟨?_, rfl, rfl, rfl, hus⟩
      simp [hus]
  · have hne : Int.land c.format K.AF_FORMAT_SPECIAL_MASK ≠ K.AF_FORMAT_MU_LAW := by
      rw [h]; exact fun e => hdist e.symm
    rw [play_steps_alaw K c l len hne h, if_neg hne]
    refine ⟨_, _, rfl, ?_, ?_, ?_⟩
    · intro s hs
      exact ((mem_ite_singleton _ _ _).mp hs).2
    · intro s hs
      simp only [List.mem_append, List.mem_cons, mem_ite_singleton] at hs
      rcases hs with ⟨_, rfl⟩ | rfl | (⟨_, rfl⟩ | ⟨_, rfl⟩) | ⟨_, rfl⟩ <;> rfl
    · intro d n b hs
      simp only [List.mem_append, List.mem_cons, mem_ite_singleton, Step.si2us.injEq,
        reduceCtorEq, and_false, false_or, or_false] at hs
      obtain ⟨hus, rfl, rfl, rfl⟩ := hs
      refine ⟨?_, rfl, rfl, rfl, hus⟩
      simp [hus]


/-- C13, at the failing input: a mu-law block converted to A-law.  The stage is
accepted by `af_init_format`, and the call `play` makes right after the decode
`from_ulaw` is the mu-law encoder `to_ulaw`, not `to_alaw`; no call to `to_alaw`
is made at all, while the same request on A-law input does call `to_alaw`. -/
theorem play_mulaw_to_alaw_steps :
    (af_init_format exampleBuild alawStage mulawBlock).1 = AF_OK
      ∧ play_steps exampleBuild mulawBlock alawStage.data 4
          = [Step.from_ulaw 10 100 4 1 0, Step.to_ulaw 100 100 4 1 0]
      ∧ Step.to_alaw 100 100 4 1 0 ∉ play_steps exampleBuild mulawBlock alawStage.data 4
      ∧ play_steps exampleBuild { mulawBlock with format := 131 } alawStage.data 4
          = [Step.from_alaw 10 100 4 1 0, Step.to_alaw 100 100 4 1 0] := by
  have h1 : play_steps exampleBuild mulawBlock alawStage.data 4
      = [Step.from_ulaw 10 100 4 1 0, Step.to_ulaw 100 100 4 1 0] := by
    rw [play_steps_mulaw exampleBuild mulawBlock alawStage.data 4 (by decide)]
    rfl
  have h2 : play_steps exampleBuild { mulawBlock with format := 131 } alawStage.data 4
      = [Step.from_alaw 10 100 4 1 0, Step.to_alaw 100 100 4 1 0] := by
    rw [play_steps_alaw exampleBuild _ alawStage.data 4 (by decide) (by decide)]
    rfl
  refine ⟨by decide, h1, ?_, h2⟩
  rw [h1]
  simp

/-! ## Allocation failure -/

/-- The division at the head of `play` faults on a block of width zero,
whatever the outcome of the resize would have been. -/
theorem play_trap_of_bps_zero (K : Build) (P : Codec) (fuel : Nat) (resize : Option Nat)
    (af : af_priv_t) (data : af_data_t) (m : Mem) (h : data.bps = 0) :
    play K P fuel resize af data m = some PlayResult.trap := by
  simp only [play, h, true_or, if_true]

/-- C18: allocation failure aborts `play` before any transform.  For a block
on which the division at the head of `play` is defined (the width is not zero
and the quotient fits an `int`), `play` does not fault; when the buffer resize
fails it returns `NULL` with the memory and the block (its `audio`, `len`, `bps`
and `format` among the fields) exactly as on entry; and it returns `NULL` only
when the resize fails: a `NULL` return means the resize failed and nothing was
written, and a returned block means the resize succeeded. -/
theorem play_null_iff_resize_fails (K : Build) (P : Codec) (fuel : Nat) (resize : Option Nat)
    (af : af_priv_t) (data : af_data_t) (m : Mem)
    (hbps : data.bps ≠ 0) (hquot : ¬ (data.len = -2147483648 ∧ data.bps = -1)) :
    play K P fuel resize af data m ≠ some PlayResult.trap
      ∧ (resize = none → play K P fuel resize af data m = some (PlayResult.null data m))
      ∧ (∀ d m1, play K P fuel resize af data m = some (PlayResult.null d m1) →
          resize = none ∧ d = data ∧ m1 = m)
      ∧ (∀ d m1, play K P fuel resize af data m = some (PlayResult.ret d m1) →
          resize ≠ none) := by
  have htrap : ¬ (data.bps = 0 ∨ (data.len = -2147483648 ∧ data.bps = -1)) := by
    rintro (h | h)
    · exact hbps h
    · exact hquot h
  cases resize with
  | none =>
    have hp : play K P fuel none af data m = some (PlayResult.null data m) := by
      simp only [play, if_neg htrap, RESIZE_LOCAL_BUFFER, Option.map_none']
    rw [hp]
    refine ⟨fun h => ?_, fun _ => rfl, fun d m1 h => ?_, fun d m1 h => ?_⟩
    · cases h
    · cases h
      exact ⟨rfl, rfl, rfl⟩
    · cases h
  | some a =>
    have hp : ∀ r, play K P fuel (some a) af data m = some r → ∃ d m1, r = PlayResult.ret d m1 := by
      intro r hr
      simp only [play, if_neg htrap, RESIZE_LOCAL_BUFFER, Option.map_some'] at hr
      split at hr
      · cases hr
      · cases hr
        exact ⟨_, _, rfl⟩
    refine ⟨fun h => ?_, fun h => Option.noConfusion h, fun d m1 h => ?_,
      fun _ _ _ h => Option.noConfusion h⟩
    · obtain ⟨d, m1, hd⟩ := hp _ h
      cases hd
    · obtain ⟨d2, m2, hd⟩ := hp _ h
      cases hd

/-- C19: `af_init_format` returns `AF_DETACH` exactly when the input format
code equals the requested output format code and the input bps equals
`af_fmt2bits(output format)/8`.  Consequently, for two valid descriptors whose
format codes differ (as they do when only the byte-order bit or only the sign
bit differs) it returns `AF_OK`, sets the size multiplier to output bps over
input bps, and copies rate and channel count from the input. -/
theorem af_init_format_detach_iff (K : Build) (af : af_priv_t) (data : af_data_t) :
    ((af_init_format K af data).1 = AF_DETACH
        ↔ (af.format = data.format ∧ data.bps = Int.tdiv (K.af_fmt2bits af.format) 8))
      ∧ (af.format ≠ data.format → check_bps data.bps = AF_OK →
          check_bps (Int.tdiv (K.af_fmt2bits af.format) 8) = AF_OK →
          check_format K data.format = AF_OK → check_format K af.format = AF_OK →
          (af_init_format K af data).1 = AF_OK
            ∧ (af_init_format K af data).2.mul
                = (Int.tdiv (K.af_fmt2bits af.format) 8 : ℚ) / (data.bps : ℚ)
            ∧ (af_init_format K af data).2.data.rate = data.rate
            ∧ (af_init_format K af data).2.data.nch = data.nch
            ∧ (af_init_format K af data).2.data.format = af.format
            ∧ (af_init_format K af data).2.data.bps = Int.tdiv (K.af_fmt2bits af.format) 8) := by
  constructor
  · rw [af_init_format_status]
    constructor
    · intro h
      split_ifs at h with h1 h2
      · exact ⟨h1.1, h1.2.symm⟩
    · intro h
      rw [if_pos ⟨h.1, h.2.symm⟩]
  · intro hne h1 h2 h3 h4
    have hred : ¬ (af.format = data.format
        ∧ Int.tdiv (K.af_fmt2bits af.format) 8 = data.bps) := fun h => hne h.1
    have hok : ¬ (AF_OK ≠ check_bps data.bps ∨ AF_OK ≠ check_format K data.format
        ∨ AF_OK ≠ check_bps (Int.tdiv (K.af_fmt2bits af.format) 8)
        ∨ AF_OK ≠ check_format K af.format) := by
      rw [h1, h2, h3, h4]
      simp
    simp [af_init_format, hred, hok]


/-! ## The rescale on bytes -/

theorem encodeLE_mul_pow (d k v : Nat) :
    encodeLE (d + k) (v * 256 ^ d) = List.replicate d 0 ++ encodeLE k v := by
  induction d with
  | zero => simp
  | succ d ih =>
    have e : d + 1 + k = (d + k) + 1 := by omega
    rw [e]
    simp only [encodeLE, List.replicate_succ, List.cons_append, List.cons.injEq]
    constructor
    · apply Byte.ofNat_eq_of_mod
      rw [pow_succ, ← Nat.mul_assoc, Nat.mul_mod_left]
      rfl
    · rw [pow_succ, ← Nat.mul_assoc, Nat.mul_div_cancel _ (by decide : 0 < 256), ih]

theorem decodeLE_div_pow (d : Nat) (bs : List Byte) :
    decodeLE bs / 256 ^ d = decodeLE (bs.drop d) := by
  induction d generalizing bs with
  | zero => simp
  | succ d ih =>
    cases bs with
    | nil => simp [decodeLE]
    | cons b bs =>
      have hb := b.isLt
      rw [pow_succ, Nat.mul_comm, ← Nat.div_div_eq_div_mul, List.drop_succ_cons, ← ih]
      congr 1
      simp only [decodeLE]
      omega

theorem rescaleBytes_le_widen (K : Build) (hB : K.WORDS_BIGENDIAN = false) (wi wo : Nat)
    (h : wi ≤ wo) (bs : List Byte) (hbs : bs.length = wi) :
    rescaleBytes K wi wo bs = List.replicate (wo - wi) 0 ++ bs := by
  obtain ⟨d, rfl⟩ : ∃ d, wo = d + wi := ⟨wo - wi, by omega⟩
  simp only [rescaleBytes, encodeNE, decodeNE, hB, Bool.false_eq_true, if_false, rescale, h,
    if_true, Nat.add_sub_cancel]
  rw [encodeLE_mul_pow, ← hbs, encodeLE_decodeLE]

theorem rescaleBytes_le_narrow (K : Build) (hB : K.WORDS_BIGENDIAN = false) (wi wo : Nat)
    (h : wo < wi) (bs : List Byte) (hbs : bs.length = wi) :
    rescaleBytes K wi wo bs = bs.drop (wi - wo) := by
  simp only [rescaleBytes, encodeNE, decodeNE, hB, Bool.false_eq_true, if_false, rescale,
    Nat.not_le.mpr h]
  rw [decodeLE_div_pow]
  have hl : (bs.drop (wi - wo)).length = wo := by rw [List.length_drop, hbs]; omega
  have := encodeLE_decodeLE (bs.drop (wi - wo))
  rw [hl] at this
  exact this

theorem rescaleBytes_be_widen (K : Build) (hB : K.WORDS_BIGENDIAN = true) (wi wo : Nat)
    (h : wi ≤ wo) (bs : List Byte) (hbs : bs.length = wi) :
    rescaleBytes K wi wo bs = bs ++ List.replicate (wo - wi) 0 := by
  obtain ⟨d, rfl⟩ : ∃ d, wo = d + wi := ⟨wo - wi, by omega⟩
  simp only [rescaleBytes, encodeNE, decodeNE, hB, if_true, rescale, h, Nat.add_sub_cancel]
  have hl : bs.reverse.length = wi := by rw [List.length_reverse, hbs]
  rw [encodeLE_mul_pow, ← hl, encodeLE_decodeLE]
  simp

theorem rescaleBytes_be_narrow (K : Build) (hB : K.WORDS_BIGENDIAN = true) (wi wo : Nat)
    (h : wo < wi) (bs : List Byte) (hbs : bs.length = wi) :
    rescaleBytes K wi wo bs = bs.take wo := by
  simp only [rescaleBytes, encodeNE, decodeNE, hB, if_true, rescale, Nat.not_le.mpr h, if_false]
  rw [decodeLE_div_pow]
  have hl : (bs.reverse.drop (wi - wo)).length = wo := by
    rw [List.length_drop, List.length_reverse, hbs]; omega
  have := encodeLE_decodeLE (bs.reverse.drop (wi - wo))
  rw [hl] at this
  rw [this, List.drop_reverse, List.reverse_reverse, hbs]
  congr 1
  omega

theorem flipAt_length (k : Nat) (bs : List Byte) : (flipAt k bs).length = bs.length := by
  induction bs generalizing k with
  | nil => cases k <;> rfl
  | cons b bs ih =>
    cases k with
    | zero => rfl
    | succ k => simp [flipAt, ih]


theorem flipAt_replicate_append (d k : Nat) (z : Byte) (l : List Byte) :
    flipAt (d + k) (List.replicate d z ++ l) = List.replicate d z ++ flipAt k l := by
  induction d with
  | zero => simp
  | succ d ih =>
    have e : d + 1 + k = (d + k) + 1 := by omega
    rw [e]
    show flipAt (d + k + 1) (z :: (List.replicate d z ++ l)) = z :: (List.replicate d z ++ flipAt k l)
    simp only [flipAt, ih]

theorem drop_flipAt (d k : Nat) (l : List Byte) :
    List.drop d (flipAt (d + k) l) = flipAt k (List.drop d l) := by
  induction d generalizing l with
  | zero => simp
  | succ d ih =>
    cases l with
    | nil => cases k <;> simp [flipAt]
    | cons b l =>
      have e : d + 1 + k = (d + k) + 1 := by omega
      rw [e]
      simp only [flipAt, List.drop_succ_cons, ih]

theorem flipAt_zero_append (l1 l2 : List Byte) (h : l1 ≠ []) :
    flipAt 0 (l1 ++ l2) = flipAt 0 l1 ++ l2 := by
  cases l1 with
  | nil => exact absurd rfl h
  | cons b l => rfl

theorem take_flipAt_zero (w : Nat) (l : List Byte) (hw : 1 ≤ w) :
    List.take w (flipAt 0 l) = flipAt 0 (List.take w l) := by
  obtain ⟨v, rfl⟩ : ∃ v, w = v + 1 := ⟨w - 1, by omega⟩
  cases l with
  | nil => rfl
  | cons b l => rfl

/-- The rescale carries the flip of the most significant byte of the input
sample to the flip of the most significant byte of the output sample. -/
theorem rescaleBytes_flipAt (K : Build) (wi wo : Nat) (hwi : 1 ≤ wi) (hwo : 1 ≤ wo)
    (bs : List Byte) (hbs : bs.length = wi) :
    rescaleBytes K wi wo (flipAt (if K.WORDS_BIGENDIAN then 0 else wi - 1) bs)
      = flipAt (if K.WORDS_BIGENDIAN then 0 else wo - 1) (rescaleBytes K wi wo bs) := by
  have hfl : ∀ k, (flipAt k bs).length = wi := fun k => by rw [flipAt_length, hbs]
  cases hB : K.WORDS_BIGENDIAN
  · simp only [Bool.false_eq_true, if_false]
    by_cases h : wi ≤ wo
    · rw [rescaleBytes_le_widen K hB wi wo h _ (hfl _), rescaleBytes_le_widen K hB wi wo h _ hbs]
      have e : wo - 1 = (wo - wi) + (wi - 1) := by omega
      rw [e, flipAt_replicate_append]
    · have h2 : wo < wi := by omega
      rw [rescaleBytes_le_narrow K hB wi wo h2 _ (hfl _),
        rescaleBytes_le_narrow K hB wi wo h2 _ hbs]
      have e : wi - 1 = (wi - wo) + (wo - 1) := by omega
      rw [e, drop_flipAt]
  · simp only [if_true]
    have hne : bs ≠ [] := fun h0 => by rw [h0] at hbs; simp at hbs; omega
    by_cases h : wi ≤ wo
    · rw [rescaleBytes_be_widen K hB wi wo h _ (hfl _), rescaleBytes_be_widen K hB wi wo h _ hbs,
        flipAt_zero_append _ _ hne]
    · have h2 : wo < wi := by omega
      rw [rescaleBytes_be_narrow K hB wi wo h2 _ (hfl _),
        rescaleBytes_be_narrow K hB wi wo h2 _ hbs, take_flipAt_zero _ _ hwo]

/-- Sample `i` of a block after `flipSigns`: the sample with its byte at index
`off` flipped. -/
theorem readBytes_flipSigns (m : Mem) (data b n off : Nat)
    (hb : b = 1 ∨ b = 2 ∨ b = 3 ∨ b = 4) (hoff : off < b) (i : Nat) (hi : i < n) :
    readBytes (flipSigns m (data + off) b n) (data + b * i) b
      = flipAt off (readBytes m (data + b * i) b) := by
  have hmul : b * i + b ≤ n * b := by
    have := Nat.mul_le_mul_left b (Nat.succ_le_of_lt hi)
    rw [Nat.mul_succ, Nat.mul_comm b n] at this
    exact this
  rcases hb with rfl | rfl | rfl | rfl <;> interval_cases off <;>
    simp only [readBytes, flipAt, flipSigns, List.cons.injEq, and_true] <;>
    (repeat' apply And.intro) <;>
    (split_ifs <;> first | rfl | omega)


/-! ## Sign flip and rescale commute -/

/-- C20: the sign flip commutes with the width rescale.  On a build whose
native format constant agrees with the byte order of the target, for distinct
widths `wi`, `wo` in {1,2,3,4} and a block of `n` native-order samples whose
output buffer does not overlap it: both sign flips return, and `change_bps`
applied to the block flipped at width `wi` writes the same output block as
flipping, at width `wo`, the output of `change_bps` on the unflipped block. -/
theorem si2us_change_bps_commute (K : Build)
    (hK : K.AF_FORMAT_NE = K.AF_FORMAT_LE ↔ K.WORDS_BIGENDIAN = false)
    (m : Mem) (inp out n wi wo fuel1 fuel2 : Nat)
    (hwi : 1 ≤ wi) (hwi4 : wi ≤ 4) (hwo : 1 ≤ wo) (hwo4 : wo ≤ 4) (hne : wi ≠ wo)
    (hdisj : out + n * wo ≤ inp ∨ inp + n * wi ≤ out)
    (hf1 : n ≤ fuel1) (hf2 : n ≤ fuel2) :
    ∃ M1 R, si2us K fuel1 m inp (n : Int) (wi : Int) = some M1
      ∧ si2us K fuel2 (change_bps K m inp out (n : Int) (wi : Int) (wo : Int)) out (n : Int)
          (wo : Int) = some R
      ∧ readBytes (change_bps K M1 inp out (n : Int) (wi : Int) (wo : Int)) out (n * wo)
          = readBytes R out (n * wo) := by
  have hbi : wi = 1 ∨ wi = 2 ∨ wi = 3 ∨ wi = 4 := by omega
  have hbo : wo = 1 ∨ wo = 2 ∨ wo = 3 ∨ wo = 4 := by omega
  have hoi : signOffset K wi < wi := by rw [signOffset_eq K hK]; split <;> omega
  have hoo : signOffset K wo < wo := by rw [signOffset_eq K hK]; split <;> omega
  have hn : ((n : Nat) : Int).toNat = n := Int.toNat_ofNat n
  refine ⟨_, _, si2us_nat K fuel1 m inp n wi hbi hf1,
    si2us_nat K fuel2 _ out n wo hbo hf2, ?_⟩
  apply readBytes_block_eq
  intro i hi
  rw [change_bps_sample K _ inp out (n : Int) wi wo hwi hwi4 hwo hwo4 hne
      (by rw [hn]; exact hdisj) i (by rw [hn]; exact hi),
    readBytes_flipSigns m inp wi n _ hbi hoi i hi,
    readBytes_flipSigns _ out wo n _ hbo hoo i hi,
    change_bps_sample K m inp out (n : Int) wi wo hwi hwi4 hwo hwo4 hne
      (by rw [hn]; exact hdisj) i (by rw [hn]; exact hi),
    signOffset_eq K hK, signOffset_eq K hK]
  exact rescaleBytes_flipAt K wi wo hwi hwo _ (readBytes_length _ _ _)


/-! ## Further instances at concrete inputs -/

theorem play_law_input_routing_witness :
    ∃ pre rest,
      play_steps exampleBuild mulawBlock exampleStage.data 4
          = pre ++ Step.from_ulaw 10 0 4 2 0 :: rest
        ∧ (∀ s, s ∈ play_steps exampleBuild mulawBlock exampleStage.data 4 →
            s.isRescale = false) := by
  obtain ⟨pre, rest, h1, _, h3, _⟩ :=
    play_law_input_routing exampleBuild mulawBlock exampleStage.data 4 (by decide)
      (Or.inl (by decide))
  exact ⟨pre, rest, h1, h3⟩

theorem endian_reverses_samples_witness :
    endian exampleBuild exampleMem 10 10 2 ((2 : Nat) : Int) (10 + (2 * 1 + 0))
        = exampleMem (10 + (2 * 1 + (2 - 1 - 0)))
      ∧ endian exampleBuild exampleMem 10 40 1 ((3 : Nat) : Int) (40 + (3 * 0 + 2))
        = exampleMem (10 + (3 * 0 + (3 - 1 - 2))) :=
  ⟨(endian_reverses_samples exampleBuild exampleMem 10 10 2 2 (by decide) (by decide)).1 1 0
      (by decide) (by decide),
    (endian_reverses_samples exampleBuild exampleMem 10 40 1 3 (by decide) (by decide)).1 0 2
      (by decide) (by decide)⟩

theorem change_bps_shift_witness :
    decodeNE exampleBuild (readBytes (change_bps exampleBuild exampleMem 10 40 4
        ((1 : Nat) : Int) ((3 : Nat) : Int)) (40 + 3 * 2) 3)
      = (if 1 < 3 then decodeNE exampleBuild (readBytes exampleMem (10 + 1 * 2) 1) <<< (8 * (3 - 1))
        else decodeNE exampleBuild (readBytes exampleMem (10 + 1 * 2) 1) >>> (8 * (1 - 3))) :=
  change_bps_shift exampleBuild exampleMem 10 40 4 1 3 (by decide) (by decide) (by decide)
    (by decide) (by decide) (by decide) 2 (by decide)

theorem change_bps_narrow_widen_witness :
    decodeNE exampleBuild (readBytes (change_bps exampleBuild (change_bps exampleBuild
          exampleMem 10 20 2 ((2 : Nat) : Int) ((1 : Nat) : Int)) 20 40 2 ((1 : Nat) : Int)
          ((2 : Nat) : Int)) (40 + 2 * 0) 2)
      = decodeNE exampleBuild (readBytes exampleMem (10 + 2 * 0) 2)
        - decodeNE exampleBuild (readBytes exampleMem (10 + 2 * 0) 2) % 2 ^ (8 * (2 - 1)) :=
  (change_bps_narrow_widen exampleBuild exampleMem 10 20 40 2 1 2 (by decide) (by decide)
    (by decide) (by decide) (by decide) 0 (by decide)).1

theorem si2us_sign_byte_only_witness :
    ∃ m1, si2us exampleBuild 2 exampleMem 10 2 ((2 : Nat) : Int) = some m1
      ∧ (∀ x, (x < 10 ∨ 10 + (2 : Int).toNat * 2 ≤ x) → m1 x = exampleMem x) := by
  obtain ⟨m1, h1, _, h3⟩ :=
    (si2us_sign_byte_only exampleBuild (by decide) exampleMem 10 2 2 2 (by decide)).2
      (by decide) (by decide)
  exact ⟨m1, h1, h3⟩

theorem play_null_iff_resize_fails_witness :
    play exampleBuild idleCodec 4 none exampleStage exampleBlock exampleMem
      = some (PlayResult.null exampleBlock exampleMem) :=
  (play_null_iff_resize_fails exampleBuild idleCodec 4 none exampleStage exampleBlock
    exampleMem (by decide) (by decide)).2.1 rfl

theorem af_init_format_detach_iff_witness :
    (af_init_format exampleBuild exampleStage { exampleBlock with format := 8, bps := 2 }).1
        = AF_OK
      ∧ (af_init_format exampleBuild exampleStage { exampleBlock with format := 11, bps := 2 }).1
        = AF_OK :=
  ⟨((af_init_format_detach_iff exampleBuild exampleStage
      { exampleBlock with format := 8, bps := 2 }).2 (by decide) (by decide) (by decide)
      (by decide) (by decide)).1,
    ((af_init_format_detach_iff exampleBuild exampleStage
      { exampleBlock with format := 11, bps := 2 }).2 (by decide) (by decide) (by decide)
      (by decide) (by decide)).1⟩

theorem si2us_change_bps_commute_witness :
    ∃ M1 R, si2us exampleBuild 4 exampleMem 10 ((4 : Nat) : Int) ((1 : Nat) : Int) = some M1
      ∧ si2us exampleBuild 4 (change_bps exampleBuild exampleMem 10 40 ((4 : Nat) : Int)
          ((1 : Nat) : Int) ((2 : Nat) : Int)) 40 ((4 : Nat) : Int) ((2 : Nat) : Int) = some R
      ∧ readBytes (change_bps exampleBuild M1 10 40 ((4 : Nat) : Int) ((1 : Nat) : Int)
          ((2 : Nat) : Int)) 40 (4 * 2) = readBytes R 40 (4 * 2) :=
  si2us_change_bps_commute exampleBuild (by decide) exampleMem 10 40 4 1 2 4 4 (by decide)
    (by decide) (by decide) (by decide) (by decide) (by decide) (by decide) (by decide)

/-! ## Rounding -/

theorem rint_intCast (n : Int) : rint (n : ℚ) = n := by
  unfold rint
  rw [Int.floor_intCast]
  simp

/-- Rounding to nearest does not pass an integer above. -/
theorem rint_le (q : ℚ) (n : Int) (h : q ≤ n) : rint q ≤ n := by
  have hf1 : (⌊q⌋ : ℚ) ≤ q := Int.floor_le q
  have hfn : ⌊q⌋ ≤ n := by exact_mod_cast hf1.trans h
  unfold rint
  rcases lt_or_eq_of_le hfn with hlt | heq
  · split_ifs <;> omega
  · have hq : q - ⌊q⌋ < 1 / 2 := by
      have : q ≤ (⌊q⌋ : ℚ) := by rw [heq]; exact h
      linarith
    rw [if_pos hq]
    exact hfn

/-- Rounding to nearest does not pass an integer below. -/
theorem le_rint (q : ℚ) (n : Int) (h : (n : ℚ) ≤ q) : n ≤ rint q := by
  have hfn : n ≤ ⌊q⌋ := Int.le_floor.mpr h
  unfold rint
  split_ifs <;> omega

/-- A number closer than one half to an integer rounds to it. -/
theorem rint_eq_of_near (q : ℚ) (n : Int) (h1 : (n : ℚ) - 1 / 2 < q) (h2 : q < n + 1 / 2) :
    rint q = n := by
  have hf1 : (⌊q⌋ : ℚ) ≤ q := Int.floor_le q
  have hf2 : q < ⌊q⌋ + 1 := Int.lt_floor_add_one q
  have ha : ⌊q⌋ ≤ n := by
    have : (⌊q⌋ : ℚ) < n + 1 := by linarith
    have : ⌊q⌋ < n + 1 := by exact_mod_cast this
    omega
  have hb : n - 1 ≤ ⌊q⌋ := by
    have : (n : ℚ) - 1 < ⌊q⌋ + 1 := by linarith
    have : n - 1 < ⌊q⌋ + 1 := by exact_mod_cast this
    omega
  unfold rint
  rcases lt_or_eq_of_le ha with hlt | heq
  · have hfl : ⌊q⌋ = n - 1 := by omega
    have hc : ((⌊q⌋ : Int) : ℚ) = n - 1 := by rw [hfl]; push_cast; ring
    rw [if_neg (by rw [hc]; linarith), if_pos (by rw [hc]; linarith)]
    omega
  · rw [if_pos (by rw [heq]; linarith)]
    exact heq

/-- A half-way value above an odd integer rounds up to the even one. -/
theorem rint_half_odd (n : Int) (hodd : n % 2 = 1) : rint ((n : ℚ) + 1 / 2) = n + 1 := by
  have hfl : ⌊(n : ℚ) + 1 / 2⌋ = n := by
    rw [Int.floor_eq_iff]
    constructor <;> linarith
  unfold rint
  rw [hfl]
  rw [if_neg (by linarith), if_neg (by linarith), if_neg (by omega)]

theorem truncate_le (q : ℚ) (n : Int) (hn : 0 ≤ n) (h : q ≤ n) : truncate q ≤ n := by
  unfold truncate
  split_ifs with h0
  · exact_mod_cast (Int.floor_le q).trans h
  · have : ⌈q⌉ ≤ 0 := Int.ceil_le.mpr (by push_cast; linarith)
    omega

theorem le_truncate (q : ℚ) (n : Int) (hn : n ≤ 0) (h : (n : ℚ) ≤ q) : n ≤ truncate q := by
  unfold truncate
  split_ifs with h0
  · have : 0 ≤ ⌊q⌋ := Int.floor_nonneg.mpr h0
    omega
  · have hc : q ≤ ⌈q⌉ := Int.le_ceil q
    exact_mod_cast h.trans hc

/-- The exponent of a positive number lying between two consecutive powers of
two. -/
theorem log_eq_of_bracket (r : ℚ) (e : Int) (h1 : (2 : ℚ) ^ e ≤ r) (h2 : r < (2 : ℚ) ^ (e + 1)) :
    Int.log 2 r = e := by
  have hr : 0 < r := lt_of_lt_of_le (zpow_pos (by norm_num) e) h1
  have ha : e ≤ Int.log 2 r := (Int.zpow_le_iff_le_log (by norm_num) hr).mp (by simpa using h1)
  have hb : Int.log 2 r < e + 1 :=
    (Int.lt_zpow_iff_log_lt (by norm_num) hr).mp (by simpa using h2)
  omega

/-- Rounding of a number whose exponent is known. -/
theorem roundBinary_of_exponent (p : Nat) (emin : Int) (q : ℚ) (e : Int) (hq : q ≠ 0)
    (he : max (Int.log 2 |q|) emin = e) :
    roundBinary p emin q
      = rint (q / 2 ^ (e - ((p : Int) - 1))) * 2 ^ (e - ((p : Int) - 1)) := by
  unfold roundBinary
  rw [if_neg hq]
  simp only [he]

/-- A number `m * 2 ^ k` whose significand `m` has at most `p` bits and whose
exponent `k` is not below that of the subnormal numbers is representable:
rounding returns it. -/
theorem roundBinary_representable (p : Nat) (emin m k : Int) (hm : |m| < 2 ^ p)
    (hk : emin - ((p : Int) - 1) ≤ k) :
    roundBinary p emin ((m : ℚ) * 2 ^ k) = (m : ℚ) * 2 ^ k := by
  by_cases hm0 : m = 0
  · simp [roundBinary, hm0]
  have h2 : (2 : ℚ) ≠ 0 := by norm_num
  have h2k : (0 : ℚ) < 2 ^ k := zpow_pos (by norm_num) k
  have hq : (m : ℚ) * 2 ^ k ≠ 0 := mul_ne_zero (by exact_mod_cast hm0) h2k.ne'
  have habs : |(m : ℚ) * 2 ^ k| < 2 ^ ((p : Int) + k) := by
    rw [abs_mul, abs_of_pos h2k, zpow_add₀ h2, zpow_natCast]
    have : |(m : ℚ)| < 2 ^ p := by exact_mod_cast hm
    exact mul_lt_mul_of_pos_right this h2k
  have hlog : Int.log 2 |(m : ℚ) * 2 ^ k| < (p : Int) + k :=
    (Int.lt_zpow_iff_log_lt (by norm_num) (abs_pos.mpr hq)).mp (by simpa using habs)
  have hE : max (Int.log 2 |(m : ℚ) * 2 ^ k|) emin - ((p : Int) - 1) ≤ k := by
    rcases max_cases (Int.log 2 |(m : ℚ) * 2 ^ k|) emin with ⟨h, _⟩ | ⟨h, _⟩ <;> rw [h] <;> omega
  rw [roundBinary_of_exponent p emin _ _ hq rfl]
  generalize max (Int.log 2 |(m : ℚ) * 2 ^ k|) emin - ((p : Int) - 1) = E at hE
  obtain ⟨j, hj⟩ : ∃ j : Nat, k = E + (j : Int) := ⟨(k - E).toNat, by omega⟩
  have hdiv : (m : ℚ) * 2 ^ k / 2 ^ E = ((m * 2 ^ j : Int) : ℚ) := by
    push_cast
    rw [hj, zpow_add₀ h2, zpow_natCast]
    field_simp
    ring
  rw [hdiv, rint_intCast]
  push_cast
  rw [hj, zpow_add₀ h2, zpow_natCast]
  ring

/-- An integer of at most `p` bits is representable. -/
theorem roundBinary_intCast (p : Nat) (emin n : Int) (hn : |n| < 2 ^ p)
    (hemin : emin ≤ (p : Int) - 1) : roundBinary p emin (n : ℚ) = n := by
  have := roundBinary_representable p emin n 0 hn (by omega)
  simpa using this

/-- Rounding does not leave an interval whose ends are an integer of at most `p`
bits and its opposite. -/
theorem roundBinary_abs_le (p : Nat) (emin : Int) (q : ℚ) (B : Int) (hB : B < 2 ^ p)
    (hemin : emin ≤ (p : Int) - 1) (hlo : -(B : ℚ) ≤ q) (hhi : q ≤ B) :
    -(B : ℚ) ≤ roundBinary p emin q ∧ roundBinary p emin q ≤ B := by
  have hB0 : (0 : ℚ) ≤ B := by linarith
  by_cases hq : q = 0
  · simp [roundBinary, hq, hB0]
  have h2 : (2 : ℚ) ≠ 0 := by norm_num
  have habs : |q| < 2 ^ (p : Int) := by
    rw [zpow_natCast]
    have : (B : ℚ) < 2 ^ p := by exact_mod_cast hB
    exact lt_of_le_of_lt (abs_le.mpr ⟨hlo, hhi⟩) this
  have hlog : Int.log 2 |q| < (p : Int) :=
    (Int.lt_zpow_iff_log_lt (by norm_num) (abs_pos.mpr hq)).mp (by simpa using habs)
  have hE : max (Int.log 2 |q|) emin - ((p : Int) - 1) ≤ 0 := by
    rcases max_cases (Int.log 2 |q|) emin with ⟨h, _⟩ | ⟨h, _⟩ <;> rw [h] <;> omega
  rw [roundBinary_of_exponent p emin _ _ hq rfl]
  generalize max (Int.log 2 |q|) emin - ((p : Int) - 1) = E at hE
  obtain ⟨j, hj⟩ : ∃ j : Nat, E = -(j : Int) := ⟨(-E).toNat, by omega⟩
  have hu : (0 : ℚ) < 2 ^ E := zpow_pos (by norm_num) E
  have hBu : (B : ℚ) / 2 ^ E = ((B * 2 ^ j : Int) : ℚ) := by
    push_cast
    rw [hj, zpow_neg, zpow_natCast]
    field_simp
  constructor
  · have h := le_rint (q / 2 ^ E) (-(B * 2 ^ j)) (by
      rw [Int.cast_neg, ← hBu, ← neg_div]
      exact div_le_div_of_nonneg_right hlo hu.le)
    have h3 : ((-(B * 2 ^ j) : Int) : ℚ) ≤ rint (q / 2 ^ E) := by exact_mod_cast h
    rw [Int.cast_neg, ← hBu] at h3
    have := mul_le_mul_of_nonneg_right h3 hu.le
    rwa [neg_mul, div_mul_cancel₀ _ hu.ne'] at this
  · have h := rint_le (q / 2 ^ E) (B * 2 ^ j) (by
      rw [← hBu]
      exact div_le_div_of_nonneg_right hhi hu.le)
    have h3 : (rint (q / 2 ^ E) : ℚ) ≤ ((B * 2 ^ j : Int) : ℚ) := by exact_mod_cast h
    rw [← hBu] at h3
    have := mul_le_mul_of_nonneg_right h3 hu.le
    rwa [div_mul_cancel₀ _ hu.ne'] at this

theorem truncate_intCast (n : Int) : truncate (n : ℚ) = n := by
  unfold truncate
  split_ifs <;> simp
/-! ## `float2int` and `int2float` at width 2 -/

/-- A loop whose body has a result at every index below the bound is a plain
loop. -/
theorem forLoopTry_some (n : Nat) (body : Nat → Mem → Option Mem) (g : Nat → Mem → Mem)
    (h : ∀ i, i < n → ∀ m, body i m = some (g i m)) (m : Mem) :
    forLoopTry n body m = some (forLoop n g m) := by
  induction n with
  | zero => rfl
  | succ k ih =>
    simp only [forLoopTry, forLoop]
    rw [ih (fun i hi => h i (by omega))]
    exact h k (by omega) _

/-- A loop of 16-bit stores leaves the bytes outside the output block alone. -/
theorem store16Loop_outside (K : Build) (out : Nat) (v : Nat → Nat) (m : Mem) (n x : Nat)
    (hx : x < out ∨ out + 2 * n ≤ x) :
    forLoop n (fun i m => store16 K m (out + 2 * i) (v i)) m x = m x := by
  induction n with
  | zero => rfl
  | succ k ih =>
    simp only [forLoop, store16]
    rw [writeBytes_outside _ _ _ _ (by rw [encodeNE_length]; omega)]
    exact ih (by omega)

/-- After a loop of 16-bit stores, word `i` holds the low 16 bits of the value
stored by iteration `i`. -/
theorem store16Loop_sample (K : Build) (out : Nat) (v : Nat → Nat) (m : Mem) (n i : Nat)
    (hi : i < n) :
    load16 K (forLoop n (fun i m => store16 K m (out + 2 * i) (v i)) m) (out + 2 * i)
      = v i % 65536 := by
  induction n with
  | zero => omega
  | succ k ih =>
    simp only [forLoop]
    by_cases hik : i = k
    · subst hik
      have := readBytes_writeBytes_self (encodeNE K 2 (v i))
        (forLoop i (fun i m => store16 K m (out + 2 * i) (v i)) m) (out + 2 * i)
      rw [encodeNE_length] at this
      simp only [load16, store16] at this ⊢
      rw [this, decodeNE_encodeNE]
      norm_num
    · rw [← ih (by omega)]
      unfold load16
      congr 1
      simp only [store16]
      apply readBytes_writeBytes_disjoint
      rw [encodeNE_length]
      omega

/-- A value in the range of `int16_t` is read back from the low 16 bits of its
two's complement form. -/
theorem int16_of_uint32_of (z : Int) (h1 : -32768 ≤ z) (h2 : z ≤ 32767) :
    int16_of (uint32_of z % 65536) = z := by
  unfold int16_of uint32_of
  split_ifs <;> omega

/-- On an argument between -32767 and 32767, `lrintf` has a result, between
the same bounds: the `float` nearest the argument rounded to an integer with
`HAVE_LRINTF`, the argument truncated without. -/
theorem lrintf_of_le (L : MathBuild) (hL : 32 ≤ L.LONG_BITS) (x : ℚ) (h1 : -32767 ≤ x)
    (h2 : x ≤ 32767) :
    lrintf L x = some (if L.HAVE_LRINTF then rint (toFloat x) else truncate x)
      ∧ -32767 ≤ (if L.HAVE_LRINTF then rint (toFloat x) else truncate x)
      ∧ (if L.HAVE_LRINTF then rint (toFloat x) else truncate x) ≤ 32767 := by
  unfold lrintf
  by_cases hl : L.HAVE_LRINTF = true
  · simp only [hl, if_true]
    obtain ⟨hf1, hf2⟩ := roundBinary_abs_le 24 (-126) x 32767 (by norm_num) (by norm_num)
      (by push_cast; linarith) (by push_cast; linarith)
    have hr1 : -32767 ≤ rint (toFloat x) := le_rint _ (-32767) (by
      unfold toFloat; push_cast at hf1 ⊢; linarith)
    have hr2 : rint (toFloat x) ≤ 32767 := rint_le _ 32767 (by
      unfold toFloat; push_cast at hf2 ⊢; linarith)
    have hp : (2 : Int) ^ 31 ≤ 2 ^ (L.LONG_BITS - 1) :=
      pow_le_pow_right₀ (by norm_num) (by omega)
    refine ⟨?_, hr1, hr2⟩
    rw [if_pos ⟨by omega, by omega⟩]
  · simp only [hl, Bool.false_eq_true, if_false]
    have hr1 : -32767 ≤ truncate x := le_truncate x (-32767) (by norm_num) (by
      push_cast; linarith)
    have hr2 : truncate x ≤ 32767 := truncate_le x 32767 (by norm_num) (by push_cast; linarith)
    refine ⟨?_, hr1, hr2⟩
    rw [if_pos ⟨by omega, by omega⟩]

/-- `float2int` at width 2, when each `lrintf` has a result in the range of
`int16_t`: there is a result, word `i` of the output block read as a signed
sample is the result of `lrintf` on the product `32767.0 * in[i]`, and no byte
outside the output block changes. -/
theorem float2int_two (K : Build) (L : MathBuild) (inp : FloatArr) (m : Mem) (out n : Nat)
    (z : Nat → Int) (hz : ∀ i, i < n → lrintf L (toDouble (32767 * inp i)) = some (z i))
    (hr : ∀ i, i < n → -32768 ≤ z i ∧ z i ≤ 32767) :
    ∃ R, float2int K L inp m out (n : Int) 2 = some R
      ∧ (∀ i, i < n → int16_of (load16 K R (out + 2 * i)) = z i)
      ∧ ∀ x, (x < out ∨ out + 2 * n ≤ x) → R x = m x := by
  have h21 : ¬ ((2 : Int) = 1) := by decide
  refine ⟨forLoop n (fun i m => store16 K m (out + 2 * i) (uint32_of (z i))) m, ?_, ?_, ?_⟩
  · unfold float2int
    rw [if_neg h21, if_pos rfl, Int.toNat_ofNat]
    exact forLoopTry_some n _ _ (fun i hi m0 => by
      rw [hz i hi]
      rfl) m
  · intro i hi
    rw [store16Loop_sample K out _ m n i hi]
    exact int16_of_uint32_of (z i) (hr i hi).1 (hr i hi).2
  · intro x hx
    exact store16Loop_outside K out _ m n x hx
/-- An integer below `2 ^ 53` in absolute value is a `double`. -/
theorem toDouble_intCast (n : Int) (h : |n| < 2 ^ 53) : toDouble (n : ℚ) = n :=
  roundBinary_intCast 53 (-1022) n h (by norm_num)

/-- An integer below `2 ^ 24` in absolute value is a `float`. -/
theorem toFloat_intCast (n : Int) (h : |n| < 2 ^ 24) : toFloat (n : ℚ) = n :=
  roundBinary_intCast 24 (-126) n h (by norm_num)

/-- Every rounded value has the form `m * 2 ^ k` with a significand of at most
`2 ^ p` in absolute value and an exponent not below that of the subnormal
numbers. -/
theorem roundBinary_form (p : Nat) (emin : Int) (q : ℚ) :
    ∃ m k : Int, roundBinary p emin q = (m : ℚ) * 2 ^ k ∧ |m| ≤ 2 ^ p
      ∧ emin - ((p : Int) - 1) ≤ k := by
  by_cases hq : q = 0
  · exact ⟨0, emin - ((p : Int) - 1), by simp [roundBinary, hq], by simp, le_refl _⟩
  have h2 : (2 : ℚ) ≠ 0 := by norm_num
  have hlt : |q| < 2 ^ (Int.log 2 |q| + 1) := by
    have := Int.lt_zpow_succ_log_self (b := 2) (by norm_num) |q|
    simpa using this
  have hle : Int.log 2 |q| ≤ max (Int.log 2 |q|) emin := le_max_left _ _
  have hemin : emin ≤ max (Int.log 2 |q|) emin := le_max_right _ _
  rw [roundBinary_of_exponent p emin q _ hq rfl]
  generalize max (Int.log 2 |q|) emin = e at hle hemin
  have hu : (0 : ℚ) < 2 ^ (e - ((p : Int) - 1)) := zpow_pos (by norm_num) _
  have hq2 : |q| < 2 ^ (e + 1) :=
    lt_of_lt_of_le hlt (zpow_le_zpow_right₀ (by norm_num) (by omega))
  have hsplit : (2 : ℚ) ^ (e + 1) = 2 ^ p * 2 ^ (e - ((p : Int) - 1)) := by
    rw [← zpow_natCast, ← zpow_add₀ h2]
    congr 1
    omega
  have hdiv : |q / 2 ^ (e - ((p : Int) - 1))| < 2 ^ p := by
    rw [abs_div, abs_of_pos hu, div_lt_iff₀ hu, ← hsplit]
    exact hq2
  obtain ⟨hd1, hd2⟩ := abs_lt.mp hdiv
  refine ⟨rint (q / 2 ^ (e - ((p : Int) - 1))), e - ((p : Int) - 1), rfl, ?_, by omega⟩
  rw [abs_le]
  constructor
  · exact le_rint _ (-(2 ^ p)) (by push_cast; linarith)
  · exact rint_le _ (2 ^ p) (by push_cast; linarith)

/-- The product of `32767.0` and a `float`, formed in `double`, is exact. -/
theorem toDouble_scale_float (x : ℚ) (hx : toFloat x = x) :
    toDouble (32767 * x) = 32767 * x := by
  obtain ⟨m, k, hm, hb, hk⟩ := roundBinary_form 24 (-126) x
  have hxm : x = (m : ℚ) * 2 ^ k := by
    rw [← hm]
    exact hx.symm
  have hprod : (32767 : ℚ) * x = ((32767 * m : Int) : ℚ) * 2 ^ k := by
    rw [hxm]
    push_cast
    ring
  rw [hprod]
  refine roundBinary_representable 53 (-1022) (32767 * m) k ?_ (by push_cast at hk ⊢; omega)
  rw [abs_mul]
  have : |(32767 : Int)| = 32767 := by decide
  rw [this]
  have hb2 : |m| ≤ 16777216 := by simpa using hb
  norm_num
  omega

/-- C10 as stated fails in both builds.  Without `HAVE_LRINTF` the sample 1/2 is
converted to 16383 although `32767 * (1/2) = 16383.5` rounds to 16384: the macro
truncates.  With `HAVE_LRINTF` the `float` sample `12583296 * 2 ^ (-38)` is
converted to 2 although its product with 32767 is below 1.5 and rounds to 1: the
product is rounded to `float` before it is rounded to an integer. -/
theorem float2int_not_round :
    (∃ R, float2int exampleBuild castBuild (fun _ => 1 / 2) exampleMem 100 1 2 = some R
        ∧ int16_of (load16 exampleBuild R 100) = 16383
        ∧ round ((32767 : ℚ) * (1 / 2)) = 16384
        ∧ int16_of (load16 exampleBuild R 100) ≠ round ((32767 : ℚ) * (1 / 2)))
      ∧ (∃ R, float2int exampleBuild lrintfBuild (fun _ => 12583296 / 2 ^ 38) exampleMem 100 1 2
            = some R
          ∧ int16_of (load16 exampleBuild R 100) = 2
          ∧ round ((32767 : ℚ) * (12583296 / 2 ^ 38)) = 1
          ∧ int16_of (load16 exampleBuild R 100) ≠ round ((32767 : ℚ) * (12583296 / 2 ^ 38))
          ∧ toFloat (12583296 / 2 ^ 38) = 12583296 / 2 ^ 38) := by
  constructor
  · have hd : toDouble (32767 * (1 / 2)) = 32767 / 2 := by
      have h := roundBinary_representable 53 (-1022) 32767 (-1) (by norm_num) (by norm_num)
      have e : ((32767 : Int) : ℚ) * 2 ^ (-1 : Int) = 32767 * (1 / 2) := by norm_num
      rw [e] at h
      rw [toDouble, h]
      norm_num
    have ht : truncate (32767 / 2) = 16383 := by
      unfold truncate
      rw [if_pos (by norm_num), Int.floor_eq_iff]
      constructor <;> norm_num
    have hz : ∀ i, i < 1 →
        lrintf castBuild (toDouble (32767 * (fun _ : Nat => (1 / 2 : ℚ)) i)) = some 16383 := by
      intro i _
      beta_reduce
      rw [hd]
      simp only [lrintf, castBuild, Bool.false_eq_true, if_false, ht]
      rfl
    obtain ⟨R, hR, hs, _⟩ := float2int_two exampleBuild castBuild (fun _ => 1 / 2) exampleMem 100 1
      (fun _ => 16383) hz (fun _ _ => by constructor <;> norm_num)
    have hout : int16_of (load16 exampleBuild R 100) = 16383 := by
      simpa using hs 0 (by norm_num)
    have hround : round ((32767 : ℚ) * (1 / 2)) = 16384 := by
      rw [round_eq, Int.floor_eq_iff]
      constructor <;> norm_num
    exact ⟨R, by simpa using hR, hout, hround, by rw [hout, hround]; decide⟩
  · have hd : toDouble (32767 * (12583296 / 2 ^ 38)) = 412316860032 / 2 ^ 38 := by
      have h := roundBinary_representable 53 (-1022) 412316860032 (-38) (by norm_num)
        (by norm_num)
      have e : ((412316860032 : Int) : ℚ) * 2 ^ (-38 : Int) = 32767 * (12583296 / 2 ^ 38) := by
        norm_num
      rw [e] at h
      rw [toDouble, h]
      norm_num
    have hf : toFloat (412316860032 / 2 ^ 38) = 3 / 2 := by
      have hlog : Int.log 2 |(412316860032 / 2 ^ 38 : ℚ)| = 0 :=
        log_eq_of_bracket _ 0 (by rw [abs_of_pos (by norm_num)]; norm_num)
          (by rw [abs_of_pos (by norm_num)]; norm_num)
      rw [toFloat, roundBinary_of_exponent 24 (-126) _ 0 (by norm_num) (by rw [hlog]; rfl)]
      have hr : rint (412316860032 / 2 ^ 38 / 2 ^ ((0 : Int) - (((24 : Nat) : Int) - 1)))
          = 12582912 :=
        rint_eq_of_near _ 12582912 (by norm_num) (by norm_num)
      rw [hr]
      norm_num
    have hr : rint (3 / 2) = 2 := by
      have := rint_half_odd 1 (by decide)
      norm_num at this
      exact this
    have hz : ∀ i, i < 1 →
        lrintf lrintfBuild (toDouble (32767 * (fun _ : Nat => (12583296 / 2 ^ 38 : ℚ)) i))
          = some 2 := by
      intro i _
      beta_reduce
      rw [hd]
      simp only [lrintf, lrintfBuild, if_true, hf, hr]
      rfl
    obtain ⟨R, hR, hs, _⟩ := float2int_two exampleBuild lrintfBuild
      (fun _ => 12583296 / 2 ^ 38) exampleMem 100 1 (fun _ => 2) hz
      (fun _ _ => by constructor <;> norm_num)
    have hout : int16_of (load16 exampleBuild R 100) = 2 := by
      simpa using hs 0 (by norm_num)
    have hround : round ((32767 : ℚ) * (12583296 / 2 ^ 38)) = 1 := by
      rw [round_eq, Int.floor_eq_iff]
      constructor <;> norm_num
    refine ⟨R, by simpa using hR, hout, hround, by rw [hout, hround]; decide, ?_⟩
    · have h := roundBinary_representable 24 (-126) 12583296 (-38) (by norm_num) (by norm_num)
      have e : ((12583296 : Int) : ℚ) * 2 ^ (-38 : Int) = 12583296 / 2 ^ 38 := by norm_num
      rw [e] at h
      exact h
/-- The product `32767.0 * x` formed in `double` for `x` between -1 and 1 lies
between -32767 and 32767. -/
theorem toDouble_scale_bounds (x : ℚ) (h1 : -1 ≤ x) (h2 : x ≤ 1) :
    -32767 ≤ toDouble (32767 * x) ∧ toDouble (32767 * x) ≤ 32767 := by
  have h := roundBinary_abs_le 53 (-1022) (32767 * x) 32767 (by norm_num) (by norm_num)
    (by push_cast; linarith) (by push_cast; linarith)
  push_cast at h
  exact h

/-- `float2int` at width 2 on samples between -1 and 1: there is a result in
either build, and output word `i` read as a signed sample is the `double`
product `32767.0 * in[i]` rounded to `float` and then to an integer (with
`HAVE_LRINTF`) or truncated (without), a value between -32767 and 32767. -/
theorem float2int_two_unit (K : Build) (L : MathBuild) (inp : FloatArr) (m : Mem) (out n : Nat)
    (hL : 32 ≤ L.LONG_BITS) (hx : ∀ i, i < n → -1 ≤ inp i ∧ inp i ≤ 1) :
    ∃ R, float2int K L inp m out (n : Int) 2 = some R
      ∧ ∀ i, i < n →
        int16_of (load16 K R (out + 2 * i))
            = (if L.HAVE_LRINTF then rint (toFloat (toDouble (32767 * inp i)))
              else truncate (toDouble (32767 * inp i)))
          ∧ -32767 ≤ int16_of (load16 K R (out + 2 * i))
          ∧ int16_of (load16 K R (out + 2 * i)) ≤ 32767 := by
  have hlr : ∀ i, i < n →
      lrintf L (toDouble (32767 * inp i))
          = some (if L.HAVE_LRINTF then rint (toFloat (toDouble (32767 * inp i)))
            else truncate (toDouble (32767 * inp i)))
        ∧ -32767 ≤ (if L.HAVE_LRINTF then rint (toFloat (toDouble (32767 * inp i)))
            else truncate (toDouble (32767 * inp i)))
        ∧ (if L.HAVE_LRINTF then rint (toFloat (toDouble (32767 * inp i)))
            else truncate (toDouble (32767 * inp i))) ≤ 32767 := by
    intro i hi
    obtain ⟨hb1, hb2⟩ := toDouble_scale_bounds (inp i) (hx i hi).1 (hx i hi).2
    exact lrintf_of_le L hL _ hb1 hb2
  obtain ⟨R, hR, hs, _⟩ := float2int_two K L inp m out n
    (fun i => if L.HAVE_LRINTF then rint (toFloat (toDouble (32767 * inp i)))
      else truncate (toDouble (32767 * inp i)))
    (fun i hi => (hlr i hi).1)
    (fun i hi => ⟨le_trans (by norm_num) (hlr i hi).2.1, (hlr i hi).2.2⟩)
  refine ⟨R, hR, fun i hi => ?_⟩
  have hv := hs i hi
  beta_reduce at hv
  refine ⟨hv, ?_, ?_⟩
  · rw [hv]; exact (hlr i hi).2.1
  · rw [hv]; exact (hlr i hi).2.2

/-- C10 (amended): `float2int` with `bps = 2` on samples between -1 and 1 has a
result in either build, provided a `long` has at least 32 bits.  Output word
`i`, read as a signed 16-bit sample, lies between -32767 and 32767 and is: with
`HAVE_LRINTF`, the `double` product `32767.0 * in[i]` rounded to `float` and
then to the nearest integer, ties to even; without `HAVE_LRINTF`, that product
truncated toward zero.  When `in[i]` is a `float` the product is exact.  The
sample 1.0 gives 32767, the sample 0.0 gives 0 and the sample -1.0 gives
-32767 in either build. -/
theorem float2int_width2 (K : Build) (L : MathBuild) (inp : FloatArr) (m : Mem) (out n : Nat)
    (hL : 32 ≤ L.LONG_BITS) (hx : ∀ i, i < n → -1 ≤ inp i ∧ inp i ≤ 1) :
    ∃ R, float2int K L inp m out (n : Int) 2 = some R
      ∧ ∀ i, i < n →
        int16_of (load16 K R (out + 2 * i))
            = (if L.HAVE_LRINTF then rint (toFloat (toDouble (32767 * inp i)))
              else truncate (toDouble (32767 * inp i)))
          ∧ (toFloat (inp i) = inp i →
              int16_of (load16 K R (out + 2 * i))
                = (if L.HAVE_LRINTF then rint (toFloat (32767 * inp i))
                  else truncate (32767 * inp i)))
          ∧ -32767 ≤ int16_of (load16 K R (out + 2 * i))
          ∧ int16_of (load16 K R (out + 2 * i)) ≤ 32767
          ∧ (inp i = 1 → int16_of (load16 K R (out + 2 * i)) = 32767)
          ∧ (inp i = 0 → int16_of (load16 K R (out + 2 * i)) = 0)
          ∧ (inp i = -1 → int16_of (load16 K R (out + 2 * i)) = -32767) := by
  obtain ⟨R, hR, hs⟩ := float2int_two_unit K L inp m out n hL hx
  refine ⟨R, hR, fun i hi => ?_⟩
  obtain ⟨hv, hlo, hhi⟩ := hs i hi
  have h32767 : toDouble ((32767 : Int) : ℚ) = 32767 := by
    rw [toDouble_intCast 32767 (by norm_num)]
    norm_num
  have hf32767 : toFloat ((32767 : Int) : ℚ) = 32767 := by
    rw [toFloat_intCast 32767 (by norm_num)]
    norm_num
  have hn32767 : toDouble ((-32767 : Int) : ℚ) = -32767 := by
    rw [toDouble_intCast (-32767) (by norm_num)]
    norm_num
  have hfn32767 : toFloat ((-32767 : Int) : ℚ) = -32767 := by
    rw [toFloat_intCast (-32767) (by norm_num)]
    norm_num
  have h0 : toDouble 0 = 0 := by simp [toDouble, roundBinary]
  have hf0 : toFloat 0 = 0 := by simp [toFloat, roundBinary]
  have hr (k : Int) : rint ((k : ℚ)) = k := rint_intCast k
  have ht (k : Int) : truncate ((k : ℚ)) = k := truncate_intCast k
  refine ⟨hv, fun hfl => ?_, hlo, hhi, fun h => ?_, fun h => ?_, fun h => ?_⟩
  · rw [hv, toDouble_scale_float _ hfl]
  · rw [hv, h]
    have e : (32767 : ℚ) * 1 = ((32767 : Int) : ℚ) := by norm_num
    rw [e, h32767]
    have e2 : (32767 : ℚ) = ((32767 : Int) : ℚ) := by norm_num
    rw [e2, hf32767, e2, hr, ht]
    simp
  · rw [hv, h]
    have e : (32767 : ℚ) * 0 = 0 := by norm_num
    rw [e, h0, hf0]
    have e2 : (0 : ℚ) = ((0 : Int) : ℚ) := by norm_num
    rw [e2, hr, ht]
    simp
  · rw [hv, h]
    have e : (32767 : ℚ) * -1 = ((-32767 : Int) : ℚ) := by norm_num
    rw [e, hn32767]
    have e2 : (-32767 : ℚ) = ((-32767 : Int) : ℚ) := by norm_num
    rw [e2, hfn32767, e2, hr, ht]
    simp

theorem float2int_width2_witness :
    ∃ R, float2int exampleBuild lrintfBuild
        (fun i => if i = 0 then 1 else if i = 1 then 0 else -1) exampleMem 100 3 2 = some R
      ∧ int16_of (load16 exampleBuild R 100) = 32767
      ∧ int16_of (load16 exampleBuild R 102) = 0
      ∧ int16_of (load16 exampleBuild R 104) = -32767 := by
  obtain ⟨R, hR, hs⟩ := float2int_width2 exampleBuild lrintfBuild
    (fun i => if i = 0 then 1 else if i = 1 then 0 else -1) exampleMem 100 3 (by decide)
    (fun i _ => by
      beta_reduce
      split_ifs <;> constructor <;> norm_num)
  exact ⟨R, hR, (hs 0 (by decide)).2.2.2.2.1 rfl, (hs 1 (by decide)).2.2.2.2.2.1 rfl,
    (hs 2 (by decide)).2.2.2.2.2.2 rfl⟩
/-- After a loop that assigns one array element per iteration, element `i` holds
the value assigned by iteration `i`. -/
theorem updateLoop_sample (v : Nat → ℚ) (o : FloatArr) (n i : Nat) (hi : i < n) :
    forLoopArr n (fun i o => Function.update o i (v i)) o i = v i := by
  induction n with
  | zero => omega
  | succ k ih =>
    simp only [forLoopArr]
    by_cases hik : i = k
    · subst hik
      simp
    · rw [Function.update_noteq hik]
      exact ih (by omega)

/-- A signed 16-bit sample lies between -32768 and 32767. -/
theorem int16_of_bounds (v : Nat) : -32768 ≤ int16_of v ∧ int16_of v ≤ 32767 := by
  unfold int16_of
  split_ifs <;> omega

/-- The scaling `(1.0/32768.0) * s` of a signed 16-bit sample, and its
assignment to a `float`, are exact. -/
theorem toFloat_scale_int16 (s : Int) (h1 : -32768 ≤ s) (h2 : s ≤ 32767) :
    toFloat (toDouble (toDouble (1 / 32768) * s)) = (s : ℚ) / 32768 := by
  have hc : toDouble (1 / 32768) = 1 / 32768 := by
    have h := roundBinary_representable 53 (-1022) 1 (-15) (by norm_num) (by norm_num)
    have e : ((1 : Int) : ℚ) * 2 ^ (-15 : Int) = 1 / 32768 := by norm_num
    rw [e] at h
    exact h
  have habs : |s| < 2 ^ 24 := by
    rw [abs_lt]
    constructor <;> norm_num <;> omega
  have e : (1 / 32768 : ℚ) * s = (s : ℚ) * 2 ^ (-15 : Int) := by
    norm_num
    ring
  have e2 : (s : ℚ) / 32768 = (s : ℚ) * 2 ^ (-15 : Int) := by
    norm_num
    ring
  rw [hc, e, e2, toDouble,
    roundBinary_representable 53 (-1022) s (-15)
      (lt_trans habs (by norm_num)) (by norm_num), toFloat,
    roundBinary_representable 24 (-126) s (-15) habs (by norm_num)]

/-- The sample 32767/32768 is quantized to 32766 in either build. -/
theorem quantize_top (L : MathBuild) :
    (if L.HAVE_LRINTF then rint (toFloat (toDouble (32767 * (32767 / 32768))))
      else truncate (toDouble (32767 * (32767 / 32768)))) = 32766 := by
  have hd : toDouble (32767 * (32767 / 32768)) = 1073676289 / 32768 := by
    have h := roundBinary_representable 53 (-1022) 1073676289 (-15) (by norm_num) (by norm_num)
    have e : ((1073676289 : Int) : ℚ) * 2 ^ (-15 : Int) = 32767 * (32767 / 32768) := by norm_num
    rw [e] at h
    rw [toDouble, h]
    norm_num
  rw [hd]
  split_ifs
  · have hlog : Int.log 2 |(1073676289 / 32768 : ℚ)| = 14 :=
      log_eq_of_bracket _ 14 (by rw [abs_of_pos (by norm_num)]; norm_num)
        (by rw [abs_of_pos (by norm_num)]; norm_num)
    rw [toFloat, roundBinary_of_exponent 24 (-126) _ 14 (by norm_num) (by rw [hlog]; rfl)]
    have hr : rint (1073676289 / 32768 / 2 ^ ((14 : Int) - (((24 : Nat) : Int) - 1)))
        = 16776192 :=
      rint_eq_of_near _ 16776192 (by norm_num) (by norm_num)
    rw [hr]
    have e : ((16776192 : Int) : ℚ) * 2 ^ ((14 : Int) - (((24 : Nat) : Int) - 1))
        = ((32766 : Int) : ℚ) := by norm_num
    rw [e, rint_intCast]
  · unfold truncate
    rw [if_pos (by norm_num), Int.floor_eq_iff]
    constructor <;> norm_num

/-- C11: `int2float` with `bps = 2` writes exactly `s / 32768` for every signed
16-bit sample `s`, so the sample 32767 becomes 32767/32768 and not 1.0; and
`float2int` with `bps = 2` applied to the array `int2float` has written has a
result (for a `long` of at least 32 bits) and does not restore that sample: it
gives 32766 wherever the input sample was 32767, in the build with
`HAVE_LRINTF` and in the build without. -/
theorem int2float_width2 (K : Build) (L : MathBuild) (m : Mem) (inp : Nat) (out : FloatArr)
    (n : Nat) (hL : 32 ≤ L.LONG_BITS) :
    (∀ i, i < n →
        int2float K m inp out (n : Int) 2 i = (int16_of (load16 K m (inp + 2 * i)) : ℚ) / 32768)
      ∧ (∀ i, i < n → int16_of (load16 K m (inp + 2 * i)) = 32767 →
          int2float K m inp out (n : Int) 2 i = 32767 / 32768
            ∧ int2float K m inp out (n : Int) 2 i ≠ 1)
      ∧ ∀ (m2 : Mem) (o2 : Nat),
          ∃ R, float2int K L (int2float K m inp out (n : Int) 2) m2 o2 (n : Int) 2 = some R
            ∧ ∀ i, i < n → int16_of (load16 K m (inp + 2 * i)) = 32767 →
              int16_of (load16 K R (o2 + 2 * i)) = 32766
                ∧ int16_of (load16 K R (o2 + 2 * i)) ≠ int16_of (load16 K m (inp + 2 * i)) := by
  have h21 : ¬ ((2 : Int) = 1) := by decide
  have hval : ∀ i, i < n →
      int2float K m inp out (n : Int) 2 i
        = (int16_of (load16 K m (inp + 2 * i)) : ℚ) / 32768 := by
    intro i hi
    unfold int2float
    rw [if_neg h21, if_pos rfl, Int.toNat_ofNat,
      updateLoop_sample (fun i =>
        toFloat (toDouble (toDouble (1 / 32768) * int16_of (load16 K m (inp + 2 * i))))) out n i hi]
    exact toFloat_scale_int16 _ (int16_of_bounds _).1 (int16_of_bounds _).2
  refine ⟨hval, fun i hi hs => ?_, fun m2 o2 => ?_⟩
  · rw [hval i hi, hs]
    constructor <;> norm_num
  · obtain ⟨R, hR, hout⟩ := float2int_two_unit K L (int2float K m inp out (n : Int) 2) m2 o2 n hL
      (fun i hi => by
        rw [hval i hi]
        obtain ⟨h1, h2⟩ := int16_of_bounds (load16 K m (inp + 2 * i))
        have h1q : (-32768 : ℚ) ≤ int16_of (load16 K m (inp + 2 * i)) := by exact_mod_cast h1
        have h2q : (int16_of (load16 K m (inp + 2 * i)) : ℚ) ≤ 32767 := by exact_mod_cast h2
        constructor
        · rw [le_div_iff₀ (by norm_num)]; linarith
        · rw [div_le_iff₀ (by norm_num)]; linarith)
    refine ⟨R, hR, fun i hi hs => ?_⟩
    have h := (hout i hi).1
    rw [hval i hi, hs] at h
    have e : (((32767 : Int) : ℚ)) / 32768 = 32767 / 32768 := by norm_num
    rw [e, quantize_top L] at h
    exact ⟨h, by rw [h, hs]; decide⟩

theorem int2float_width2_witness :
    int2float exampleBuild (memOf 10 [0xFF, 0x7F]) 10 (fun _ => 0) 1 2 0 = 32767 / 32768
      ∧ ∃ R, float2int exampleBuild lrintfBuild
            (int2float exampleBuild (memOf 10 [0xFF, 0x7F]) 10 (fun _ => 0) 1 2) exampleMem 100 1 2
          = some R
        ∧ int16_of (load16 exampleBuild R 100) = 32766 := by
  have hs : int16_of (load16 exampleBuild (memOf 10 [0xFF, 0x7F]) (10 + 2 * 0)) = 32767 := by
    decide
  obtain ⟨_, h2, h3⟩ := int2float_width2 exampleBuild lrintfBuild (memOf 10 [0xFF, 0x7F]) 10
    (fun _ => 0) 1 (by decide)
  obtain ⟨R, hR, hq⟩ := h3 exampleMem 100
  exact ⟨(h2 0 (by decide) hs).1, R, hR, (hq 0 (by decide) hs).1⟩
end Splayer
